import Mathlib

/-! # bcachefs: journal pin ledger and leaf-update commit path

A shallow embedding of `libbcachefs/journal_reclaim.c` (journal entry pinning and
fast reclaim) and of the commit path of `libbcachefs/btree_update_leaf.c`,
followed by theorems about them.

Conventions of the embedding:

* a `BUG_ON` that fires ends the operation: ledger operations return
  `Except bug _`, and `.error b` names the assertion that fired;
* `j->lock` is held across every operation modelled here, so each operation is
  one atomic step on the ledger state;
* `journal_wake` only wakes sleeping waiters and has no effect on the ledger,
  so it does not appear;
* `atomic_t` counts are integers (a decrement below zero gives `-1`, as in C);
  the 32-bit range is not modelled, it would take `2^31` simultaneous pins to
  leave it.
-/

namespace Bcachefs

/-! ## Journal pin ledger: data model -/

/-- The assertions of `journal_reclaim.c`, named after the place they guard. -/
inductive bug where
  /-- Assertion `BUG_ON(journal_pin_active(pin))` in `__journal_pin_add`. -/
  | pin_add_active
  /-- Assertion `BUG_ON(!atomic_read(&pin_list->count))` in `__journal_pin_add`. -/
  | pin_add_zero_count
  /-- Assertion `BUG_ON(!list_empty(&fifo_peek_front(&j->pin).list))` in `bch2_journal_reclaim_fast`. -/
  | reclaim_list_not_empty
  /-- Assertion `BUG_ON(!fifo_pop(&j->pin, temp))` in `bch2_journal_reclaim_fast`. -/
  | reclaim_pop_failed
  deriving DecidableEq, Repr

/-- Modelled from the spec: `struct journal_entry_pin_list` (journal_types.h is not
among the sources). The per-seq record of spec §3: the `active` membership
(`list`) and the `flushed` membership, both head first, the reference `count`,
and the devices the journal entry was written to. Pins are named by their index
among the `n` pin objects of the system; a pin's intrusive `list` node is
represented by its occurrence in the membership it is linked on. -/
structure journal_entry_pin_list (n : Nat) where
  list : List (Fin n)
  flushed : List (Fin n)
  count : Int
  devs : List Nat

/-- Modelled from the spec: `struct journal_entry_pin` (journal_types.h is not among
the sources): the flush callback (`none` is `NULL`) and the back-reference to
the pin list the pin is attached to (`none` is `NULL`). A pointer to a pin list
is modelled by the seq of the window entry it points to. -/
structure journal_entry_pin where
  flush : Option Nat
  pin_list : Option Nat
  deriving DecidableEq, Repr

/-- Modelled from the spec: the fifo `j->pin` (fifo.h is not among the sources),
the sliding window of spec §3 keyed by seq. The window holds the entries of the
seqs `front ≤ s < back`; `data s` is the memory of the entry of seq `s`, which
stays readable after the entry has been popped. `size` is the capacity. -/
structure pin_fifo (n : Nat) where
  front : Nat
  back : Nat
  size : Nat
  data : Nat → journal_entry_pin_list n

/-- The part of `struct journal` the pin code works on, together with the memory of
the `n` pins (each owned by a btree node write buffer). -/
structure journal (n : Nat) where
  pin : pin_fifo n
  pins : Fin n → journal_entry_pin

variable {n : Nat}

/-- Modelled from the spec: `fifo_used`, the number of entries in the window. -/
def fifo_used (f : pin_fifo n) : Nat := f.back - f.front

/-- Modelled from the spec: `fifo_peek_front`, the oldest entry of the window. -/
def fifo_peek_front (f : pin_fifo n) : journal_entry_pin_list n := f.data f.front

/-- Modelled from the spec: `fifo_pop`, which fails on an empty fifo and otherwise
removes the front entry (its memory is left as it is). -/
def fifo_pop (f : pin_fifo n) : Option (pin_fifo n) :=
  if fifo_used f = 0 then none else some { f with front := f.front + 1 }

/-- Modelled from the spec: `fifo_entry_idx_abs`, the seq of the entry a pointer
points to. -/
def fifo_entry_idx_abs (_f : pin_fifo n) (p : Nat) : Nat := p

/-- Modelled from the spec: `journal_seq_pin`, the pointer to the pin list of `seq`. -/
def journal_seq_pin (_j : journal n) (seq : Nat) : Nat := seq

/-- Modelled from the spec: `journal_pin_active`, "a pin is active iff its
back-reference is non-null". -/
def journal_pin_active (pin : journal_entry_pin) : Bool := pin.pin_list.isSome

/-- Store `e` as the entry of seq `s`. -/
def pin_fifo.set (f : pin_fifo n) (s : Nat) (e : journal_entry_pin_list n) : pin_fifo n :=
  { f with data := Function.update f.data s e }

/-- Modelled from the spec: `list_del_init(&pin->list)`: unlink the pin's node from
whichever membership it is linked on (a node is linked in at most one place). -/
def list_del_init (f : pin_fifo n) (pin : Fin n) : pin_fifo n :=
  { f with data := fun s =>
      { f.data s with
        list := (f.data s).list.filter (fun q => q ≠ pin)
        flushed := (f.data s).flushed.filter (fun q => q ≠ pin) } }

/-! ## Journal pin ledger: operations (journal_reclaim.c) -/

/-- Embedding of `journal_pin_seq` (journal_reclaim.c:13). -/
def journal_pin_seq (j : journal n) (pin_list : Nat) : Nat :=
  fifo_entry_idx_abs j.pin pin_list

/-- Embedding of `bch2_journal_pin_seq` (journal_reclaim.c:19). -/
def bch2_journal_pin_seq (j : journal n) (pin : Fin n) : Nat :=
  match (j.pins pin).pin_list with
  | some pin_list => journal_pin_seq j pin_list
  | none => 0

/-- Embedding of `__journal_pin_add` (journal_reclaim.c:31). -/
def __journal_pin_add (j : journal n) (pin_list : Nat) (pin : Fin n)
    (flush_fn : Option Nat) : Except bug (journal n) :=
  if journal_pin_active (j.pins pin) then .error .pin_add_active
  else if (j.pin.data pin_list).count = 0 then .error .pin_add_zero_count
  else
    let e := j.pin.data pin_list
    let e1 := { e with count := e.count + 1 }
    let e2 := if flush_fn.isSome then { e1 with list := pin :: e1.list } else e1
    .ok { pin := j.pin.set pin_list e2
          pins := Function.update j.pins pin { flush := flush_fn, pin_list := some pin_list } }

/-- Embedding of `bch2_journal_pin_add` (journal_reclaim.c:55). -/
def bch2_journal_pin_add (j : journal n) (seq : Nat) (pin : Fin n)
    (flush_fn : Option Nat) : Except bug (journal n) :=
  __journal_pin_add j (journal_seq_pin j seq) pin flush_fn

/-- Embedding of `bch2_journal_reclaim_fast` (journal_reclaim.c:126): pop the front entry while its
count is zero. Each turn of the loop pops one entry or ends in an assertion. -/
def bch2_journal_reclaim_fast (j : journal n) : Except bug (journal n) :=
  if (fifo_peek_front j.pin).count ≠ 0 then .ok j
  else if (fifo_peek_front j.pin).list ≠ [] then .error .reclaim_list_not_empty
  else
    match _hpop : fifo_pop j.pin with
    | none => .error .reclaim_pop_failed
    | some f => bch2_journal_reclaim_fast { j with pin := f }
termination_by fifo_used j.pin
decreasing_by
  unfold fifo_pop at _hpop
  split at _hpop
  · cases _hpop
  · cases _hpop
    simp only [fifo_used] at *
    omega

/-- Embedding of `__journal_pin_drop` (journal_reclaim.c:64). -/
def __journal_pin_drop (j : journal n) (pin : Fin n) : Except bug (journal n) :=
  match (j.pins pin).pin_list with
  | none => .ok j
  | some pin_list =>
    let pins := Function.update j.pins pin { j.pins pin with pin_list := none }
    let f := list_del_init j.pin pin
    let e := f.data pin_list
    let j1 : journal n := { pin := f.set pin_list { e with count := e.count - 1 }, pins := pins }
    if e.count - 1 = 0 ∧ pin_list = j.pin.front then bch2_journal_reclaim_fast j1
    else .ok j1

/-- Embedding of `bch2_journal_pin_drop` (journal_reclaim.c:84). -/
def bch2_journal_pin_drop (j : journal n) (pin : Fin n) : Except bug (journal n) :=
  __journal_pin_drop j pin

/-- Embedding of `bch2_journal_pin_add_if_older` (journal_reclaim.c:92). -/
def bch2_journal_pin_add_if_older (j : journal n) (src_pin pin : Fin n)
    (flush_fn : Option Nat) : Except bug (journal n) :=
  match (j.pins src_pin).pin_list with
  | none => .ok j
  | some src_list =>
    if (match (j.pins pin).pin_list with
        | none => true
        | some pin_list => decide (journal_pin_seq j src_list < journal_pin_seq j pin_list)) then
      -- `src_pin` and `pin` differ on this branch (`src_pin` is active and `pin` is
      -- inactive or at another seq), so the drop leaves `src_pin->pin_list` as read above
      match __journal_pin_drop j pin with
      | .error b => .error b
      | .ok j1 => __journal_pin_add j1 src_list pin flush_fn
    else .ok j

/-- Embedding of `list_move(&pin->list, &pin_list->flushed)`: unlink the pin's node and link it at
the head of the flushed membership of the entry of seq `s`. -/
def list_move_flushed (f : pin_fifo n) (pin : Fin n) (s : Nat) : pin_fifo n :=
  let f1 := list_del_init f pin
  f1.set s { f1.data s with flushed := pin :: (f1.data s).flushed }

/-- The `fifo_for_each_entry_ptr` loop of `__journal_get_next_pin` over the seqs still
to visit: stop at the first seq past `seq_to_flush`, return the head of the first
non-empty active list after moving it to the flushed membership. -/
def journal_get_next_pin_scan (j : journal n) (seq_to_flush : Nat) :
    List Nat → journal n × Option (Fin n × Nat)
  | [] => (j, none)
  | iter :: rest =>
    if iter > seq_to_flush then (j, none)
    else
      match (j.pin.data iter).list with
      | ret :: _ => ({ j with pin := list_move_flushed j.pin ret iter }, some (ret, iter))
      | [] => journal_get_next_pin_scan j seq_to_flush rest

/-- Embedding of `__journal_get_next_pin` (journal_reclaim.c:147): the state after the call and the
returned pin with the seq stored through `seq` (`none` is `NULL`). -/
def __journal_get_next_pin (j : journal n) (seq_to_flush : Nat) :
    Except bug (journal n × Option (Fin n × Nat)) :=
  match bch2_journal_reclaim_fast j with
  | .error b => .error b
  | .ok j1 =>
    .ok (journal_get_next_pin_scan j1 seq_to_flush
      (List.range' j1.pin.front (fifo_used j1.pin)))

/-! ## Journal pin ledger: runs of operations and invariants -/

/-- One call into the ledger, made with `j->lock` held. -/
inductive ledger_op (n : Nat) where
  | pin_add (seq : Nat) (pin : Fin n) (flush_fn : Option Nat)
  | pin_drop (pin : Fin n)
  | pin_add_if_older (src_pin pin : Fin n) (flush_fn : Option Nat)
  | get_next_pin (seq_to_flush : Nat)
  | reclaim_fast

/-- The ledger after one call, or the assertion the call tripped. -/
def ledger_step (j : journal n) : ledger_op n → Except bug (journal n)
  | .pin_add seq pin flush_fn => bch2_journal_pin_add j seq pin flush_fn
  | .pin_drop pin => bch2_journal_pin_drop j pin
  | .pin_add_if_older src_pin pin flush_fn => bch2_journal_pin_add_if_older j src_pin pin flush_fn
  | .get_next_pin seq_to_flush =>
    match __journal_get_next_pin j seq_to_flush with
    | .error b => .error b
    | .ok r => .ok r.1
  | .reclaim_fast => bch2_journal_reclaim_fast j

/-- The ledger after a sequence of calls; the first assertion tripped ends the run. -/
def ledger_run (j : journal n) : List (ledger_op n) → Except bug (journal n)
  | [] => .ok j
  | op :: ops =>
    match ledger_step j op with
    | .error b => .error b
    | .ok j1 => ledger_run j1 ops

/-- Number of pins whose back-reference is the pin list of seq `s`. -/
def nr_attached (j : journal n) (s : Nat) : Nat :=
  (Finset.univ.filter (fun p => (j.pins p).pin_list = some s)).card

/-- Every pin list's count is at least the number of pins attached to it. -/
def count_ge_attached (j : journal n) : Prop :=
  ∀ s, (nr_attached j s : Int) ≤ (j.pin.data s).count

/-- A pin linked on the active membership of a pin list is attached to that list. -/
def links_ok (j : journal n) : Prop :=
  ∀ s p, p ∈ (j.pin.data s).list → (j.pins p).pin_list = some s

/-- The entries already popped from the window have a zero count. -/
def reclaimed_zero (j : journal n) : Prop :=
  ∀ s, s < j.pin.front → (j.pin.data s).count = 0

/-- First seq at or after `s`, among the next `k`, whose count is nonzero; `s + k` if
there is none. -/
def first_pinned (data : Nat → journal_entry_pin_list n) : Nat → Nat → Nat
  | 0, s => s
  | k + 1, s => if (data s).count ≠ 0 then s else first_pinned data k (s + 1)

/-- The reclaim watermark: the oldest seq of the window whose pin list has a nonzero
count (the back of the window if there is none). -/
def reclaim_watermark (j : journal n) : Nat :=
  first_pinned j.pin.data (fifo_used j.pin) j.pin.front

/-- The ledger right after `__journal_pin_drop` has detached an active pin from the pin
list of seq `s` and decremented its count, before the test that may start fast reclaim. -/
def pin_drop_detached (j : journal n) (pin : Fin n) (s : Nat) : journal n :=
  { pin := (list_del_init j.pin pin).set s
      { (list_del_init j.pin pin).data s with count := ((list_del_init j.pin pin).data s).count - 1 }
    pins := Function.update j.pins pin { j.pins pin with pin_list := none } }

/-- What every ledger operation guarantees between the state it is called in and the
state it returns. -/
structure step_facts (j j' : journal n) : Prop where
  conserve : ∀ t, (j'.pin.data t).count - (nr_attached j' t : Int) =
    (j.pin.data t).count - (nr_attached j t : Int)
  links : links_ok j → links_ok j'
  front_le : j.pin.front ≤ j'.pin.front
  back_eq : j'.pin.back = j.pin.back
  nonzero : count_ge_attached j → ∀ t, (j'.pin.data t).count ≠ 0 → (j.pin.data t).count ≠ 0
  popped : count_ge_attached j → ∀ t, j.pin.front ≤ t → t < j'.pin.front →
    (j'.pin.data t).count = 0 ∧ (j'.pin.data t).list = []
  stable : count_ge_attached j → ∀ t, (j.pin.data t).count = 0 → (j.pin.data t).list = [] →
    (j'.pin.data t).count = 0 ∧ (j'.pin.data t).list = []

/-! ## Example ledger -/

/-- Example entry memory: the window holds the seqs 5 to 8; seq 5 is pinned by pin 0,
seq 8 by pin 1 and by the journal's own reference, seqs 6 and 7 are unpinned. -/
def ledger_ex_data : Nat → journal_entry_pin_list 3 := fun s =>
  if s = 5 then { list := [0], flushed := [], count := 1, devs := [] }
  else if s = 8 then { list := [1], flushed := [], count := 2, devs := [] }
  else { list := [], flushed := [], count := 0, devs := [] }

/-- Example pins: pin 0 ("A") is attached to seq 5, pin 1 ("B") to seq 8, pin 2 ("P")
is inactive. -/
def ledger_ex_pins : Fin 3 → journal_entry_pin := fun p =>
  if p = 0 then { flush := some 0, pin_list := some 5 }
  else if p = 1 then { flush := some 1, pin_list := some 8 }
  else { flush := none, pin_list := none }

/-- Example ledger with window `[5, 9)` and capacity 16. -/
def ledger_ex : journal 3 :=
  { pin := { front := 5, back := 9, size := 16, data := ledger_ex_data }
    pins := ledger_ex_pins }

/-- A ledger whose window holds the single seq 5, pinned by its only pin. -/
def ledger_single : journal 1 :=
  { pin :=
      { front := 5, back := 6, size := 16
        data := fun s =>
          if s = 5 then { list := [0], flushed := [], count := 1, devs := [] }
          else { list := [], flushed := [], count := 0, devs := [] } }
    pins := fun _ => { flush := some 0, pin_list := some 5 } }

/-- The example ledger after pin 0 has been dropped: the pin is detached, the count of
seq 5 is zero and the front of the window has moved to seq 8. -/
def ledger_ex_dropped : journal 3 :=
  { pin := { (pin_drop_detached ledger_ex 0 5).pin with front := 8 }
    pins := (pin_drop_detached ledger_ex 0 5).pins }

/-! ## Commit path: data model (btree_types.h, btree_update.h) -/

/-- Linux errno `EINTR` (the errno values are those of the kernel headers, which are
not among these sources); the commit path returns them negated. -/
def EINTR : Int := 4

/-- Linux errno `EAGAIN`. -/
def EAGAIN : Int := 11

/-- Linux errno `ENOSPC`. -/
def ENOSPC : Int := 28

/-- Linux errno `EROFS`. -/
def EROFS : Int := 30

/-- Value of `enum btree_insert_ret` (btree_types.h:499). -/
def BTREE_INSERT_OK : Int := 0

/-- Value of `enum btree_insert_ret`: the leaf node needs to be split. -/
def BTREE_INSERT_BTREE_NODE_FULL : Int := 1

/-- Value of `enum btree_insert_ret`. -/
def BTREE_INSERT_ENOSPC : Int := 2

/-- Value of `enum btree_insert_ret`. -/
def BTREE_INSERT_NEED_MARK_REPLICAS : Int := 3

/-- Value of `enum btree_insert_ret`. -/
def BTREE_INSERT_NEED_JOURNAL_RES : Int := 4

/-- Constant `BTREE_INSERT_ATOMIC` (btree_update.h:42), bit `__BTREE_INSERT_ATOMIC` of the enum. -/
def BTREE_INSERT_ATOMIC : Nat := 1 <<< 0

/-- Constant `BTREE_INSERT_NOUNLOCK` (btree_update.h:47). -/
def BTREE_INSERT_NOUNLOCK : Nat := 1 <<< 1

/-- Constant `BTREE_INSERT_NOFAIL` (btree_update.h:50). -/
def BTREE_INSERT_NOFAIL : Nat := 1 <<< 2

/-- Constant `BTREE_INSERT_NOCHECK_RW` (btree_update.h:52). -/
def BTREE_INSERT_NOCHECK_RW : Nat := 1 <<< 3

/-- Constant `BTREE_INSERT_LAZY_RW` (btree_update.h:53). -/
def BTREE_INSERT_LAZY_RW : Nat := 1 <<< 4

/-- Constant `BTREE_INSERT_USE_RESERVE` (btree_update.h:56). -/
def BTREE_INSERT_USE_RESERVE : Nat := 1 <<< 5

/-- Constant `BTREE_INSERT_USE_ALLOC_RESERVE` (btree_update.h:57). -/
def BTREE_INSERT_USE_ALLOC_RESERVE : Nat := 1 <<< 6

/-- Constant `BTREE_INSERT_JOURNAL_REPLAY` (btree_update.h:60). -/
def BTREE_INSERT_JOURNAL_REPLAY : Nat := 1 <<< 7

/-- Constant `BTREE_INSERT_JOURNAL_RESERVED` (btree_update.h:62). -/
def BTREE_INSERT_JOURNAL_RESERVED : Nat := 1 <<< 8

/-- Constant `BTREE_INSERT_NOMARK_OVERWRITES` (btree_update.h:65). -/
def BTREE_INSERT_NOMARK_OVERWRITES : Nat := 1 <<< 9

/-- Constant `BTREE_INSERT_NOMARK` (btree_update.h:68). -/
def BTREE_INSERT_NOMARK : Nat := 1 <<< 10

/-- Constant `BTREE_INSERT_NO_CLEAR_REPLICAS` (btree_update.h:70). -/
def BTREE_INSERT_NO_CLEAR_REPLICAS : Nat := 1 <<< 11

/-- Constant `BTREE_INSERT_BUCKET_INVALIDATE` (btree_update.h:72). -/
def BTREE_INSERT_BUCKET_INVALIDATE : Nat := 1 <<< 12

/-- Constant `BTREE_INSERT_NOWAIT` (btree_update.h:75). -/
def BTREE_INSERT_NOWAIT : Nat := 1 <<< 13

/-- Constant `BTREE_INSERT_GC_LOCK_HELD` (btree_update.h:76). -/
def BTREE_INSERT_GC_LOCK_HELD : Nat := 1 <<< 14

/-- The C test `flags & FLAG`. -/
def has_flag (flags flag : Nat) : Bool := flags &&& flag != 0

/-- Value of `enum btree_iter_uptodate` (btree_types.h:199). -/
def BTREE_ITER_NEED_PEEK : Nat := 1

/-- The fields of `struct btree_iter` (btree_types.h:213) the commit path reads; `leaf`
is `l[0].b`, the leaf node the iterator points into, named by a number. -/
structure btree_iter where
  btree_id : Nat
  leaf : Nat
  locks_want : Nat
  uptodate : Nat
  nodes_locked : Nat
  nodes_intent_locked : Nat
  deriving DecidableEq, Repr, Inhabited

/-- Embedding of `struct btree_insert_entry` (btree_types.h:245): the key (named by a
number), its size `k->k.u64s`, and the iterator, named by its index in the transaction. -/
structure btree_insert_entry where
  k : Nat
  k_u64s : Nat
  iter : Nat
  deriving DecidableEq, Repr, Inhabited

/-- The fields of `struct btree_trans` (btree_types.h:252) the commit path works on.
`nr_updates` is the length of `updates`; `fs_usage_deltas` tells whether the pointer is
non-null. -/
structure btree_trans where
  flags : Nat
  iters : Nat → btree_iter
  updates : List btree_insert_entry
  updates_sorted : List Nat
  journal_u64s : Nat
  nounlock : Bool
  fs_usage_deltas : Bool

/-- The flag argument of the journal reservation calls (`JOURNAL_RES_GET_NONBLOCK`,
`JOURNAL_RES_GET_CHECK`, `JOURNAL_RES_GET_RESERVED`), one field per bit. -/
structure journal_res_flags where
  nonblock : Bool
  check : Bool
  reserved : Bool
  deriving DecidableEq, Repr

/-- The collaborators of the commit path that are not part of these sources (node
state, locking, journal, accounting, extents), each taken as a parameter. -/
structure commit_env where
  /-- Collaborator `race_fault()`: fault injection. -/
  race_fault : Bool
  /-- Collaborator `btree_iter_cmp` on two iterators. -/
  btree_iter_cmp : btree_iter → btree_iter → Int
  /-- Collaborator `btree_node_fake(b)`. -/
  btree_node_fake : Nat → Bool
  /-- Collaborator `btree_node_is_extents(b)`. -/
  btree_node_is_extents : Nat → Bool
  /-- Collaborator `bch2_extent_can_insert(trans, insert, &u64s)`: the result and the value left in
  `*u64s`. -/
  bch2_extent_can_insert : btree_trans → btree_insert_entry → Nat → Int × Nat
  /-- Collaborator `bch_btree_keys_u64s_remaining(c, b)`. -/
  bch_btree_keys_u64s_remaining : Nat → Nat
  /-- The mask `BTREE_NODE_TYPE_HAS_TRIGGERS` (its `BKEY_TYPE_*` bits are not in these
  sources). -/
  BTREE_NODE_TYPE_HAS_TRIGGERS : Nat
  /-- The mask `BTREE_NODE_TYPE_HAS_TRANS_TRIGGERS`. -/
  BTREE_NODE_TYPE_HAS_TRANS_TRIGGERS : Nat
  /-- Collaborator `bch2_journal_res_get(j, &trans->journal_res, u64s, flags)`. -/
  bch2_journal_res_get : Nat → journal_res_flags → Int
  /-- Collaborator `bch2_journal_preres_get(j, &trans->journal_preres, u64s, flags)`. -/
  bch2_journal_preres_get : Nat → journal_res_flags → Int
  /-- Collaborator `bch2_trans_relock(trans)`. -/
  bch2_trans_relock : Bool
  /-- Collaborator `bch2_replicas_delta_list_apply(c, fs_usage, deltas)`. -/
  bch2_replicas_delta_list_apply : Int
  /-- Collaborator `c->gc_pos.phase`. -/
  gc_pos_phase : Nat
  /-- Collaborator `gc_visited(c, gc_pos_btree_node(b))`. -/
  gc_visited : Nat → Bool
  /-- Collaborator `__bch2_btree_iter_upgrade(iter, 1)` on the iterator of the given index: the
  result and the iterator as the call leaves it. -/
  __bch2_btree_iter_upgrade : btree_trans → Nat → Bool × btree_iter
  /-- Collaborator `bch2_trans_mark_update(trans, iter, k)`: the result and the updates the
  trigger appended to the transaction. -/
  bch2_trans_mark_update : btree_trans → btree_insert_entry → Int × List btree_insert_entry
  /-- Collaborator `jset_u64s(u64s)`: size of a journal entry holding a key of that size. -/
  jset_u64s : Nat → Nat
  /-- The iterators `trans_for_each_iter_all` visits. -/
  all_iters : List Nat

/-- What the commit path does to its collaborators, in program order. -/
inductive commit_event where
  /-- Call of `bch2_btree_node_lock_for_insert(c, b, iter)`: write lock of leaf `b`. -/
  | lock_write (b : Nat)
  /-- Call of `bch2_btree_node_unlock_write_inlined(b, iter)`. -/
  | unlock_write (b : Nat)
  /-- Call of `percpu_down_read(&c->mark_lock)`. -/
  | mark_lock_down
  /-- Call of `percpu_up_read(&c->mark_lock)`. -/
  | mark_lock_up
  /-- Call of `bch2_fs_usage_scratch_get(c)`. -/
  | fs_usage_scratch_get
  /-- Call of `bch2_fs_usage_scratch_put(c, fs_usage)`. -/
  | fs_usage_scratch_put
  /-- Call of `bch2_journal_res_get` with the size asked for. -/
  | journal_res_get (u64s : Nat) (flags : journal_res_flags)
  /-- Call of `bch2_journal_res_put`. -/
  | journal_res_put
  /-- Call of `bch2_journal_preres_get` with the size asked for. -/
  | journal_preres_get (u64s : Nat) (flags : journal_res_flags)
  /-- Call of `bch2_replicas_delta_list_apply`. -/
  | replicas_delta_list_apply
  /-- Call of `bch2_mark_update(trans, i, fs_usage, mark_flags)` on update `i`. -/
  | mark_update (i : Nat)
  /-- Call of `bch2_mark_update(trans, i, NULL, mark_flags|BCH_BUCKET_MARK_GC)` on update `i`. -/
  | mark_update_gc (i : Nat)
  /-- Call of `bch2_trans_fs_usage_apply(trans, fs_usage)`. -/
  | fs_usage_apply
  /-- Call of `do_btree_insert_one(trans, i)`: update `i` applied to its leaf. -/
  | insert_one (i : Nat)
  /-- Call of `bch2_trans_mark_update` on update `i` (transactional trigger). -/
  | trans_mark_update (i : Nat)
  /-- Call of `bch2_trans_unlock(trans)`. -/
  | trans_unlock
  /-- Call of `bch2_trans_relock(trans)`. -/
  | trans_relock
  /-- Call of `bch2_btree_iter_unlock_noinline(iter)`. -/
  | iter_unlock (iter : Nat)
  /-- Call of `bch2_foreground_maybe_merge(c, iter, 0, flags)`. -/
  | maybe_merge (iter : Nat)
  /-- Call of `bch2_btree_iter_downgrade(iter)`. -/
  | iter_downgrade (iter : Nat)
  deriving DecidableEq, Repr

/-- Outcome of one pass of the commit path: the return value, `*stopped_at` (the index
of the update in `trans->updates`, `none` when it was not written), the transaction and
the calls made. -/
structure commit_result where
  ret : Int
  stopped_at : Option Nat
  trans : btree_trans
  events : List commit_event

/-! ## Commit path: operations (btree_update_leaf.c) -/

/-- The update `trans->updates[trans->updates_sorted[idx]]` that
`trans_for_each_update_sorted` (btree_update_leaf.c:31) visits at position `idx`. -/
def sorted_update (trans : btree_trans) (idx : Nat) : btree_insert_entry :=
  trans.updates.getD (trans.updates_sorted.getD idx 0) default

/-- The leaf `iter->l[0].b` of the update visited at position `idx`. -/
def sorted_leaf (trans : btree_trans) (idx : Nat) : Nat :=
  (trans.iters (sorted_update trans idx).iter).leaf

/-- Embedding of `same_leaf_as_prev` (btree_update_leaf.c:23). -/
def same_leaf_as_prev (trans : btree_trans) (idx : Nat) : Bool :=
  idx != 0 && sorted_leaf trans idx == sorted_leaf trans (idx - 1)

/-- The body of the loop of `btree_trans_sort_updates`: the sorted indices with `l`
inserted at the first position `pos` whose update `r` has
`btree_iter_cmp(l->iter, r->iter) <= 0` (at the end if there is none). -/
def sort_updates_insert (env : commit_env) (trans : btree_trans) (sorted : List Nat)
    (l : Nat) : List Nat :=
  let below : Nat → Bool := fun r =>
    decide (env.btree_iter_cmp (trans.iters (trans.updates.getD l default).iter)
      (trans.iters (trans.updates.getD r default).iter) > 0)
  sorted.takeWhile below ++ l :: sorted.dropWhile below

/-- Embedding of `btree_trans_sort_updates` (btree_update_leaf.c:54): insertion sort of the update
indices by `btree_iter_cmp` of their iterators. -/
def btree_trans_sort_updates (env : commit_env) (trans : btree_trans) : btree_trans :=
  { trans with
    updates_sorted :=
      (List.range trans.updates.length).foldl (sort_updates_insert env trans) [] }

/-- Embedding of `bch2_trans_journal_res_get` (btree_update_leaf.c:325). -/
def bch2_trans_journal_res_get (env : commit_env) (trans : btree_trans)
    (flags : journal_res_flags) : Int × commit_event :=
  let flags :=
    if has_flag trans.flags BTREE_INSERT_JOURNAL_RESERVED then { flags with reserved := true }
    else flags
  let ret := env.bch2_journal_res_get trans.journal_u64s flags
  (if ret = -EAGAIN then BTREE_INSERT_NEED_JOURNAL_RES else ret,
    .journal_res_get trans.journal_u64s flags)

/-- Embedding of `btree_key_can_insert` (btree_update_leaf.c:340): the result and the value left in
`*u64s`. -/
def btree_key_can_insert (env : commit_env) (trans : btree_trans)
    (insert : btree_insert_entry) (u64s : Nat) : Int × Nat :=
  let b := (trans.iters insert.iter).leaf
  if env.btree_node_fake b then (BTREE_INSERT_BTREE_NODE_FULL, u64s)
  else
    let r := if !env.btree_node_is_extents b then (BTREE_INSERT_OK, u64s)
             else env.bch2_extent_can_insert trans insert u64s
    if r.1 ≠ 0 then r
    else if r.2 > env.bch_btree_keys_u64s_remaining b then (BTREE_INSERT_BTREE_NODE_FULL, r.2)
    else (BTREE_INSERT_OK, r.2)

/-- Embedding of `update_has_trans_triggers` (btree_update_leaf.c:370). -/
def update_has_trans_triggers (env : commit_env) (trans : btree_trans)
    (i : btree_insert_entry) : Bool :=
  env.BTREE_NODE_TYPE_HAS_TRANS_TRIGGERS &&& (1 <<< (trans.iters i.iter).btree_id) != 0

/-- Embedding of `update_has_nontrans_triggers` (btree_update_leaf.c:375); the complement is taken in
32 bits. -/
def update_has_nontrans_triggers (env : commit_env) (trans : btree_trans)
    (i : btree_insert_entry) : Bool :=
  (env.BTREE_NODE_TYPE_HAS_TRIGGERS &&&
      ((2 ^ 32 - 1) ^^^ (env.BTREE_NODE_TYPE_HAS_TRANS_TRIGGERS % 2 ^ 32))) &&&
    (1 <<< (trans.iters i.iter).btree_id) != 0

/-- Embedding of `btree_node_type_needs_gc` (btree_types.h:477) of a btree id. -/
def btree_node_type_needs_gc (env : commit_env) (btree_id : Nat) : Bool :=
  env.BTREE_NODE_TYPE_HAS_TRIGGERS &&& (1 <<< btree_id) != 0

/-- Embedding of `bch2_trans_mark_gc` (btree_update_leaf.c:387). -/
def bch2_trans_mark_gc (env : commit_env) (trans : btree_trans) : List commit_event :=
  if has_flag trans.flags BTREE_INSERT_NOMARK then []
  else
    (List.range trans.updates.length).filterMap (fun i =>
      if env.gc_visited (trans.iters (trans.updates.getD i default).iter).leaf then
        some (.mark_update_gc i)
      else none)

/-- The first loop of `bch2_trans_commit_write_locked` (btree_update_leaf.c:431): walk
the sorted updates from position `idx` on (`k` positions are left) with the running
total `u64s` and the `marking` flag; `.error (ret, i)` when `btree_key_can_insert`
fails on update `i` with `ret`, `.ok marking` when every update passes. -/
def capacity_walk (env : commit_env) (trans : btree_trans) :
    Nat → Nat → Nat → Bool → Except (Int × Nat) Bool
  | 0, _, _, marking => .ok marking
  | k + 1, idx, u64s, marking =>
    let i := sorted_update trans idx
    -- Multiple inserts might go to same leaf:
    let u64s := if !same_leaf_as_prev trans idx then 0 else u64s
    let u64s := u64s + i.k_u64s
    let r := btree_key_can_insert env trans i u64s
    if r.1 ≠ 0 then .error (r.1, trans.updates_sorted.getD idx 0)
    else
      capacity_walk env trans k (idx + 1) r.2
        (marking || btree_node_type_needs_gc env (trans.iters i.iter).btree_id)

/-- Embedding of `bch2_trans_commit_write_locked` (btree_update_leaf.c:404). When the function is
entered with no update and in journal replay, C leaves `ret` unset on the way to the
end; the model returns 0 there (`__bch2_trans_commit` never makes that call). The
debug-only rewriting of key versions (`journal_seq_verify`, `inject_invalid_keys`) and
the trace points are left out. -/
def bch2_trans_commit_write_locked (env : commit_env) (trans : btree_trans) :
    commit_result :=
  if env.race_fault then
    { ret := -EINTR, stopped_at := none, trans := trans, events := [] }
  else
    match capacity_walk env trans trans.updates.length 0 0 false with
    | .error (ret, i) => { ret := ret, stopped_at := some i, trans := trans, events := [] }
    | .ok marking =>
      let ev_mark : List commit_event :=
        if marking then [.mark_lock_down, .fs_usage_scratch_get] else []
      -- the `err:` label
      let ev_err : List commit_event :=
        if marking then [.fs_usage_scratch_put, .mark_lock_up] else []
      let replay := has_flag trans.flags BTREE_INSERT_JOURNAL_REPLAY
      -- Don't get journal reservation until after we know insert will succeed:
      let res := bch2_trans_journal_res_get env trans
        { nonblock := true, check := false, reserved := false }
      let ev_res : List commit_event := if replay then [] else [res.2]
      if !replay && res.1 ≠ 0 then
        { ret := res.1, stopped_at := none, trans := trans,
          events := ev_mark ++ ev_res ++ ev_err }
      else if marking && trans.fs_usage_deltas && env.bch2_replicas_delta_list_apply ≠ 0 then
        { ret := BTREE_INSERT_NEED_MARK_REPLICAS, stopped_at := none, trans := trans,
          events := ev_mark ++ ev_res ++ [.replicas_delta_list_apply] ++ ev_err }
      else
        let ev_apply : List commit_event :=
          if marking && trans.fs_usage_deltas then [.replicas_delta_list_apply] else []
        let ev_triggers : List commit_event :=
          (List.range trans.updates.length).filterMap (fun i =>
            if !has_flag trans.flags BTREE_INSERT_NOMARK &&
                update_has_nontrans_triggers env trans (trans.updates.getD i default) then
              some (.mark_update i)
            else none)
        let ev_usage : List commit_event := if marking then [.fs_usage_apply] else []
        let ev_gc : List commit_event :=
          if env.gc_pos_phase ≠ 0 then bch2_trans_mark_gc env trans else []
        let ev_insert : List commit_event :=
          (List.range trans.updates.length).map (fun i => .insert_one i)
        { ret := 0, stopped_at := none, trans := trans,
          events := ev_mark ++ ev_res ++ ev_apply ++ ev_triggers ++ ev_usage ++ ev_gc ++
            ev_insert ++ ev_err }

/-- Embedding of `bch2_trans_journal_preres_get_cold` (btree_update_leaf.c:304). -/
def bch2_trans_journal_preres_get_cold (env : commit_env) (u64s : Nat) :
    Int × List commit_event :=
  let flags : journal_res_flags := { nonblock := false, check := false, reserved := false }
  let ret := env.bch2_journal_preres_get u64s flags
  if ret ≠ 0 then (ret, [.trans_unlock, .journal_preres_get u64s flags])
  else if !env.bch2_trans_relock then
    (-EINTR, [.trans_unlock, .journal_preres_get u64s flags, .trans_relock])
  else (0, [.trans_unlock, .journal_preres_get u64s flags, .trans_relock])

/-- The first loop of `do_bch2_trans_commit` (btree_update_leaf.c:522) from update `i`
on: upgrade the iterator, run the transactional trigger (which may append updates, so
the walk is bounded by `fuel`; `none` when it runs out), add the key's journal size to
`trans->journal_u64s`. The result is the value the loop returns with (0 when it runs to
the end), the transaction, and the calls made. -/
def do_bch2_trans_commit_triggers (env : commit_env) :
    Nat → Nat → btree_trans → List commit_event →
      Option (Int × btree_trans × List commit_event)
  | 0, _, _, _ => none
  | fuel + 1, i, t0, evs =>
    let trans := t0
    if i < trans.updates.length then
      let u := trans.updates.getD i default
      let it := trans.iters u.iter
      let up := env.__bch2_btree_iter_upgrade trans u.iter
      -- we know trans->nounlock won't be set here:
      let ok := if it.locks_want < 1 then up.1 else decide (it.uptodate ≤ BTREE_ITER_NEED_PEEK)
      let trans : btree_trans :=
        if it.locks_want < 1 then { trans with iters := Function.update trans.iters u.iter up.2 }
        else trans
      if !ok then some (-EINTR, trans, evs)
      else
        let marked := !has_flag trans.flags BTREE_INSERT_NOMARK &&
          update_has_trans_triggers env trans u
        let m := env.bch2_trans_mark_update trans u
        let trans : btree_trans :=
          if marked then { trans with updates := trans.updates ++ m.2 } else trans
        let evs := if marked then evs ++ [.trans_mark_update i] else evs
        if marked && m.1 ≠ 0 then some (m.1, trans, evs)
        else
          do_bch2_trans_commit_triggers env fuel (i + 1)
            { trans with journal_u64s := trans.journal_u64s + env.jset_u64s u.k_u64s } evs
    else some (0, trans, evs)

/-- The positions of the sorted walk that start a new leaf: the body of the loops
`trans_for_each_update_sorted ... if (!same_leaf_as_prev(trans, idx))`. -/
def leaf_group_starts (trans : btree_trans) : List Nat :=
  (List.range trans.updates.length).filter (fun idx => !same_leaf_as_prev trans idx)

/-- The second half of `do_bch2_trans_commit` (btree_update_leaf.c:556 to 616), entered
once the triggers have run and the journal pre-reservation is held: drop read locks, sort
the updates, write-lock each leaf, commit, unlock each leaf, release the journal
reservation, then merge and downgrade on success. -/
def do_bch2_trans_commit_locked (env : commit_env) (trans : btree_trans) : commit_result :=
  -- Can't be holding any read locks when we go to take write locks:
  let ev_read : List commit_event :=
    env.all_iters.filterMap (fun it =>
      if (trans.iters it).nodes_locked ≠ (trans.iters it).nodes_intent_locked then
        some (.iter_unlock it)
      else none)
  -- No more updates can be added - sort updates so we can take write locks in the
  -- correct order:
  let trans := btree_trans_sort_updates env trans
  let ev_lock : List commit_event :=
    (leaf_group_starts trans).map (fun idx => .lock_write (sorted_leaf trans idx))
  let r := bch2_trans_commit_write_locked env trans
  let ev_unlock : List commit_event :=
    (leaf_group_starts r.trans).map (fun idx => .unlock_write (sorted_leaf r.trans idx))
  -- Drop journal reservation after dropping write locks, since dropping the journal
  -- reservation may kick off a journal write:
  let evs := ev_read ++ ev_lock ++ r.events ++ ev_unlock ++ [.journal_res_put]
  if r.ret ≠ 0 then { r with events := evs }
  else
    let ev_merge : List commit_event :=
      (leaf_group_starts r.trans).map (fun idx => .maybe_merge (sorted_update r.trans idx).iter)
    let ev_down : List commit_event :=
      r.trans.updates.map (fun u => .iter_downgrade u.iter)
    { ret := 0, stopped_at := r.stopped_at, trans := { r.trans with nounlock := false },
      events := evs ++ ev_merge ++ ev_down }

/-- Embedding of `do_bch2_trans_commit` (btree_update_leaf.c:510), with `fuel` bounding the trigger
loop (`none` when it runs out). `journal_preres_u64s` stays 0: the addition to it is
under `if (0)`. -/
def do_bch2_trans_commit (env : commit_env) (fuel : Nat) (trans : btree_trans) :
    Option commit_result :=
  match do_bch2_trans_commit_triggers env fuel 0 trans [] with
  | none => none
  | some (ret, t1, evs) =>
    let trans := t1
    if ret ≠ 0 then some { ret := ret, stopped_at := none, trans := trans, events := evs }
    else
      let journal_preres_u64s := 0
      let flags : journal_res_flags := { nonblock := true, check := false, reserved := false }
      let ret := env.bch2_journal_preres_get journal_preres_u64s flags
      let evs := evs ++ [.journal_preres_get journal_preres_u64s flags]
      let cold := bch2_trans_journal_preres_get_cold env journal_preres_u64s
      let ret2 := if ret = -EAGAIN then cold.1 else ret
      let evs := if ret = -EAGAIN then evs ++ cold.2 else evs
      if ret2 ≠ 0 then some { ret := ret2, stopped_at := none, trans := trans, events := evs }
      else
        let r := do_bch2_trans_commit_locked env trans
        some { r with events := evs ++ r.events }

/-- The leaves the write locks of a commit attempt are for: `iter->l[0].b` of each
pending update. -/
def target_leaves (trans : btree_trans) : List Nat :=
  trans.updates.map (fun u => (trans.iters u.iter).leaf)

/-- The leaves write-locked by a sequence of calls, in order. -/
def write_locks (evs : List commit_event) : List Nat :=
  evs.filterMap (fun e => match e with
    | .lock_write b => some b
    | _ => none)

/-- The leaves write-unlocked by a sequence of calls, in order. -/
def write_unlocks (evs : List commit_event) : List Nat :=
  evs.filterMap (fun e => match e with
    | .unlock_write b => some b
    | _ => none)

/-- The sorted order places the updates to one leaf next to each other: between two
positions with the same leaf, every position has that leaf. -/
def leaves_adjacent (trans : btree_trans) : Prop :=
  ∀ a b c, a ≤ b → b ≤ c → c < trans.updates.length →
    sorted_leaf trans a = sorted_leaf trans c → sorted_leaf trans b = sorted_leaf trans a

/-- The running total `u64s` and the `marking` flag with which the first loop of
`bch2_trans_commit_write_locked` reaches position `idx`, when every earlier update
passed `btree_key_can_insert`. -/
def capacity_state (env : commit_env) (trans : btree_trans) : Nat → Nat × Bool
  | 0 => (0, false)
  | idx + 1 =>
    let st := capacity_state env trans idx
    let i := sorted_update trans idx
    let u64s := (if !same_leaf_as_prev trans idx then 0 else st.1) + i.k_u64s
    ((btree_key_can_insert env trans i u64s).2,
      st.2 || btree_node_type_needs_gc env (trans.iters i.iter).btree_id)

/-- The result of the call of `btree_key_can_insert` the first loop of
`bch2_trans_commit_write_locked` makes at position `idx`. -/
def can_insert_at (env : commit_env) (trans : btree_trans) (idx : Nat) : Int :=
  let i := sorted_update trans idx
  let u64s := (if !same_leaf_as_prev trans idx then 0 else (capacity_state env trans idx).1)
    + i.k_u64s
  (btree_key_can_insert env trans i u64s).1

/-- Example transaction: three updates through three iterators; the first and the third
go to leaf 10, the second to leaf 11, which is full. -/
def trans_ex : btree_trans :=
  { flags := BTREE_INSERT_ATOMIC
    iters := fun i =>
      if i = 0 then { btree_id := 3, leaf := 10, locks_want := 1, uptodate := 0,
                      nodes_locked := 1, nodes_intent_locked := 1 }
      else if i = 1 then { btree_id := 3, leaf := 11, locks_want := 1, uptodate := 0,
                           nodes_locked := 1, nodes_intent_locked := 1 }
      else { btree_id := 3, leaf := 10, locks_want := 1, uptodate := 0,
             nodes_locked := 1, nodes_intent_locked := 1 }
    updates := [{ k := 100, k_u64s := 4, iter := 0 }, { k := 101, k_u64s := 6, iter := 1 },
                { k := 102, k_u64s := 5, iter := 2 }]
    updates_sorted := [0, 2, 1]
    journal_u64s := 0
    nounlock := false
    fs_usage_deltas := false }

/-- Example collaborators: no extents, no triggers, leaf 10 has room for 16 u64s, leaf
11 for 3; iterators compare by leaf. -/
def env_ex : commit_env :=
  { race_fault := false
    btree_iter_cmp := fun l r => (l.leaf : Int) - (r.leaf : Int)
    btree_node_fake := fun _ => false
    btree_node_is_extents := fun _ => false
    bch2_extent_can_insert := fun _ _ u => (0, u)
    bch_btree_keys_u64s_remaining := fun b => if b = 10 then 16 else 3
    BTREE_NODE_TYPE_HAS_TRIGGERS := 0
    BTREE_NODE_TYPE_HAS_TRANS_TRIGGERS := 0
    bch2_journal_res_get := fun _ _ => 0
    bch2_journal_preres_get := fun _ _ => 0
    bch2_trans_relock := true
    bch2_replicas_delta_list_apply := 0
    gc_pos_phase := 0
    gc_visited := fun _ => false
    __bch2_btree_iter_upgrade := fun t i => (true, t.iters i)
    bch2_trans_mark_update := fun _ _ => (0, [])
    jset_u64s := fun u => u + 1
    all_iters := [0, 1, 2] }

/-! ## Range delete (btree_update_leaf.c) -/

/-- The position and size of a key: `k.p` is the position of a plain key and the end
of an extent, which covers the positions `k.p - k.size ≤ u < k.p`. -/
structure bkey where
  p : Nat
  size : Nat
  deriving DecidableEq, Repr

/-- Modelled from the spec: `bch2_key_resize` (bkey.h is not among the sources): keep
the start of the key and give it the size `new_size`. -/
def bch2_key_resize (k : bkey) (new_size : Nat) : bkey :=
  { p := k.p - k.size + new_size, size := new_size }

/-- Modelled from the spec: `bch2_cut_back` (extents.h is not among the sources): cut
the key back so that it does not extend past `where_pos` ("clipped"). -/
def bch2_cut_back (where_pos : Nat) (k : bkey) : bkey :=
  if where_pos < k.p then { p := where_pos, size := where_pos - (k.p - k.size) } else k

/-- Modelled from the spec: the collaborators of the range delete that are not part of
these sources, each taken as a parameter; the `n`-th turn of the loop gets the `n`-th
answer. -/
structure delete_env where
  /-- Value of `bkey_err(k)` for the key `bch2_btree_iter_peek` returns (0 when it is no error). -/
  peek_err : Nat → Int
  /-- The value `bch2_trans_commit` returns. -/
  commit_ret : Nat → Int
  /-- Value of `KEY_SIZE_MAX & (~0 << trans->c->block_bits)`. -/
  max_sectors : Nat
  /-- Collaborator `bch2_extent_trim_atomic(&delete, iter)`: the result and the trimmed key. -/
  bch2_extent_trim_atomic : Nat → bkey → Int × bkey
  /-- The value `bch2_trans_exit` returns. -/
  trans_exit_ret : Int

/-- Modelled from the spec: the state the range delete works on. `live` holds the
positions of the live keys of the btree (for an extent btree, every position covered by
a live extent), `pos` is `iter->pos`, `step` counts the turns of the loop, and
`committed` records the tombstones committed so far, each with the iterator position it
was committed at. -/
structure delete_state where
  live : List Nat
  pos : Nat
  step : Nat
  committed : List (Nat × bkey)

/-- Modelled from the spec: the position `bch2_btree_iter_peek` moves the iterator to:
the first live position at or after `pos`, `none` when there is no live key left. -/
def first_live (live : List Nat) (pos : Nat) : Option Nat :=
  live.foldr (fun u acc =>
    if pos ≤ u then
      match acc with
      | none => some u
      | some v => some (min u v)
    else acc) none

/-- Modelled from the spec: the live keys after a committed tombstone: a plain tombstone
removes the key at its position, an extent tombstone every position it covers. -/
def apply_tombstone (is_extents : Bool) (live : List Nat) (k : bkey) : List Nat :=
  if is_extents then live.filter (fun u => !(decide (k.p - k.size ≤ u) && decide (u < k.p)))
  else live.filter (fun u => u != k.p)

/-- Embedding of `bch2_btree_delete_at_range` (btree_update_leaf.c:853). One unit of `fuel` is one
evaluation of the loop condition; `none` when it runs out (a collaborator that keeps
answering `-EINTR` keeps the function looping). The `goto retry` re-enters the loop with
`ret = 0`, which is the same as taking another turn. -/
def bch2_btree_delete_at_range (env : delete_env) (is_extents : Bool) (end_pos : Nat) :
    Nat → delete_state → Option (Int × delete_state)
  | 0, _ => none
  | fuel + 1, st =>
    let st1 := { st with step := st.step + 1 }
    -- (k = bch2_btree_iter_peek(iter)).k && !(ret = bkey_err(k))
    if env.peek_err st.step ≠ 0 then
      if env.peek_err st.step = -EINTR then
        bch2_btree_delete_at_range env is_extents end_pos fuel st1
      else some (env.peek_err st.step, st1)
    else
      match first_live st.live st.pos with
      | none => some (0, st1)
      | some u =>
        let st2 := { st1 with pos := u }
        -- bkey_cmp(iter->pos, end) < 0
        if ¬ (u < end_pos) then some (0, st2)
        else
          -- bkey_init(&delete.k); delete.k.p = iter->pos;
          let delete : bkey := { p := u, size := 0 }
          -- create the biggest key we can
          let cut := bch2_cut_back end_pos (bch2_key_resize delete env.max_sectors)
          let trim := env.bch2_extent_trim_atomic st.step cut
          if is_extents && trim.1 ≠ 0 then
            if trim.1 = -EINTR then bch2_btree_delete_at_range env is_extents end_pos fuel st2
            else some (trim.1, st2)
          else
            let delete := if is_extents then trim.2 else delete
            let ret := env.commit_ret st.step
            if ret ≠ 0 then
              if ret = -EINTR then bch2_btree_delete_at_range env is_extents end_pos fuel st2
              else some (ret, st2)
            else
              bch2_btree_delete_at_range env is_extents end_pos fuel
                { st2 with
                  live := apply_tombstone is_extents st2.live delete
                  committed := st2.committed ++ [(u, delete)] }

/-- The state `bch2_btree_delete_range` (btree_update_leaf.c:934) starts
`bch2_btree_delete_at_range` in: the iterator is at `start`, nothing is committed. -/
def delete_range_start (live : List Nat) (start : Nat) : delete_state :=
  { live := live, pos := start, step := 0, committed := [] }

/-- What holds of the range delete of `[start, end_pos)` at every turn of its loop: the
iterator never moves back, no key appears, the keys outside the range stay, no live key
is left between `start` and the iterator, and every tombstone committed so far lies in
the range. -/
structure delete_inv (is_extents : Bool) (start end_pos : Nat) (live0 : List Nat)
    (st : delete_state) : Prop where
  pos_ge : start ≤ st.pos
  sub : ∀ u, u ∈ st.live → u ∈ live0
  keep : ∀ u, u ∈ live0 → (end_pos ≤ u ∨ u < start) → u ∈ st.live
  dead : ∀ u, u ∈ st.live → start ≤ u → st.pos ≤ u
  toms : ∀ c ∈ st.committed, start ≤ c.1 ∧ c.1 < end_pos ∧ c.2.p ≤ end_pos ∧
    c.1 ≤ c.2.p - c.2.size ∧ (is_extents = false → c.2 = { p := c.1, size := 0 })

/-- Example collaborators of the range delete: nothing fails, extents are not trimmed
further. -/
def delete_env_ex : delete_env :=
  { peek_err := fun _ => 0
    commit_ret := fun _ => 0
    max_sectors := 8
    bch2_extent_trim_atomic := fun _ k => (0, k)
    trans_exit_ret := 0 }

/-! ## Sorting the updates: vocabulary -/

/-- The value `btree_iter_cmp(updates[a].iter, updates[b].iter)` that
`btree_trans_sort_updates` computes for the pending updates of indices `a` and `b`. -/
def update_cmp (env : commit_env) (trans : btree_trans) (a b : Nat) : Int :=
  env.btree_iter_cmp (trans.iters (trans.updates.getD a default).iter)
    (trans.iters (trans.updates.getD b default).iter)

/-- Position of the update index `a` in `updates_sorted` (the length of the list if it
does not occur). -/
def sorted_pos (trans : btree_trans) (a : Nat) : Nat :=
  trans.updates_sorted.indexOf a

/-! ## Commit path: a second example, with accounting -/

/-- Example transaction: one pending update, on iterator 0 (btree 3, leaf 10), with
accounting deltas pending (`fs_usage_deltas` is not NULL). -/
def trans_mark : btree_trans :=
  { trans_ex with
    flags := 0
    updates := [{ k := 100, k_u64s := 4, iter := 0 }]
    updates_sorted := [0]
    fs_usage_deltas := true }

/-- Example collaborators: btree 3 needs accounting (its bit is set in
`BTREE_NODE_TYPE_HAS_TRIGGERS`), the journal grants every reservation, and
`bch2_replicas_delta_list_apply` fails. -/
def env_mark : commit_env :=
  { env_ex with
    BTREE_NODE_TYPE_HAS_TRIGGERS := 1 <<< 3
    bch2_replicas_delta_list_apply := -1 }

/-! ## Waiting for the pins to be flushed (journal_reclaim.c) -/

/-- Modelled from the spec: `journal_last_seq` (journal.h is not among the sources),
the oldest retained seq, which is the front of the window. -/
def journal_last_seq (j : journal n) : Nat := j.pin.front

/-- Embedding of `journal_flush_done` (journal_reclaim.c:313), the condition of the
`wait_event` of `bch2_journal_flush_pins`: the wait ends when it returns a nonzero
value. `journal_error` is what `bch2_journal_error(j)` returns and `replay_done` is
the bit `JOURNAL_REPLAY_DONE` of `j->flags` (neither is part of the ledger). The result
is the returned value, the ledger after the call and the pin stored through `pin` with
its seq (`none` is `NULL`). -/
def journal_flush_done (journal_error : Int) (replay_done : Bool) (j : journal n)
    (seq_to_flush : Nat) : Except bug (Int × journal n × Option (Fin n × Nat)) :=
  if journal_error ≠ 0 then .ok (journal_error, j, none)
  else
    match __journal_get_next_pin j seq_to_flush with
    | .error b => .error b
    | .ok (j1, pin) =>
      -- If journal replay hasn't completed, the unreplayed journal entries
      -- hold refs on their corresponding sequence numbers
      let ret : Bool :=
        pin.isSome ||
        !replay_done ||
        decide (journal_last_seq j1 > seq_to_flush) ||
        (fifo_used j1.pin == 1 && (fifo_peek_front j1.pin).count == 1)
      .ok (if ret then 1 else 0, j1, pin)

/-- Example ledger with no pin at all: the window holds the seqs 5 and 6, each entry
with the count 1 and no member. -/
def ledger_idle : journal 1 :=
  { pin := { front := 5, back := 7, size := 16,
             data := fun _ => { list := [], flushed := [], count := 1, devs := [] } }
    pins := fun _ => { flush := none, pin_list := none } }

/-! ## Registering updates and the commit driver (btree_update.h, btree_update_leaf.c) -/

/-- Constant `BTREE_ITER_KEEP_UNTIL_COMMIT` (btree_types.h:191). -/
def BTREE_ITER_KEEP_UNTIL_COMMIT : Nat := 1 <<< 5

/-- A transaction as `bch2_trans_update` and `__bch2_trans_commit` see it: the part one
commit attempt works on, the `flags` byte of each iterator (by index), `mem_top` and
`iters_touched`. -/
structure trans_state where
  trans : btree_trans
  iter_flags : Nat → Nat
  mem_top : Nat
  iters_touched : Nat

/-- Embedding of `bch2_trans_update` (btree_update.h:121): `k` names the key and
`k_u64s` is its size `k->k.u64s`. The debug-only `EBUG_ON` on the number of updates is
left out. -/
def bch2_trans_update (s : trans_state) (iter : Nat) (k k_u64s : Nat) : trans_state :=
  { s with
    iter_flags :=
      Function.update s.iter_flags iter (s.iter_flags iter ||| BTREE_ITER_KEEP_UNTIL_COMMIT)
    trans := { s.trans with
      updates := s.trans.updates ++ [{ k := k, k_u64s := k_u64s, iter := iter }] } }

/-- The collaborators of `__bch2_trans_commit` and `bch2_trans_commit_error` that are
not part of these sources, each taken as a parameter; those called once per commit
attempt are indexed by the number of the attempt (from 0). -/
structure trans_commit_env where
  /-- The collaborators of `do_bch2_trans_commit` during the attempt of that number, and
  of the error handling that follows it. -/
  attempt : Nat → commit_env
  /-- Collaborator `bch2_btree_split_leaf(c, iter, flags)`, by attempt, iterator, flags. -/
  bch2_btree_split_leaf : Nat → Nat → Nat → Int
  /-- Collaborator `bch2_mark_bkey_replicas(c, k)` on the key of an update, by attempt. -/
  bch2_mark_bkey_replicas : Nat → btree_insert_entry → Int
  /-- Collaborator `bch2_btree_iter_traverse_all(trans)`, by attempt. -/
  bch2_btree_iter_traverse_all : Nat → Int
  /-- The iterators as the error handling that follows the attempt of that number
  (split, unlock, relock, traverse) leaves them. -/
  handled_iters : Nat → btree_trans → Nat → btree_iter
  /-- Collaborator `percpu_ref_tryget(&c->writes)`. -/
  percpu_ref_tryget : Bool
  /-- Collaborator `bch2_fs_read_write_early(c)`. -/
  bch2_fs_read_write_early : Int
  /-- The iterators as `bch2_trans_unlock(trans)` leaves them when
  `bch2_trans_commit_get_rw_cold` calls it. -/
  unlocked_iters : btree_trans → Nat → btree_iter

/-- What `__bch2_trans_commit` and its error handling do to their collaborators, in
program order. -/
inductive trans_commit_event where
  /-- Call of `percpu_ref_tryget(&c->writes)` and whether it got the reference. -/
  | writes_tryget (ok : Bool)
  /-- Call of `bch2_fs_read_write_early(c)`. -/
  | fs_read_write_early
  /-- Call of `percpu_ref_get(&c->writes)`. -/
  | writes_get
  /-- Call of `percpu_ref_put(&c->writes)`. -/
  | writes_put
  /-- A call made by `do_bch2_trans_commit`, or one of the calls `bch2_trans_unlock`,
  `bch2_trans_relock`, `bch2_journal_res_get` made outside of it. -/
  | commit (e : commit_event)
  /-- Call of `bch2_btree_split_leaf(c, iter, flags)`. -/
  | split_leaf (iter flags : Nat)
  /-- Call of `bch2_mark_bkey_replicas` on the key of update `i`. -/
  | mark_bkey_replicas (i : Nat)
  /-- Call of `bch2_btree_iter_traverse_all(trans)`. -/
  | traverse_all
  /-- Call of `bch2_journal_preres_put`. -/
  | journal_preres_put
  /-- Call of `bch2_trans_unlink_iters(trans)`. -/
  | unlink_iters
  deriving DecidableEq, Repr

/-- Assertions and crashes of the commit driver. -/
inductive commit_bug where
  /-- Assertion `BUG_ON(ret >= 0)` in `bch2_trans_commit_error`. -/
  | commit_error_ret
  /-- Read of `i->iter` in `bch2_trans_commit_error` while `i` is still `NULL`. -/
  | stopped_at_null
  deriving DecidableEq, Repr

/-- Outcome of `__bch2_trans_commit`: the value returned, the transaction, the number of
calls of `do_bch2_trans_commit` made (the attempts), and the calls made. -/
structure trans_commit_result where
  ret : Int
  state : trans_state
  attempts : Nat
  events : List trans_commit_event

/-- The loop `trans_for_each_update` of the case `BTREE_INSERT_NEED_MARK_REPLICAS` of
`bch2_trans_commit_error` (btree_update_leaf.c:673) over the updates still to visit,
the first of index `idx`: the first nonzero result (0 when there is none) and the calls
made. -/
def mark_replicas_walk (env : trans_commit_env) (k : Nat) :
    List btree_insert_entry → Nat → Int × List trans_commit_event
  | [], _ => (0, [])
  | u :: rest, idx =>
    let ret := env.bch2_mark_bkey_replicas k u
    if ret ≠ 0 then (ret, [.mark_bkey_replicas idx])
    else
      let w := mark_replicas_walk env k rest (idx + 1)
      (w.1, .mark_bkey_replicas idx :: w.2)

/-- The end of `bch2_trans_commit_error` (btree_update_leaf.c:703) when `ret` is
`-EINTR`, after the calls `evs`. -/
def commit_error_restart (env : trans_commit_env) (k : Nat) (flags : Nat)
    (evs : List trans_commit_event) : Int × List trans_commit_event :=
  let ret2 := env.bch2_btree_iter_traverse_all k
  if ret2 ≠ 0 then (ret2, evs ++ [.traverse_all])
  -- BTREE_ITER_ATOMIC means we have to return -EINTR if we dropped locks:
  else if !has_flag flags BTREE_INSERT_ATOMIC then (0, evs ++ [.traverse_all])
  else (-EINTR, evs ++ [.traverse_all])

/-- Embedding of `bch2_trans_commit_error` (btree_update_leaf.c:619) after the attempt
of number `k`: `i` is the update `do_bch2_trans_commit` stopped at (`none` is `NULL`),
`ret` the value it returned. The result is the value returned and the calls made; the
complement of `BTREE_INSERT_NOUNLOCK` is taken in 32 bits. -/
def bch2_trans_commit_error (env : trans_commit_env) (k : Nat) (trans : btree_trans)
    (i : Option Nat) (ret : Int) : Except commit_bug (Int × List trans_commit_event) :=
  -- BTREE_INSERT_NOUNLOCK means don't unlock _after_ successful btree update; if we
  -- haven't done anything yet it doesn't apply
  let flags := trans.flags &&& ((2 ^ 32 - 1) ^^^ BTREE_INSERT_NOUNLOCK)
  if ret = BTREE_INSERT_BTREE_NODE_FULL then
    match i with
    | none => .error .stopped_at_null
    | some i =>
      let iter := (trans.updates.getD i default).iter
      let ret := env.bch2_btree_split_leaf k iter flags
      let evs : List trans_commit_event := [.split_leaf iter flags]
      -- don't care if we got ENOSPC because we told split it couldn't block:
      if ret = 0 || ret = -EINTR || has_flag flags BTREE_INSERT_NOUNLOCK then
        .ok (commit_error_restart env k flags evs)
      else .ok (ret, evs)
  else if ret = BTREE_INSERT_ENOSPC then .ok (-ENOSPC, [])
  else if ret = BTREE_INSERT_NEED_MARK_REPLICAS then
    let w := mark_replicas_walk env k trans.updates 0
    let evs : List trans_commit_event := .commit .trans_unlock :: w.2
    if w.1 ≠ 0 then .ok (w.1, evs)
    else if (env.attempt k).bch2_trans_relock then .ok (0, evs ++ [.commit .trans_relock])
    else .ok (commit_error_restart env k flags (evs ++ [.commit .trans_relock]))
  else if ret = BTREE_INSERT_NEED_JOURNAL_RES then
    let res := bch2_trans_journal_res_get (env.attempt k) trans
      { nonblock := false, check := true, reserved := false }
    let evs : List trans_commit_event := [.commit .trans_unlock, .commit res.2]
    if res.1 ≠ 0 then .ok (res.1, evs)
    else if (env.attempt k).bch2_trans_relock then .ok (0, evs ++ [.commit .trans_relock])
    else .ok (commit_error_restart env k flags (evs ++ [.commit .trans_relock]))
  else if ret ≥ 0 then .error .commit_error_ret
  else if ret = -EINTR then .ok (commit_error_restart env k flags [])
  else .ok (ret, [])

/-- Embedding of `bch2_trans_commit_get_rw_cold` (btree_update_leaf.c:725): the value
returned, the transaction and the calls made. -/
def bch2_trans_commit_get_rw_cold (env : trans_commit_env) (s : trans_state) :
    Int × trans_state × List trans_commit_event :=
  if !has_flag s.trans.flags BTREE_INSERT_LAZY_RW then (-EROFS, s, [])
  else
    let s := { s with trans := { s.trans with iters := env.unlocked_iters s.trans } }
    let ret := env.bch2_fs_read_write_early
    if ret ≠ 0 then (ret, s, [.commit .trans_unlock, .fs_read_write_early])
    else (0, s, [.commit .trans_unlock, .fs_read_write_early, .writes_get])

/-- The end of `__bch2_trans_commit` from the label `out` (btree_update_leaf.c:786) when
`from_out` holds, from the label `out_noupdates` otherwise, with the value `ret` to
return after `attempts` attempts and the calls `evs`; `all_iters` are the iterators
`trans_for_each_iter_all` visits. The debug-only
`EBUG_ON(!(trans->flags & BTREE_INSERT_ATOMIC) && ret == -EINTR)` is left out. -/
def trans_commit_out (all_iters : List Nat) (from_out : Bool) (ret : Int) (s : trans_state)
    (attempts : Nat) (evs : List trans_commit_event) : trans_commit_result :=
  let ev_out : List trans_commit_event :=
    if from_out then
      .journal_preres_put ::
        (if !has_flag s.trans.flags BTREE_INSERT_NOCHECK_RW then [.writes_put] else [])
    else []
  { ret := ret
    attempts := attempts
    events := evs ++ ev_out ++ (if ret = 0 then [.unlink_iters] else [])
    state :=
      { trans := { s.trans with updates := [] }
        iter_flags := fun it =>
          if it ∈ all_iters then s.iter_flags it &&& (255 ^^^ BTREE_ITER_KEEP_UNTIL_COMMIT)
          else s.iter_flags it
        mem_top := 0
        iters_touched := if ret = 0 then 0 else s.iters_touched } }

/-- The loop of `__bch2_trans_commit` from the label `retry` (btree_update_leaf.c:768):
`fuel` bounds the number of attempts still allowed (`none` when it runs out, that is
when one more attempt would be started), `k` is the number of the attempt, `i` the
update the last attempt stopped at, `trigger_fuel` the bound handed to
`do_bch2_trans_commit`. -/
def trans_commit_retry (env : trans_commit_env) (trigger_fuel orig_nr_updates orig_mem_top : Nat) :
    Nat → Nat → Option Nat → trans_state → List trans_commit_event →
      Option (Except commit_bug trans_commit_result)
  | 0, _, _, _, _ => none
  | fuel + 1, k, i, s, evs =>
    match do_bch2_trans_commit (env.attempt k) trigger_fuel
        { s.trans with journal_u64s := 0 } with
    | none => none
    | some r =>
      let i := match r.stopped_at with
        | some x => some x
        | none => i
      let evs := evs ++ r.events.map trans_commit_event.commit
      let all_iters := (env.attempt k).all_iters
      if r.ret = 0 then
        some (.ok (trans_commit_out all_iters true 0 { s with trans := r.trans } (k + 1) evs))
      else
        match bch2_trans_commit_error env k r.trans i r.ret with
        | .error b => some (.error b)
        | .ok (ret, hevs) =>
          let t1 : btree_trans := { r.trans with iters := env.handled_iters k r.trans }
          -- can't loop if it was passed in and we changed it:
          let ret :=
            if has_flag t1.flags BTREE_INSERT_NO_CLEAR_REPLICAS && ret == 0 then -EINTR
            else ret
          if ret ≠ 0 then
            some (.ok (trans_commit_out all_iters true ret { s with trans := t1 } (k + 1)
              (evs ++ hevs)))
          else
            -- free updates and memory used by triggers, they'll be reexecuted:
            trans_commit_retry env trigger_fuel orig_nr_updates orig_mem_top fuel (k + 1) i
              { s with
                trans := { t1 with updates := t1.updates.take orig_nr_updates }
                mem_top := orig_mem_top }
              (evs ++ hevs)

/-- Embedding of `__bch2_trans_commit` (btree_update_leaf.c:743): `fuel` bounds the
number of attempts and `trigger_fuel` the trigger loop of each attempt (`none` when one
of them runs out). The debug-only assertions (`EBUG_ON`, `lockdep_assert_held`,
`bch2_btree_trans_verify_locks`) and the clearing of the journal reservation and of the
accounting deltas are left out. -/
def __bch2_trans_commit (env : trans_commit_env) (trigger_fuel fuel : Nat) (s : trans_state) :
    Option (Except commit_bug trans_commit_result) :=
  let orig_nr_updates := s.trans.updates.length
  let orig_mem_top := s.mem_top
  if s.trans.updates.length = 0 then
    some (.ok (trans_commit_out (env.attempt 0).all_iters false 0 s 0 []))
  else if has_flag s.trans.flags BTREE_INSERT_NOCHECK_RW then
    trans_commit_retry env trigger_fuel orig_nr_updates orig_mem_top fuel 0 none s []
  else if env.percpu_ref_tryget then
    trans_commit_retry env trigger_fuel orig_nr_updates orig_mem_top fuel 0 none s
      [.writes_tryget true]
  else
    let cold := bch2_trans_commit_get_rw_cold env s
    if cold.1 ≠ 0 then
      some (.ok { ret := cold.1, state := cold.2.1, attempts := 0,
                  events := .writes_tryget false :: cold.2.2 })
    else
      trans_commit_retry env trigger_fuel orig_nr_updates orig_mem_top fuel 0 none cold.2.1
        (.writes_tryget false :: cold.2.2)

/-- Embedding of `bch2_trans_commit` (btree_update.h:109); the disk reservation and the
journal seq pointer it stores are not part of the model. -/
def bch2_trans_commit (env : trans_commit_env) (trigger_fuel fuel : Nat) (s : trans_state)
    (flags : Nat) : Option (Except commit_bug trans_commit_result) :=
  __bch2_trans_commit env trigger_fuel fuel { s with trans := { s.trans with flags := flags } }

/-! ## Commit driver: examples -/

/-- Example transaction with no pending update and all iterator flags clear. -/
def state_empty : trans_state :=
  { trans := { trans_mark with updates := [], updates_sorted := [], fs_usage_deltas := false }
    iter_flags := fun _ => 0
    mem_top := 0
    iters_touched := 0 }

/-- Example transaction: one update registered, of key 100 (4 u64s) through iterator 0. -/
def state_one : trans_state := bch2_trans_update state_empty 0 100 4

/-- Example collaborators of the commit driver: every attempt sees the collaborators
`env_ex`, the error handling succeeds and leaves the iterators alone, and the write
reference is available. -/
def tc_env_ex : trans_commit_env :=
  { attempt := fun _ => env_ex
    bch2_btree_split_leaf := fun _ _ _ => 0
    bch2_mark_bkey_replicas := fun _ _ => 0
    bch2_btree_iter_traverse_all := fun _ => 0
    handled_iters := fun _ t => t.iters
    percpu_ref_tryget := true
    bch2_fs_read_write_early := 0
    unlocked_iters := fun t => t.iters }

/-- The calls a commit attempt and the handling of its failure make: everything but the
calls on the write reference `c->writes`, on the journal pre-reservation and on the
iterator links, which `__bch2_trans_commit` makes itself. -/
def attempt_event : trans_commit_event → Bool
  | .commit _ => true
  | .split_leaf _ _ => true
  | .mark_bkey_replicas _ => true
  | .traverse_all => true
  | _ => false

/-- Example transaction: one update registered, to be committed with
`BTREE_INSERT_LAZY_RW`. -/
def state_lazy : trans_state :=
  bch2_trans_update
    { state_empty with trans := { state_empty.trans with flags := BTREE_INSERT_LAZY_RW } }
    0 100 4

/-- Example collaborators of the commit driver: as `tc_env_ex`, but the write reference
cannot be obtained (the filesystem is not read-write). -/
def tc_env_ro : trans_commit_env := { tc_env_ex with percpu_ref_tryget := false }

/-- Example transaction: one update registered, to be committed with
`BTREE_INSERT_ATOMIC`. -/
def state_atomic : trans_state :=
  bch2_trans_update
    { state_empty with trans := { state_empty.trans with flags := BTREE_INSERT_ATOMIC } }
    0 100 4

/-- Example collaborators of the commit driver: during the first attempt the journal has
no room for a non-blocking reservation (`-EAGAIN`), the blocking one of the error
handling succeeds and `bch2_trans_relock` takes the locks again; later attempts see
`env_ex`. -/
def tc_env_jres : trans_commit_env :=
  { tc_env_ex with
    attempt := fun k =>
      if k = 0 then
        { env_ex with bch2_journal_res_get := fun _ f => if f.check then 0 else -EAGAIN }
      else env_ex }

/-- Example collaborators of the commit driver: as `tc_env_ex`, but no leaf has room
left, so that every attempt stops on a full node; the split succeeds. -/
def tc_env_full : trans_commit_env :=
  { tc_env_ex with
    attempt := fun _ => { env_ex with bch_btree_keys_u64s_remaining := fun _ => 0 } }

/-- Example transaction: one update registered, to be committed with
`BTREE_INSERT_NO_CLEAR_REPLICAS` and without `BTREE_INSERT_ATOMIC`. -/
def state_no_clear : trans_state :=
  bch2_trans_update
    { state_empty with
      trans := { state_empty.trans with flags := BTREE_INSERT_NO_CLEAR_REPLICAS } }
    0 100 4

/-- Example collaborators of the commit driver: as `tc_env_ex`, but the first attempt
asks for a replicas marking (`bch2_replicas_delta_list_apply` fails on a btree that
needs accounting) and `bch2_mark_bkey_replicas` then returns `-EINTR`. -/
def tc_env_mark_eintr : trans_commit_env :=
  { tc_env_ex with
    attempt := fun _ => env_mark
    bch2_mark_bkey_replicas := fun _ _ => -EINTR }

/-- Example transaction: one update registered, with accounting deltas pending, to be
committed with the flags 0. -/
def state_deltas : trans_state :=
  bch2_trans_update
    { state_empty with trans := { state_empty.trans with fs_usage_deltas := true } }
    0 100 4

/-- Example collaborators of the commit driver: as `tc_env_full`, but the traversal that
follows a restart returns `-EINTR`. -/
def tc_env_traverse_eintr : trans_commit_env :=
  { tc_env_full with bch2_btree_iter_traverse_all := fun _ => -EINTR }

/-- Example collaborators of the commit driver: as `tc_env_ro`, but the transition to
read-write returns `-EINTR`. -/
def tc_env_early_eintr : trans_commit_env :=
  { tc_env_ro with bch2_fs_read_write_early := -EINTR }

/-- Example collaborators of the commit driver: as `tc_env_ex`, but the journal has no
room for a non-blocking reservation (`-EAGAIN`) and the blocking one of the error
handling returns `-EINTR`. -/
def tc_env_res_eintr : trans_commit_env :=
  { tc_env_ex with
    attempt := fun _ =>
      { env_ex with bch2_journal_res_get := fun _ f => if f.check then -EINTR else -EAGAIN } }

/-! ## Journal pre-reservation: vocabulary -/

/-- The sizes (in u64s) asked of `bch2_journal_preres_get` by a sequence of calls, in
program order. -/
def preres_requests (evs : List commit_event) : List Nat :=
  evs.filterMap (fun e => match e with
    | .journal_preres_get u64s _ => some u64s
    | _ => none)

/-- The total encoded size of the pending updates from index `i` on: the sum of
`jset_u64s(k->k.u64s)` over them. -/
def updates_jset_u64s (env : commit_env) (trans : btree_trans) (i : Nat) : Nat :=
  ((trans.updates.drop i).map (fun u => env.jset_u64s u.k_u64s)).sum

/-- Example collaborators: as `env_ex`, but the journal has no room for a non-blocking
pre-reservation (`-EAGAIN`), so that the blocking fallback is taken. -/
def env_preres_again : commit_env :=
  { env_ex with bch2_journal_preres_get := fun _ f => if f.nonblock then -EAGAIN else 0 }

/-- Whether a ledger call attaches the pin `p` (an add or a re-target of `p`). -/
def op_adds (p : Fin n) : ledger_op n → Bool
  | .pin_add _ pin _ => decide (pin = p)
  | .pin_add_if_older _ pin _ => decide (pin = p)
  | _ => false

/-! ## Capacity check: the groups of the sorted walk -/

/-- The running total of key sizes at position `idx` of the sorted walk, in the words of
the specification: it restarts from zero at the first update of each group of
consecutive updates sharing a leaf. -/
def running_total (trans : btree_trans) : Nat → Nat
  | 0 => (sorted_update trans 0).k_u64s
  | idx + 1 =>
    (if same_leaf_as_prev trans (idx + 1) then running_total trans idx else 0) +
      (sorted_update trans (idx + 1)).k_u64s

/-- Sum of the key sizes of the updates from position `idx` to the end of its group,
`k` positions being left in the walk. -/
def group_rest (trans : btree_trans) : Nat → Nat → Nat
  | 0, _ => 0
  | k + 1, idx =>
    (sorted_update trans idx).k_u64s +
      (if same_leaf_as_prev trans (idx + 1) then group_rest trans k (idx + 1) else 0)

/-- Sum of the key sizes (`k.u64s`) of the group of consecutive sorted updates sharing a
leaf that starts at position `s`. -/
def group_sum (trans : btree_trans) (s : Nat) : Nat :=
  group_rest trans (trans.updates.length - s) s

/-! ## Journal reclaim: the flush target (journal_reclaim.c) -/

/-- Modelled from the spec: the fields of `struct journal_device` (journal_types.h is
not among the sources) that `bch2_journal_reclaim_work` reads and writes: the number
`nr` of journal buckets of the device, the ring indices `cur_idx` and `last_idx`
(each an `unsigned`), and the newest seq written to each bucket. -/
structure journal_device where
  nr : Nat
  cur_idx : Nat
  last_idx : Nat
  bucket_seq : Nat → Nat

/-- The cast of a 64-bit value to `s64` (two's complement). -/
def to_s64 (x : Nat) : Int :=
  if x % 2 ^ 64 < 2 ^ 63 then ((x % 2 ^ 64 : Nat) : Int)
  else ((x % 2 ^ 64 : Nat) : Int) - 2 ^ 64

/-- The conversion of an integer to `u64`. -/
def to_u64 (x : Int) : Nat := (x % 2 ^ 64).toNat

/-- Embedding of `should_discard_bucket` (journal_reclaim.c:186); `last_seq_ondisk` is
`j->last_seq_ondisk`. -/
def should_discard_bucket (last_seq_ondisk : Nat) (ja : journal_device) : Bool :=
  ja.nr != 0 &&
    (ja.last_idx != ja.cur_idx && decide (ja.bucket_seq ja.last_idx < last_seq_ondisk))

/-- The loop `while (should_discard_bucket(j, ja))` of `bch2_journal_reclaim_work`
(journal_reclaim.c:239) on one device, with `reclaim_lock_held`: the first turn that
finds work takes `j->reclaim_lock` and rechecks, every other turn advances `last_idx`
by one bucket in 32-bit arithmetic. `none` when the turns allowed by `fuel` do not end
the loop. The discard issued to the block device and `journal_wake` are collaborator
calls that change none of these fields. -/
def discard_loop (last_seq_ondisk : Nat) :
    Nat → journal_device → Bool → Option (journal_device × Bool)
  | 0, _, _ => none
  | fuel + 1, ja, reclaim_lock_held =>
    if should_discard_bucket last_seq_ondisk ja then
      if !reclaim_lock_held then
        -- recheck under reclaim_lock:
        discard_loop last_seq_ondisk fuel ja true
      else
        discard_loop last_seq_ondisk fuel
          { ja with last_idx := (ja.last_idx + 1) % 2 ^ 32 % ja.nr } reclaim_lock_held
    else some (ja, reclaim_lock_held)

/-- The loop `for_each_rw_member(ca, c, iter)` of `bch2_journal_reclaim_work`
(journal_reclaim.c:233) over the journal devices of the writable members, with
`reclaim_lock_held` and the `u64 seq_to_flush` so far: the devices as the loop leaves
them, `reclaim_lock_held` and `seq_to_flush`. The `unsigned bucket_to_flush` is computed
in 32-bit arithmetic. -/
def reclaim_devices (last_seq_ondisk fuel : Nat) :
    List journal_device → Bool → Nat → Option (List journal_device × Bool × Nat)
  | [], reclaim_lock_held, seq_to_flush => some ([], reclaim_lock_held, seq_to_flush)
  | ja :: rest, reclaim_lock_held, seq_to_flush =>
    if ja.nr = 0 then
      match reclaim_devices last_seq_ondisk fuel rest reclaim_lock_held seq_to_flush with
      | none => none
      | some (devs, held, seq) => some (ja :: devs, held, seq)
    else
      match discard_loop last_seq_ondisk fuel ja reclaim_lock_held with
      | none => none
      | some (ja1, held1) =>
        -- Write out enough btree nodes to free up 50% journal buckets
        let bucket_to_flush := (ja1.cur_idx + (ja1.nr >>> 1)) % 2 ^ 32 % ja1.nr
        let seq_to_flush := max seq_to_flush (ja1.bucket_seq bucket_to_flush)
        match reclaim_devices last_seq_ondisk fuel rest held1 seq_to_flush with
        | none => none
        | some (devs, held, seq) => some (ja1 :: devs, held, seq)

/-- The statement `seq_to_flush = max_t(s64, seq_to_flush, (s64) journal_cur_seq(j) -
(j->pin.size >> 1))` of `bch2_journal_reclaim_work` (journal_reclaim.c:286):
`cur_seq` is the value of `journal_cur_seq(j)` (journal.h is not among the sources) and
`size` is `j->pin.size`, a `size_t` of 64 bits, so that the difference is taken in
64-bit unsigned arithmetic before both operands are cast to `s64`; the result is stored
in the `u64 seq_to_flush`. -/
def pin_fifo_seq_to_flush (cur_seq size seq_to_flush : Nat) : Nat :=
  to_u64 (max (to_s64 seq_to_flush)
    (to_s64 ((cur_seq % 2 ^ 64 + 2 ^ 64 - (size >>> 1) % 2 ^ 64) % 2 ^ 64)))

/-- The part of `bch2_journal_reclaim_work` (journal_reclaim.c:217 to 289) that computes
the flush target: the device loop from `seq_to_flush = 0` without the reclaim lock,
then the maximum with the watermark of the pin fifo. The result is the devices as left
by the loop and the target passed to `journal_get_next_pin` when no flush is forced by
the reclaim delay. -/
def reclaim_work_seq_to_flush (last_seq_ondisk fuel : Nat) (devs : List journal_device)
    (cur_seq size : Nat) : Option (List journal_device × Nat) :=
  match reclaim_devices last_seq_ondisk fuel devs false 0 with
  | none => none
  | some (devs1, _, seq_to_flush) =>
    some (devs1, pin_fifo_seq_to_flush cur_seq size seq_to_flush)

/-- The seq "halfway into each device's region ring": the maximum, over the devices
that have journal buckets, of `bucket_seq[(cur_idx + nr/2) mod nr]`; 0 when there is no
such device. -/
def ring_half_seq (devs : List journal_device) : Nat :=
  ((devs.filter (fun ja => ja.nr != 0)).map
    (fun ja => ja.bucket_seq ((ja.cur_idx + ja.nr / 2) % ja.nr))).foldl max 0

/-- Example devices: a device without journal buckets, a device with 8 buckets writing
bucket 6 whose bucket 2 holds seq 40, and a device with 4 buckets writing bucket 1
whose bucket 3 holds seq 70; the other buckets hold seq 10. -/
def devs_ex : List journal_device :=
  [{ nr := 0, cur_idx := 0, last_idx := 0, bucket_seq := fun _ => 99 },
   { nr := 8, cur_idx := 6, last_idx := 4, bucket_seq := fun i => if i = 2 then 40 else 10 },
   { nr := 4, cur_idx := 1, last_idx := 1, bucket_seq := fun i => if i = 3 then 70 else 10 }]

/-! ## Flushing the pins of a device (journal_reclaim.c) -/

/-- The collaborators of `bch2_journal_flush_device_pins`: the blocking
`bch2_journal_flush_pins(j, seq)`, which runs flush callbacks and waits for other
threads (its result and the ledger it leaves), `bch2_mark_replicas(c, BCH_DATA_JOURNAL,
devs)` (replicas.h is not among the sources) and the option
`c->opts.metadata_replicas`. -/
structure flush_env (n : Nat) where
  bch2_journal_flush_pins : journal n → Nat → Int × journal n
  bch2_mark_replicas : List Nat → Int
  metadata_replicas : Nat

/-- What `bch2_journal_flush_device_pins` does to its collaborators, in program order. -/
inductive device_flush_event where
  /-- Call of `bch2_journal_flush_pins(j, seq)`. -/
  | flush_pins (seq : Nat)
  /-- Call of `mutex_lock(&c->replicas_gc_lock)`. -/
  | replicas_gc_lock
  /-- Call of `bch2_replicas_gc_start(c, 1 << BCH_DATA_JOURNAL)`. -/
  | replicas_gc_start
  /-- Call of `bch2_mark_replicas(c, BCH_DATA_JOURNAL, devs)`. -/
  | mark_replicas (devs : List Nat)
  /-- Call of `bch2_replicas_gc_end(c, ret)`. -/
  | replicas_gc_end (ret : Int)
  /-- Call of `mutex_unlock(&c->replicas_gc_lock)`. -/
  | replicas_gc_unlock
  deriving DecidableEq, Repr

/-- Modelled from the spec: `bch2_dev_list_has_dev` (replicas.h is not among the
sources), whether the device set of a pin list contains the device. -/
def bch2_dev_list_has_dev (devs : List Nat) (dev : Nat) : Bool := devs.contains dev

/-- The test of the first loop of `bch2_journal_flush_device_pins` on the pin list of
seq `iter` (journal_reclaim.c:380). -/
def device_pin_test (metadata_replicas : Nat) (j : journal n) (dev_idx : Int)
    (iter : Nat) : Bool :=
  if dev_idx ≥ 0 then bch2_dev_list_has_dev (j.pin.data iter).devs dev_idx.toNat
  else decide ((j.pin.data iter).devs.length < metadata_replicas)

/-- The loop `fifo_for_each_entry_ptr(p, &j->pin, iter)` of
`bch2_journal_flush_device_pins` (journal_reclaim.c:379): from `seq = 0`, every entry of
the window that passes the test stores its seq in `seq`. -/
def device_flush_seq (metadata_replicas : Nat) (j : journal n) (dev_idx : Int) : Nat :=
  (List.range' j.pin.front (fifo_used j.pin)).foldl
    (fun seq iter => if device_pin_test metadata_replicas j dev_idx iter then iter else seq) 0

/-- The loop `while (!ret && seq < j->pin.back)` of `bch2_journal_flush_device_pins`
(journal_reclaim.c:396) on the ledger `j`, entered with `ret` and `seq`: the value of
`ret` at the end and the calls of `bch2_mark_replicas`; `none` when the turns allowed by
`fuel` do not end the loop. -/
def mark_replicas_loop (env : flush_env n) (j : journal n) :
    Nat → Int → Nat → Option (Int × List device_flush_event)
  | 0, _, _ => none
  | fuel + 1, ret, seq =>
    if ret = 0 ∧ seq < j.pin.back then
      let seq := max seq (journal_last_seq j)
      let devs := (j.pin.data (journal_seq_pin j seq)).devs
      let seq := seq + 1
      let ret := env.bch2_mark_replicas devs
      match mark_replicas_loop env j fuel ret seq with
      | none => none
      | some (r, evs) => some (r, .mark_replicas devs :: evs)
    else some (ret, [])

/-- Embedding of `bch2_journal_flush_device_pins` (journal_reclaim.c:370): the value
returned and the calls made; the ledger is the one `bch2_journal_flush_pins` leaves. -/
def bch2_journal_flush_device_pins (env : flush_env n) (fuel : Nat) (j : journal n)
    (dev_idx : Int) : Option (Int × List device_flush_event) :=
  let seq := device_flush_seq env.metadata_replicas j dev_idx
  let r := env.bch2_journal_flush_pins j seq
  if r.1 ≠ 0 then some (r.1, [.flush_pins seq])
  else
    match mark_replicas_loop env r.2 fuel 0 0 with
    | none => none
    | some (ret, evs) =>
      some (ret, [.flush_pins seq, .replicas_gc_lock, .replicas_gc_start] ++ evs ++
        [.replicas_gc_end ret, .replicas_gc_unlock])

/-- Example ledger: the window holds the seqs 5 to 8; the entries of seq 5 and 7 were
written to the devices 0 and 1, those of seq 6 and 8 to the devices 0 and 2. -/
def ledger_devs : journal 1 :=
  { pin :=
      { front := 5, back := 9, size := 16
        data := fun s =>
          { list := [], flushed := [], count := if 5 ≤ s ∧ s ≤ 8 then 1 else 0
            devs := if s = 5 ∨ s = 7 then [0, 1] else if s = 6 ∨ s = 8 then [0, 2] else [] } }
    pins := fun _ => { flush := none, pin_list := none } }

/-- Example collaborators: the flush of the pins fails with `-EROFS` (and leaves the
ledger as it is); marking replicas succeeds. -/
def flush_env_erofs : flush_env 1 :=
  { bch2_journal_flush_pins := fun j _ => (-EROFS, j)
    bch2_mark_replicas := fun _ => 0
    metadata_replicas := 2 }

/-- Example collaborators: the flush of the pins succeeds and leaves the ledger as it
is; marking replicas succeeds. -/
def flush_env_ok : flush_env 1 :=
  { bch2_journal_flush_pins := fun j _ => (0, j)
    bch2_mark_replicas := fun _ => 0
    metadata_replicas := 2 }

/-! ## Inserting into a leaf node: data model (btree_types.h) -/

/-- Modelled from the spec: the fields of `struct bkey_packed` (bkey.h is not among the
sources) that the insert into a leaf reads and writes: the position, the type, the size
`u64s`, the `needs_whiteout` bit and the value words `bkeyp_val`, whose number is
`bkeyp_val_u64s`. -/
structure bkey_packed where
  p : Nat
  type : Nat
  u64s : Nat
  needs_whiteout : Bool
  val : List Nat
  deriving DecidableEq, Repr

/-- Modelled from the spec: the fields of `struct bkey_i` (bkey.h is not among the
sources), the key to insert: `k.p.inode`, the position `k.p`, `k.type`, `k.u64s`,
`k.needs_whiteout` and the value words `v`, whose number is `bkey_val_u64s`. -/
structure bkey_i where
  inode : Nat
  p : Nat
  type : Nat
  u64s : Nat
  needs_whiteout : Bool
  val : List Nat
  deriving DecidableEq, Repr

/-- Embedding of `struct btree_nr_keys` (btree_types.h:19), the accounting of the live
keys of a node. -/
structure btree_nr_keys where
  live_u64s : Nat
  bset_u64s : Nat → Nat
  packed_keys : Nat
  unpacked_keys : Nat

/-- The fields of `struct btree` (btree_types.h:64) the insert into a leaf works on: the
`flags`, the memory of the keys of the node (a pointer to a key is modelled by a
number), the accounting `nr`, `whiteout_u64s`, the `journal_seq` of the last bset
(`btree_bset_last(b)->journal_seq`), and for each of the two `writes[i]` the pin
`writes[i].journal`, named by its index among the pins of the ledger. -/
structure btree (n : Nat) where
  flags : Nat
  keys : Nat → bkey_packed
  nr : btree_nr_keys
  whiteout_u64s : Nat
  journal_seq : Nat
  writes : Nat → Fin n

/-- Value of `BTREE_NODE_dirty` in `enum btree_flags` (btree_types.h:299). -/
def BTREE_NODE_dirty : Nat := 2

/-- Value of `BTREE_NODE_write_idx` in `enum btree_flags` (btree_types.h:299). -/
def BTREE_NODE_write_idx : Nat := 5

/-- Embedding of `btree_node_dirty`, defined by `BTREE_FLAG(dirty)` (btree_types.h:289). -/
def btree_node_dirty (b : btree n) : Bool := Nat.testBit b.flags BTREE_NODE_dirty

/-- Embedding of `set_btree_node_dirty`, defined by `BTREE_FLAG(dirty)`
(btree_types.h:289). -/
def set_btree_node_dirty (b : btree n) : btree n :=
  { b with flags := b.flags ||| (1 <<< BTREE_NODE_dirty) }

/-- Embedding of `btree_node_write_idx`, defined by `BTREE_FLAG(write_idx)`
(btree_types.h:289): the bit as a number. -/
def btree_node_write_idx (b : btree n) : Nat :=
  if Nat.testBit b.flags BTREE_NODE_write_idx then 1 else 0

/-- Embedding of `btree_current_write` (btree_types.h:325): the pin of `b->writes +
btree_node_write_idx(b)`. -/
def btree_current_write (b : btree n) : Fin n := b.writes (btree_node_write_idx b)

/-- The collaborators of the insert into a leaf that are not part of these sources
(bset.h, bkey.h, btree_iter.h), each taken as a parameter. -/
structure leaf_env (n : Nat) where
  /-- Collaborator `bch2_btree_node_iter_peek_all(node_iter, b)`: the key at the position of the
  node iterator (`none` is `NULL`). -/
  bch2_btree_node_iter_peek_all : btree n → Option Nat
  /-- Collaborator `bkey_cmp_packed(b, k, &insert->k)`. -/
  bkey_cmp_packed : bkey_packed → bkey_i → Int
  /-- Collaborator `bkey_whiteout`, a test on the type of a key. -/
  bkey_whiteout : Nat → Bool
  /-- Collaborator `bkey_written(b, k)`. -/
  bkey_written : btree n → Nat → Bool
  /-- The test `k >= btree_bset_last(b)->start`. -/
  in_last_bset : btree n → Nat → Bool
  /-- Collaborator `btree_account_key_drop(b, k)`. -/
  btree_account_key_drop : btree n → Nat → btree n
  /-- Collaborator `bch2_bset_delete(b, k, clobber_u64s)`. -/
  bch2_bset_delete : btree n → Nat → Nat → btree n
  /-- Collaborator `reserve_whiteout(b, k)`. -/
  reserve_whiteout : btree n → Nat → btree n
  /-- Collaborator `bch2_btree_node_iter_bset_pos(node_iter, b, bset_tree_last(b))`. -/
  bch2_btree_node_iter_bset_pos : btree n → Nat
  /-- Collaborator `bch2_bset_insert(b, node_iter, k, insert, clobber_u64s)`. -/
  bch2_bset_insert : btree n → Nat → bkey_i → Nat → btree n
  /-- The constant `KEY_TYPE_deleted`. -/
  KEY_TYPE_deleted : Nat

/-- What the insert into a leaf does to its collaborators, in program order. -/
inductive leaf_event where
  /-- Call of `bch2_btree_node_iter_fix(iter, b, node_iter, k, clobber_u64s, new_u64s)`. -/
  | node_iter_fix (k clobber_u64s new_u64s : Nat)
  /-- Call of `bch2_journal_add_keys(j, &trans->journal_res, btree_id, insert)`. -/
  | journal_add_keys (btree_id : Nat) (insert : bkey_i)
  /-- Call of `bch2_journal_set_has_inode(j, &trans->journal_res, inode)`. -/
  | journal_set_has_inode (inode : Nat)
  /-- The store `*trans->journal_seq = seq`. -/
  | store_journal_seq (seq : Nat)
  deriving DecidableEq, Repr

/-- The assertions of the insert into a leaf. -/
inductive leaf_bug where
  /-- Assertion `BUG_ON(bkey_whiteout(k))` in `bch2_btree_bset_insert_key`. -/
  | found_whiteout
  /-- An assertion of `journal_reclaim.c`, tripped by `bch2_journal_pin_add`. -/
  | journal (b : bug)
  deriving DecidableEq, Repr

/-- The result of `bch2_btree_bset_insert_key`: the value returned, the node, the key
`insert` as the call leaves it and the calls made. -/
structure bset_insert_result (n : Nat) where
  ret : Bool
  b : btree n
  insert : bkey_i
  events : List leaf_event

/-! ## Inserting into a leaf node: operations (btree_update_leaf.c) -/

/-- The end of `bch2_btree_bset_insert_key` from the label `overwrite`
(btree_update_leaf.c:148). -/
def bset_insert_overwrite (env : leaf_env n) (b : btree n) (insert : bkey_i)
    (k clobber_u64s : Nat) (events : List leaf_event) : bset_insert_result n :=
  let b1 := env.bch2_bset_insert b k insert clobber_u64s
  { ret := true, b := b1, insert := insert
    events := events ++ [.node_iter_fix k clobber_u64s (b1.keys k).u64s] }

/-- Embedding of `bch2_btree_bset_insert_key` (btree_update_leaf.c:78). The `memcpy_u64s`
of `bkey_val_u64s(&insert->k)` words overwrites the first words of the value of `k`. The
debug-only `EBUG_ON` checks are left out. -/
def bch2_btree_bset_insert_key (env : leaf_env n) (b : btree n) (insert : bkey_i) :
    Except leaf_bug (bset_insert_result n) :=
  let found : Option Nat :=
    match env.bch2_btree_node_iter_peek_all b with
    | some k => if env.bkey_cmp_packed (b.keys k) insert = 0 then some k else none
    | none => none
  match found with
  | some k =>
    if env.bkey_whiteout (b.keys k).type then .error .found_whiteout
    else if !env.bkey_written b k && insert.val.length == (b.keys k).val.length &&
        !env.bkey_whiteout insert.type then
      let k1 : bkey_packed :=
        { b.keys k with
          type := insert.type
          val := insert.val ++ (b.keys k).val.drop insert.val.length }
      .ok { ret := true, b := { b with keys := Function.update b.keys k k1 }, insert := insert
            events := [] }
    else
      let insert := { insert with needs_whiteout := (b.keys k).needs_whiteout }
      let b := env.btree_account_key_drop b k
      if env.in_last_bset b k then
        let clobber_u64s := (b.keys k).u64s
        -- If we're deleting, and the key we're deleting doesn't need a whiteout (it
        -- wasn't overwriting a key that had been written to disk) - just delete it:
        if env.bkey_whiteout insert.type && !(b.keys k).needs_whiteout then
          .ok { ret := true, b := env.bch2_bset_delete b k clobber_u64s, insert := insert
                events := [.node_iter_fix k clobber_u64s 0] }
        else .ok (bset_insert_overwrite env b insert k clobber_u64s [])
      else
        let k1 : bkey_packed := { b.keys k with type := env.KEY_TYPE_deleted }
        let b := { b with keys := Function.update b.keys k k1 }
        let events : List leaf_event := [.node_iter_fix k (b.keys k).u64s (b.keys k).u64s]
        if env.bkey_whiteout insert.type then
          .ok { ret := true, b := env.reserve_whiteout b k, insert := insert, events := events }
        else
          let k2 : bkey_packed := { b.keys k with needs_whiteout := false }
          let b := { b with keys := Function.update b.keys k k2 }
          .ok (bset_insert_overwrite env b insert (env.bch2_btree_node_iter_bset_pos b) 0 events)
  | none =>
    -- Deleting, but the key to delete wasn't found - nothing to do:
    if env.bkey_whiteout insert.type then
      .ok { ret := false, b := b, insert := insert, events := [] }
    else
      let insert := { insert with needs_whiteout := false }
      .ok (bset_insert_overwrite env b insert (env.bch2_btree_node_iter_bset_pos b) 0 [])

/-- The fields of `struct btree_trans` and of the journal that `bch2_btree_journal_key`
reads: `trans->flags`, `trans->journal_res.seq`, whether `trans->journal_seq` is
non-null, and `j->replay_journal_seq`. -/
structure leaf_trans where
  flags : Nat
  journal_res_seq : Nat
  journal_seq_ptr : Bool
  replay_journal_seq : Nat

/-- The state the insert into a leaf works on: the pin ledger of the journal, the leaf
node and the calls made so far. -/
structure leaf_state (n : Nat) where
  j : journal n
  b : btree n
  events : List leaf_event

/-- Embedding of `__btree_journal_key` (btree_update_leaf.c:181): the calls made; the
key is logged with `needs_whiteout` cleared and is left as it was. -/
def __btree_journal_key (tr : leaf_trans) (btree_id : Nat) (insert : bkey_i) :
    List leaf_event :=
  [.journal_add_keys btree_id { insert with needs_whiteout := false },
   .journal_set_has_inode insert.inode] ++
    (if tr.journal_seq_ptr then [.store_journal_seq tr.journal_res_seq] else [])

/-- Embedding of `bch2_btree_journal_key` (btree_update_leaf.c:202). The flush callbacks
`btree_node_flush0` and `btree_node_flush1` are named 0 and 1. The debug-only `EBUG_ON`
checks are left out. -/
def bch2_btree_journal_key (tr : leaf_trans) (btree_id : Nat) (s : leaf_state n)
    (insert : bkey_i) : Except bug (leaf_state n) :=
  let w := btree_current_write s.b
  let replay := has_flag tr.flags BTREE_INSERT_JOURNAL_REPLAY
  let evs : List leaf_event := if !replay then __btree_journal_key tr btree_id insert else []
  let b1 : btree n := if !replay then { s.b with journal_seq := tr.journal_res_seq } else s.b
  let r : Except bug (journal n) :=
    if !journal_pin_active (s.j.pins w) then
      let seq := if !replay then tr.journal_res_seq else tr.replay_journal_seq
      bch2_journal_pin_add s.j seq w (if btree_node_write_idx b1 = 0 then some 0 else some 1)
    else .ok s.j
  match r with
  | .error e => .error e
  | .ok j1 =>
    .ok { j := j1
          b := if !btree_node_dirty b1 then set_btree_node_dirty b1 else b1
          events := s.events ++ evs }

/-- Embedding of `bch2_insert_fixup_key` (btree_update_leaf.c:236): the state and the key
`insert->k` as the call leaves them. The debug-only `EBUG_ON` checks are left out. -/
def bch2_insert_fixup_key (env : leaf_env n) (tr : leaf_trans) (btree_id : Nat)
    (s : leaf_state n) (insert : bkey_i) : Except leaf_bug (leaf_state n × bkey_i) :=
  match bch2_btree_bset_insert_key env s.b insert with
  | .error e => .error e
  | .ok r =>
    let s1 : leaf_state n := { s with b := r.b, events := s.events ++ r.events }
    if r.ret then
      match bch2_btree_journal_key tr btree_id s1 r.insert with
      | .error e => .error (.journal e)
      | .ok s2 => .ok (s2, r.insert)
    else .ok (s1, r.insert)

/-- The state after a sequence of calls of `bch2_btree_journal_key` on the same leaf,
each with its transaction and key; the first assertion tripped ends the run. -/
def journal_keys_run (btree_id : Nat) (s : leaf_state n) :
    List (leaf_trans × bkey_i) → Except bug (leaf_state n)
  | [] => .ok s
  | (tr, insert) :: rest =>
    match bch2_btree_journal_key tr btree_id s insert with
    | .error e => .error e
    | .ok s1 => journal_keys_run btree_id s1 rest

/-! ## Example leaf -/

/-- Example leaf node: the key at address 0 is at position 10 with the two value words
7 and 8; write buffer 0 is the current one, its pin is pin 2 of the example ledger and
the pin of write buffer 1 is pin 1. -/
def node_ex : btree 3 :=
  { flags := 0
    keys := fun a =>
      if a = 0 then { p := 10, type := 1, u64s := 5, needs_whiteout := false, val := [7, 8] }
      else { p := 20 + a, type := 1, u64s := 3, needs_whiteout := false, val := [] }
    nr := { live_u64s := 8, bset_u64s := fun _ => 8, packed_keys := 2, unpacked_keys := 0 }
    whiteout_u64s := 0
    journal_seq := 0
    writes := fun i => if i = 0 then 2 else 1 }

/-- Example collaborators of the insert into a leaf: the node iterator points at the key
of address 0, keys compare by position, the whiteouts are the keys of type 0, no key has
been written out, and an insert stores the key at the address given. -/
def leaf_env_ex : leaf_env 3 :=
  { bch2_btree_node_iter_peek_all := fun _ => some 0
    bkey_cmp_packed := fun k i => (k.p : Int) - (i.p : Int)
    bkey_whiteout := fun t => t == 0
    bkey_written := fun _ _ => false
    in_last_bset := fun _ _ => true
    btree_account_key_drop := fun b _ => b
    bch2_bset_delete := fun b _ _ => b
    reserve_whiteout := fun b _ => b
    bch2_btree_node_iter_bset_pos := fun _ => 1
    bch2_bset_insert := fun b k i _ =>
      let k1 : bkey_packed :=
        { p := i.p, type := i.type, u64s := i.u64s, needs_whiteout := i.needs_whiteout,
          val := i.val }
      { b with keys := Function.update b.keys k k1 }
    KEY_TYPE_deleted := 0 }

/-- Example state: the example ledger and the example leaf, no call made yet. -/
def leaf_ex : leaf_state 3 := { j := ledger_ex, b := node_ex, events := [] }

/-- Example key: a delete marker at position 11, where the leaf has no key. -/
def key_delete_absent : bkey_i :=
  { inode := 1, p := 11, type := 0, u64s := 3, needs_whiteout := false, val := [] }

/-- Example key: a key of type 2 at position 10 with the two value words 9 and 9. -/
def key_overwrite : bkey_i :=
  { inode := 1, p := 10, type := 2, u64s := 5, needs_whiteout := false, val := [9, 9] }

/-- Example transaction: not in journal replay, with the journal reservation at seq 8. -/
def leaf_trans_ex : leaf_trans :=
  { flags := 0, journal_res_seq := 8, journal_seq_ptr := false, replay_journal_seq := 5 }

/-! # Theorems -/



/-! ## Lemmas: window primitives -/

@[simp] theorem pin_fifo.set_data (f : pin_fifo n) (s : Nat) (e : journal_entry_pin_list n)
    (t : Nat) : (f.set s e).data t = if t = s then e else f.data t := by
  simp [pin_fifo.set, Function.update_apply]

@[simp] theorem pin_fifo.set_front (f : pin_fifo n) (s : Nat) (e : journal_entry_pin_list n) :
    (f.set s e).front = f.front := rfl

@[simp] theorem pin_fifo.set_back (f : pin_fifo n) (s : Nat) (e : journal_entry_pin_list n) :
    (f.set s e).back = f.back := rfl

@[simp] theorem list_del_init_front (f : pin_fifo n) (p : Fin n) :
    (list_del_init f p).front = f.front := rfl

@[simp] theorem list_del_init_back (f : pin_fifo n) (p : Fin n) :
    (list_del_init f p).back = f.back := rfl

@[simp] theorem list_del_init_count (f : pin_fifo n) (p : Fin n) (s : Nat) :
    ((list_del_init f p).data s).count = (f.data s).count := rfl

@[simp] theorem list_del_init_list (f : pin_fifo n) (p : Fin n) (s : Nat) :
    ((list_del_init f p).data s).list = (f.data s).list.filter (fun q => q ≠ p) := rfl

@[simp] theorem list_del_init_flushed (f : pin_fifo n) (p : Fin n) (s : Nat) :
    ((list_del_init f p).data s).flushed = (f.data s).flushed.filter (fun q => q ≠ p) := rfl

/-! ## Lemmas: fast reclaim -/

theorem reclaim_fast_unfold (j : journal n) :
    bch2_journal_reclaim_fast j =
      if (fifo_peek_front j.pin).count ≠ 0 then .ok j
      else if (fifo_peek_front j.pin).list ≠ [] then .error .reclaim_list_not_empty
      else
        match fifo_pop j.pin with
        | none => .error .reclaim_pop_failed
        | some f => bch2_journal_reclaim_fast { j with pin := f } := by
  rw [bch2_journal_reclaim_fast]
  split
  · rfl
  · split
    · rfl
    · split <;> simp_all

theorem fifo_pop_some {f g : pin_fifo n} (h : fifo_pop f = some g) :
    f.front < f.back ∧ g = { f with front := f.front + 1 } := by
  unfold fifo_pop fifo_used at h
  split at h
  · cases h
  · cases h
    exact ⟨by omega, rfl⟩

/-- What a returning fast reclaim did: only the front moved, forward, over entries with
a zero count and an empty active list, up to an entry with a nonzero count. -/
theorem reclaim_fast_ok (j r : journal n) (h : bch2_journal_reclaim_fast j = .ok r) :
    r.pins = j.pins ∧ r.pin.data = j.pin.data ∧ r.pin.back = j.pin.back ∧
    r.pin.size = j.pin.size ∧ j.pin.front ≤ r.pin.front ∧
    (∀ s, j.pin.front ≤ s → s < r.pin.front →
      (j.pin.data s).count = 0 ∧ (j.pin.data s).list = []) ∧
    (r.pin.data r.pin.front).count ≠ 0 ∧
    (r.pin.front = j.pin.front ∨ r.pin.front ≤ j.pin.back) := by
  induction j using bch2_journal_reclaim_fast.induct with
  | case1 x hc =>
    rw [reclaim_fast_unfold, if_pos hc] at h
    cases h
    exact ⟨rfl, rfl, rfl, rfl, le_refl _, fun s h1 h2 => absurd h2 (by omega), hc, Or.inl rfl⟩
  | case2 x hc hl =>
    rw [reclaim_fast_unfold, if_neg hc, if_pos hl] at h
    cases h
  | case3 x hc hl hp =>
    rw [reclaim_fast_unfold, if_neg hc, if_neg hl, hp] at h
    cases h
  | case4 x hc hl f hp ih =>
    rw [reclaim_fast_unfold, if_neg hc, if_neg hl, hp] at h
    obtain ⟨hlt, rfl⟩ := fifo_pop_some hp
    obtain ⟨h1, h2, h3, h4, h5, h6, h7, h8⟩ := ih h
    simp only at h1 h2 h3 h4 h5 h6 h7 h8
    refine ⟨h1, h2, h3, h4, by omega, ?_, h7, Or.inr (by omega)⟩
    intro s hs1 hs2
    by_cases hs : s = x.pin.front
    · subst hs
      simp only [fifo_peek_front, ne_eq, not_not] at hc hl
      exact ⟨hc, hl⟩
    · exact h6 s (by omega) hs2

/-- Fast reclaim never trips the active-list assertion when every entry with a zero
count has an empty active list. -/
theorem reclaim_fast_no_list_bug (j : journal n)
    (H : ∀ s, (j.pin.data s).count = 0 → (j.pin.data s).list = []) :
    bch2_journal_reclaim_fast j ≠ .error .reclaim_list_not_empty := by
  induction j using bch2_journal_reclaim_fast.induct with
  | case1 x hc => rw [reclaim_fast_unfold, if_pos hc]; simp
  | case2 x hc hl =>
    simp only [fifo_peek_front, ne_eq, not_not] at hc hl
    exact absurd (H _ hc) hl
  | case3 x hc hl hp => rw [reclaim_fast_unfold, if_neg hc, if_neg hl, hp]; simp
  | case4 x hc hl f hp ih =>
    rw [reclaim_fast_unfold, if_neg hc, if_neg hl, hp]
    obtain ⟨_, rfl⟩ := fifo_pop_some hp
    exact ih H

/-- Fast reclaim returns when some entry of the window has a nonzero count and the
entries with a zero count have an empty active list; it stops at or before that entry. -/
theorem reclaim_fast_returns (j : journal n) (t : Nat)
    (H : ∀ s, (j.pin.data s).count = 0 → (j.pin.data s).list = [])
    (ht1 : j.pin.front ≤ t) (ht2 : t < j.pin.back) (ht3 : (j.pin.data t).count ≠ 0) :
    ∃ r, bch2_journal_reclaim_fast j = .ok r ∧ r.pin.front ≤ t := by
  induction j using bch2_journal_reclaim_fast.induct with
  | case1 x hc => exact ⟨x, by rw [reclaim_fast_unfold, if_pos hc], ht1⟩
  | case2 x hc hl =>
    simp only [fifo_peek_front, ne_eq, not_not] at hc hl
    exact absurd (H _ hc) hl
  | case3 x hc hl hp =>
    unfold fifo_pop fifo_used at hp
    split at hp
    · omega
    · cases hp
  | case4 x hc hl f hp ih =>
    obtain ⟨_, rfl⟩ := fifo_pop_some hp
    simp only [fifo_peek_front, ne_eq, not_not] at hc
    have hne : t ≠ x.pin.front := fun e => ht3 (e ▸ hc)
    obtain ⟨r, hr, hr2⟩ := ih H (by simp only; omega) ht2 ht3
    exact ⟨r, by rw [reclaim_fast_unfold, if_neg (by simpa [fifo_peek_front] using hc), if_neg hl, hp]; exact hr, hr2⟩

/-! ## Lemmas: counting attached pins -/

theorem card_attached_update (pins : Fin n → journal_entry_pin) (p : Fin n)
    (v : journal_entry_pin) (s : Nat) :
    (((Finset.univ.filter (fun q => (Function.update pins p v q).pin_list = some s)).card : Nat) : Int) =
      ((Finset.univ.filter (fun q => (pins q).pin_list = some s)).card : Int)
        - (if (pins p).pin_list = some s then 1 else 0)
        + (if v.pin_list = some s then 1 else 0) := by
  rw [Finset.card_filter, Finset.card_filter]
  rw [← Finset.add_sum_erase Finset.univ _ (Finset.mem_univ p)]
  rw [← Finset.add_sum_erase Finset.univ (fun q => if (pins q).pin_list = some s then 1 else 0)
    (Finset.mem_univ p)]
  have : ∀ q ∈ Finset.univ.erase p,
      (if (Function.update pins p v q).pin_list = some s then 1 else 0 : Nat) =
        (if (pins q).pin_list = some s then 1 else 0) := by
    intro q hq
    rw [Function.update_noteq (Finset.ne_of_mem_erase hq)]
  rw [Finset.sum_congr rfl this]
  simp only [Function.update_same]
  push_cast
  split <;> split <;> simp <;> omega



theorem nr_attached_update (f : pin_fifo n) (pins : Fin n → journal_entry_pin) (p : Fin n)
    (v : journal_entry_pin) (s : Nat) :
    (nr_attached { pin := f, pins := Function.update pins p v } s : Int) =
      (nr_attached { pin := f, pins := pins } s : Int)
        - (if (pins p).pin_list = some s then 1 else 0)
        + (if v.pin_list = some s then 1 else 0) :=
  card_attached_update pins p v s

theorem nr_attached_congr (j j' : journal n) (h : j'.pins = j.pins) (s : Nat) :
    nr_attached j' s = nr_attached j s := by
  unfold nr_attached
  rw [h]

theorem nr_attached_pos (j : journal n) (p : Fin n) (s : Nat)
    (h : (j.pins p).pin_list = some s) : 0 < nr_attached j s := by
  unfold nr_attached
  exact Finset.card_pos.mpr ⟨p, by simp [h]⟩

theorem count_pos_of_attached (j : journal n) (hc : count_ge_attached j) (p : Fin n) (s : Nat)
    (h : (j.pins p).pin_list = some s) : 0 < (j.pin.data s).count := by
  have h1 := hc s
  have h2 := nr_attached_pos j p s h
  omega

theorem list_empty_of_count_zero (j : journal n) (hc : count_ge_attached j) (hl : links_ok j)
    (s : Nat) (h : (j.pin.data s).count = 0) : (j.pin.data s).list = [] := by
  cases hlist : (j.pin.data s).list with
  | nil => rfl
  | cons q rest =>
    have hq := hl s q (by rw [hlist]; exact List.mem_cons_self _ _)
    have := count_pos_of_attached j hc q s hq
    omega

theorem count_ge_of_conserve (j j' : journal n) (hc : count_ge_attached j)
    (h : ∀ t, (j'.pin.data t).count - (nr_attached j' t : Int) =
      (j.pin.data t).count - (nr_attached j t : Int)) : count_ge_attached j' := by
  intro t
  have h1 := hc t
  have h2 := h t
  omega

/-! ## Lemmas: what each operation does -/

theorem step_facts.refl (j : journal n) : step_facts j j where
  conserve := fun _ => rfl
  links := id
  front_le := le_refl _
  back_eq := rfl
  nonzero := fun _ _ h => h
  popped := fun _ t h1 h2 => absurd h2 (by omega)
  stable := fun _ _ h1 h2 => ⟨h1, h2⟩

theorem step_facts.trans {j j1 j2 : journal n} (a : step_facts j j1) (b : step_facts j1 j2) :
    step_facts j j2 where
  conserve := fun t => (b.conserve t).trans (a.conserve t)
  links := fun h => b.links (a.links h)
  front_le := le_trans a.front_le b.front_le
  back_eq := b.back_eq.trans a.back_eq
  nonzero := fun hc t h =>
    a.nonzero hc t (b.nonzero (count_ge_of_conserve j j1 hc a.conserve) t h)
  popped := by
    intro hc t h1 h2
    have hc1 := count_ge_of_conserve j j1 hc a.conserve
    by_cases ht : t < j1.pin.front
    · obtain ⟨x, y⟩ := a.popped hc t h1 ht
      exact b.stable hc1 t x y
    · exact b.popped hc1 t (by omega) h2
  stable := by
    intro hc t h1 h2
    have hc1 := count_ge_of_conserve j j1 hc a.conserve
    obtain ⟨x, y⟩ := a.stable hc t h1 h2
    exact b.stable hc1 t x y

theorem reclaim_fast_facts (j r : journal n) (h : bch2_journal_reclaim_fast j = .ok r) :
    step_facts j r := by
  obtain ⟨h1, h2, h3, _, h5, h6, _, _⟩ := reclaim_fast_ok j r h
  refine ⟨?_, ?_, h5, h3, ?_, ?_, ?_⟩
  · intro t; rw [h2, nr_attached_congr j r h1]
  · intro hl s p hp; rw [h1]; rw [h2] at hp; exact hl s p hp
  · intro _ t ht; rw [h2] at ht; exact ht
  · intro _ t ht1 ht2; rw [h2]; exact h6 t ht1 ht2
  · intro _ t ht1 ht2; rw [h2]; exact ⟨ht1, ht2⟩

theorem pin_add_ok (j j' : journal n) (s : Nat) (p : Fin n) (f : Option Nat)
    (h : __journal_pin_add j s p f = .ok j') :
    (j.pins p).pin_list = none ∧ (j.pin.data s).count ≠ 0 ∧
    ∃ e : journal_entry_pin_list n,
      e.count = (j.pin.data s).count + 1 ∧
      e.list = (if f.isSome then p :: (j.pin.data s).list else (j.pin.data s).list) ∧
      e.flushed = (j.pin.data s).flushed ∧ e.devs = (j.pin.data s).devs ∧
      j' = { pin := j.pin.set s e
             pins := Function.update j.pins p { flush := f, pin_list := some s } } := by
  unfold __journal_pin_add journal_pin_active at h
  split at h
  · cases h
  · split at h
    · cases h
    · rename_i h1 h2
      injection h with h
      refine ⟨by simpa using h1, h2, _, ?_, ?_, ?_, ?_, h.symm⟩
      all_goals (cases f <;> rfl)

theorem pin_add_returns (j : journal n) (s : Nat) (p : Fin n) (f : Option Nat)
    (h1 : (j.pins p).pin_list = none) (h2 : (j.pin.data s).count ≠ 0) :
    ∃ j', __journal_pin_add j s p f = .ok j' := by
  unfold __journal_pin_add journal_pin_active
  rw [h1]
  simp [h2]

theorem pin_add_facts (j j' : journal n) (s : Nat) (p : Fin n) (f : Option Nat)
    (h : __journal_pin_add j s p f = .ok j') : step_facts j j' := by
  obtain ⟨h1, h2, e, he1, he2, _, _, rfl⟩ := pin_add_ok j j' s p f h
  refine ⟨?_, ?_, le_refl _, rfl, ?_, ?_, ?_⟩
  · intro t
    have := nr_attached_update (j.pin.set s e) j.pins p { flush := f, pin_list := some s } t
    rw [this, h1]
    have e : nr_attached { pin := j.pin.set s e, pins := j.pins } t = nr_attached j t :=
      nr_attached_congr _ _ rfl t
    rw [e]
    simp only [pin_fifo.set_data]
    by_cases hts : t = s
    · subst hts; simp [he1]
    · have : ¬ (s = t) := fun e => hts e.symm
      simp [hts, this]
  · intro hl t q hq
    simp only [pin_fifo.set_data] at hq
    by_cases hqp : q = p
    · subst hqp
      show (Function.update j.pins q _ q).pin_list = some t
      simp only [Function.update_same]
      by_cases hts : t = s
      · rw [hts]
      · rw [if_neg hts] at hq
        have := hl t q hq
        rw [h1] at this; cases this
    · show (Function.update j.pins p _ q).pin_list = some t
      rw [Function.update_noteq hqp]
      by_cases hts : t = s
      · subst hts
        rw [if_pos rfl, he2] at hq
        cases f with
        | none => exact hl t q (by simpa using hq)
        | some g =>
          simp only [Option.isSome_some, if_true, List.mem_cons] at hq
          rcases hq with hq | hq
          · exact absurd hq hqp
          · exact hl t q hq
      · rw [if_neg hts] at hq
        exact hl t q hq
  · intro _ t ht
    simp only [pin_fifo.set_data] at ht
    by_cases hts : t = s
    · subst hts; exact h2
    · rw [if_neg hts] at ht; exact ht
  · intro _ t ht1 ht2
    simp only [pin_fifo.set_front] at ht2
    omega
  · intro _ t ht1 ht2
    simp only [pin_fifo.set_data]
    by_cases hts : t = s
    · subst hts; exact absurd ht1 h2
    · rw [if_neg hts]; exact ⟨ht1, ht2⟩



theorem pin_drop_inactive (j : journal n) (p : Fin n) (h : (j.pins p).pin_list = none) :
    __journal_pin_drop j p = .ok j := by
  unfold __journal_pin_drop
  rw [h]

theorem pin_drop_active (j : journal n) (p : Fin n) (s : Nat)
    (h : (j.pins p).pin_list = some s) :
    __journal_pin_drop j p =
      if (j.pin.data s).count - 1 = 0 ∧ s = j.pin.front then
        bch2_journal_reclaim_fast (pin_drop_detached j p s)
      else .ok (pin_drop_detached j p s) := by
  unfold __journal_pin_drop
  rw [h]
  rfl

@[simp] theorem pin_drop_detached_count (j : journal n) (p : Fin n) (s t : Nat) :
    ((pin_drop_detached j p s).pin.data t).count =
      (j.pin.data t).count - (if t = s then 1 else 0) := by
  unfold pin_drop_detached
  by_cases h : t = s
  · subst h; simp
  · simp [h]

@[simp] theorem pin_drop_detached_list (j : journal n) (p : Fin n) (s t : Nat) :
    ((pin_drop_detached j p s).pin.data t).list = (j.pin.data t).list.filter (fun q => q ≠ p) := by
  unfold pin_drop_detached
  by_cases h : t = s
  · subst h; simp
  · simp [h]

@[simp] theorem pin_drop_detached_flushed (j : journal n) (p : Fin n) (s t : Nat) :
    ((pin_drop_detached j p s).pin.data t).flushed =
      (j.pin.data t).flushed.filter (fun q => q ≠ p) := by
  unfold pin_drop_detached
  by_cases h : t = s
  · subst h; simp
  · simp [h]

@[simp] theorem pin_drop_detached_pins (j : journal n) (p : Fin n) (s : Nat) :
    (pin_drop_detached j p s).pins =
      Function.update j.pins p { j.pins p with pin_list := none } := rfl

@[simp] theorem pin_drop_detached_front (j : journal n) (p : Fin n) (s : Nat) :
    (pin_drop_detached j p s).pin.front = j.pin.front := rfl

@[simp] theorem pin_drop_detached_back (j : journal n) (p : Fin n) (s : Nat) :
    (pin_drop_detached j p s).pin.back = j.pin.back := rfl

theorem pin_drop_detached_attached (j : journal n) (p : Fin n) (s t : Nat)
    (h : (j.pins p).pin_list = some s) :
    (nr_attached (pin_drop_detached j p s) t : Int) =
      (nr_attached j t : Int) - (if t = s then 1 else 0) := by
  have := nr_attached_update (pin_drop_detached j p s).pin j.pins p
    { j.pins p with pin_list := none } t
  have e : nr_attached { pin := (pin_drop_detached j p s).pin, pins := j.pins } t
      = nr_attached j t := nr_attached_congr _ _ rfl t
  rw [e, h] at this
  have e2 : nr_attached (pin_drop_detached j p s) t =
      nr_attached { pin := (pin_drop_detached j p s).pin,
                    pins := Function.update j.pins p { j.pins p with pin_list := none } } t := rfl
  rw [e2, this]
  by_cases hts : t = s
  · subst hts; simp
  · have : ¬ (s = t) := fun e => hts e.symm
    simp [hts, this]

theorem pin_drop_detached_facts (j : journal n) (p : Fin n) (s : Nat)
    (h : (j.pins p).pin_list = some s) : step_facts j (pin_drop_detached j p s) := by
  refine ⟨?_, ?_, le_refl _, rfl, ?_, ?_, ?_⟩
  · intro t
    rw [pin_drop_detached_attached j p s t h, pin_drop_detached_count]
    split <;> omega
  · intro hl t q hq
    rw [pin_drop_detached_list, List.mem_filter] at hq
    have hqp : q ≠ p := by simpa using hq.2
    rw [pin_drop_detached_pins, Function.update_noteq hqp]
    exact hl t q hq.1
  · intro hc t ht
    by_cases hts : t = s
    · subst hts
      have := count_pos_of_attached j hc p t h
      omega
    · simpa [hts] using ht
  · intro _ t ht1 ht2
    rw [pin_drop_detached_front] at ht2
    omega
  · intro hc t ht1 ht2
    have hts : t ≠ s := by
      intro e; subst e
      have := count_pos_of_attached j hc p t h
      omega
    simp [hts, ht1, ht2]

theorem pin_drop_facts (j j' : journal n) (p : Fin n) (h : __journal_pin_drop j p = .ok j') :
    step_facts j j' := by
  cases hp : (j.pins p).pin_list with
  | none =>
    rw [pin_drop_inactive j p hp] at h
    cases h
    exact step_facts.refl j
  | some s =>
    rw [pin_drop_active j p s hp] at h
    split at h
    · exact (pin_drop_detached_facts j p s hp).trans (reclaim_fast_facts _ _ h)
    · cases h
      exact pin_drop_detached_facts j p s hp

theorem pin_drop_no_list_bug (j : journal n) (p : Fin n) (hc : count_ge_attached j)
    (hl : links_ok j) : __journal_pin_drop j p ≠ .error .reclaim_list_not_empty := by
  cases hp : (j.pins p).pin_list with
  | none => rw [pin_drop_inactive j p hp]; simp
  | some s =>
    rw [pin_drop_active j p s hp]
    have a := pin_drop_detached_facts j p s hp
    split
    · exact reclaim_fast_no_list_bug _
        (list_empty_of_count_zero _ (count_ge_of_conserve _ _ hc a.conserve) (a.links hl))
    · simp

theorem pin_add_no_list_bug (j : journal n) (s : Nat) (p : Fin n) (f : Option Nat) :
    __journal_pin_add j s p f ≠ .error .reclaim_list_not_empty := by
  unfold __journal_pin_add
  split
  · simp
  · split <;> simp

theorem pin_add_if_older_facts (j j' : journal n) (src p : Fin n) (f : Option Nat)
    (h : bch2_journal_pin_add_if_older j src p f = .ok j') : step_facts j j' := by
  unfold bch2_journal_pin_add_if_older at h
  split at h
  · cases h; exact step_facts.refl j
  · split at h
    · split at h
      · cases h
      · rename_i j1 hd
        exact (pin_drop_facts j j1 p hd).trans (pin_add_facts j1 j' _ p f h)
    · cases h; exact step_facts.refl j

theorem pin_add_if_older_no_list_bug (j : journal n) (src p : Fin n) (f : Option Nat)
    (hc : count_ge_attached j) (hl : links_ok j) :
    bch2_journal_pin_add_if_older j src p f ≠ .error .reclaim_list_not_empty := by
  unfold bch2_journal_pin_add_if_older
  split
  · simp
  · split
    · split
      · rename_i b hd
        intro e
        injection e with e
        subst e
        exact pin_drop_no_list_bug j p hc hl hd
      · exact pin_add_no_list_bug _ _ _ _
    · simp
theorem list_move_flushed_count (f : pin_fifo n) (p : Fin n) (s t : Nat) :
    ((list_move_flushed f p s).data t).count = (f.data t).count := by
  unfold list_move_flushed
  by_cases h : t = s
  · subst h; simp
  · simp [h]

theorem list_move_flushed_list (f : pin_fifo n) (p : Fin n) (s t : Nat) :
    ((list_move_flushed f p s).data t).list = (f.data t).list.filter (fun q => q ≠ p) := by
  unfold list_move_flushed
  by_cases h : t = s
  · subst h; simp
  · simp [h]

theorem list_move_flushed_flushed (f : pin_fifo n) (p : Fin n) (s t : Nat) :
    ((list_move_flushed f p s).data t).flushed =
      if t = s then p :: (f.data t).flushed.filter (fun q => q ≠ p)
      else (f.data t).flushed.filter (fun q => q ≠ p) := by
  unfold list_move_flushed
  by_cases h : t = s
  · subst h; simp
  · simp [h]

/-- The scan of the next-pin fetch either leaves the ledger as it is and returns no pin,
or returns the head of some active list after moving it to that entry's flushed
membership. -/
theorem get_next_pin_scan_cases (j : journal n) (seq_to_flush : Nat) (l : List Nat) :
    journal_get_next_pin_scan j seq_to_flush l = (j, none) ∨
    ∃ ret iter rest, iter ∈ l ∧ iter ≤ seq_to_flush ∧ (j.pin.data iter).list = ret :: rest ∧
      journal_get_next_pin_scan j seq_to_flush l =
        ({ j with pin := list_move_flushed j.pin ret iter }, some (ret, iter)) := by
  induction l with
  | nil => exact Or.inl rfl
  | cons it l ih =>
    unfold journal_get_next_pin_scan
    split
    · exact Or.inl rfl
    · rename_i hle
      split
      · rename_i ret rest hl
        exact Or.inr ⟨ret, it, rest, List.mem_cons_self _ _, by omega, hl, rfl⟩
      · rcases ih with ih | ⟨ret, iter, rest, h1, h2, h3, h4⟩
        · exact Or.inl ih
        · exact Or.inr ⟨ret, iter, rest, List.mem_cons_of_mem _ h1, h2, h3, h4⟩

theorem list_move_flushed_facts (j : journal n) (ret : Fin n) (iter : Nat) :
    step_facts j { j with pin := list_move_flushed j.pin ret iter } := by
  refine ⟨?_, ?_, le_refl _, rfl, ?_, ?_, ?_⟩
  · intro t
    rw [list_move_flushed_count]
    rw [nr_attached_congr j { j with pin := list_move_flushed j.pin ret iter } rfl t]
  · intro hl t q hq
    rw [list_move_flushed_list, List.mem_filter] at hq
    exact hl t q hq.1
  · intro _ t ht
    rw [list_move_flushed_count] at ht
    exact ht
  · intro _ t ht1 ht2
    have : (list_move_flushed j.pin ret iter).front = j.pin.front := rfl
    simp only [this] at ht2
    omega
  · intro _ t ht1 ht2
    rw [list_move_flushed_count, list_move_flushed_list, ht2]
    exact ⟨ht1, rfl⟩

theorem get_next_pin_scan_facts (j : journal n) (seq_to_flush : Nat) (l : List Nat) :
    step_facts j (journal_get_next_pin_scan j seq_to_flush l).1 := by
  rcases get_next_pin_scan_cases j seq_to_flush l with h | ⟨ret, iter, rest, _, _, _, h⟩
  · rw [h]; exact step_facts.refl j
  · rw [h]; exact list_move_flushed_facts j ret iter

theorem get_next_pin_facts (j : journal n) (seq_to_flush : Nat)
    (r : journal n × Option (Fin n × Nat))
    (h : __journal_get_next_pin j seq_to_flush = .ok r) : step_facts j r.1 := by
  unfold __journal_get_next_pin at h
  split at h
  · cases h
  · rename_i j1 hr
    cases h
    exact (reclaim_fast_facts j j1 hr).trans (get_next_pin_scan_facts j1 _ _)

theorem ledger_step_facts (j j' : journal n) (op : ledger_op n)
    (h : ledger_step j op = .ok j') : step_facts j j' := by
  cases op with
  | pin_add seq pin f => exact pin_add_facts j j' _ pin f h
  | pin_drop pin => exact pin_drop_facts j j' pin h
  | pin_add_if_older src pin f => exact pin_add_if_older_facts j j' src pin f h
  | get_next_pin stf =>
    simp only [ledger_step] at h
    split at h
    · cases h
    · rename_i r hr
      cases h
      exact get_next_pin_facts j stf r hr
  | reclaim_fast => exact reclaim_fast_facts j j' h

theorem ledger_step_no_list_bug (j : journal n) (op : ledger_op n)
    (hc : count_ge_attached j) (hl : links_ok j) :
    ledger_step j op ≠ .error .reclaim_list_not_empty := by
  cases op with
  | pin_add seq pin f => exact pin_add_no_list_bug j _ pin f
  | pin_drop pin => exact pin_drop_no_list_bug j pin hc hl
  | pin_add_if_older src pin f => exact pin_add_if_older_no_list_bug j src pin f hc hl
  | get_next_pin stf =>
    simp only [ledger_step]
    split
    · rename_i b hb
      intro e
      injection e with e
      subst e
      unfold __journal_get_next_pin at hb
      split at hb
      · rename_i b2 hb2
        injection hb with hb
        subst hb
        exact reclaim_fast_no_list_bug j (list_empty_of_count_zero j hc hl) hb2
      · cases hb
    · simp
  | reclaim_fast => exact reclaim_fast_no_list_bug j (list_empty_of_count_zero j hc hl)

theorem ledger_run_facts (ops : List (ledger_op n)) (j j' : journal n)
    (h : ledger_run j ops = .ok j') : step_facts j j' := by
  induction ops generalizing j with
  | nil => cases h; exact step_facts.refl _
  | cons op ops ih =>
    simp only [ledger_run] at h
    split at h
    · cases h
    · rename_i j1 h1
      exact (ledger_step_facts j j1 op h1).trans (ih j1 h)

theorem ledger_run_no_list_bug (ops : List (ledger_op n)) (j : journal n)
    (hc : count_ge_attached j) (hl : links_ok j) :
    ledger_run j ops ≠ .error .reclaim_list_not_empty := by
  induction ops generalizing j with
  | nil => simp [ledger_run]
  | cons op ops ih =>
    simp only [ledger_run]
    split
    · rename_i b hb
      intro e
      injection e with e
      subst e
      exact ledger_step_no_list_bug j op hc hl hb
    · rename_i j1 h1
      have a := ledger_step_facts j j1 op h1
      exact ih j1 (count_ge_of_conserve _ _ hc a.conserve) (a.links hl)

/-! ## Lemmas: the reclaim watermark -/

theorem first_pinned_spec (data : Nat → journal_entry_pin_list n) (k s : Nat) :
    s ≤ first_pinned data k s ∧ first_pinned data k s ≤ s + k ∧
    (∀ t, s ≤ t → t < first_pinned data k s → (data t).count = 0) ∧
    (first_pinned data k s < s + k → (data (first_pinned data k s)).count ≠ 0) := by
  induction k generalizing s with
  | zero =>
    simp only [first_pinned]
    exact ⟨le_refl _, le_refl _, fun t h1 h2 => absurd h2 (by omega), fun h => absurd h (by omega)⟩
  | succ k ih =>
    simp only [first_pinned]
    split
    · rename_i hc
      exact ⟨le_refl _, by omega, fun t h1 h2 => absurd h2 (by omega), fun _ => hc⟩
    · rename_i hc
      obtain ⟨h1, h2, h3, h4⟩ := ih (s + 1)
      refine ⟨by omega, by omega, ?_, fun h => h4 (by omega)⟩
      intro t ht1 ht2
      by_cases hts : t = s
      · subst hts; simpa using hc
      · exact h3 t (by omega) ht2

theorem reclaim_watermark_mono (j j' : journal n) (hf : j.pin.front ≤ j'.pin.front)
    (hb : j'.pin.back = j.pin.back)
    (hz : ∀ t, (j'.pin.data t).count ≠ 0 → (j.pin.data t).count ≠ 0) :
    reclaim_watermark j ≤ reclaim_watermark j' := by
  unfold reclaim_watermark fifo_used
  obtain ⟨a1, a2, a3, a4⟩ := first_pinned_spec j.pin.data (j.pin.back - j.pin.front) j.pin.front
  obtain ⟨b1, b2, b3, b4⟩ :=
    first_pinned_spec j'.pin.data (j'.pin.back - j'.pin.front) j'.pin.front
  by_contra hlt
  push_neg at hlt
  have h0 := a3 _ (le_trans hf b1) hlt
  have hlt2 : first_pinned j'.pin.data (j'.pin.back - j'.pin.front) j'.pin.front <
      j'.pin.front + (j'.pin.back - j'.pin.front) := by omega
  exact hz _ (b4 hlt2) h0
/-! ## The example ledger is well formed -/

theorem ledger_ex_nr_attached (s : Nat) :
    nr_attached ledger_ex s = if s = 5 then 1 else if s = 8 then 1 else 0 := by
  unfold nr_attached
  rw [Finset.card_filter]
  simp only [Fin.sum_univ_three, ledger_ex, ledger_ex_pins]
  by_cases h5 : s = 5
  · subst h5; decide
  · by_cases h8 : s = 8
    · subst h8; decide
    · have a : ¬ (5 = s) := fun e => h5 e.symm
      have b : ¬ (8 = s) := fun e => h8 e.symm
      simp [h5, h8, a, b]

theorem ledger_ex_count_ge : count_ge_attached ledger_ex := by
  intro s
  rw [ledger_ex_nr_attached]
  simp only [ledger_ex, ledger_ex_data]
  by_cases h5 : s = 5
  · subst h5; decide
  · by_cases h8 : s = 8
    · subst h8; decide
    · simp [h5, h8]

theorem ledger_ex_links : links_ok ledger_ex := by
  intro s p hp
  simp only [ledger_ex, ledger_ex_data] at hp
  by_cases h5 : s = 5
  · subst h5
    simp at hp
    subst hp
    rfl
  · by_cases h8 : s = 8
    · subst h8
      simp at hp
      subst hp
      rfl
    · simp [h5, h8] at hp


/-! ## C1: no premature reclaim -/

/-- C1 (no premature reclaim). Start from a ledger in which every pin list's count is
at least the number of pins attached to it (and whose active memberships only hold
pins attached to that list), and make any sequence of calls to `bch2_journal_pin_add`,
`bch2_journal_pin_drop`, `bch2_journal_pin_add_if_older`, the next-pin fetch and
`bch2_journal_reclaim_fast`. Then the run never trips the assertion of fast reclaim that
the popped entry's active list is empty; if it returns, the ledger still satisfies the
invariant and every entry that left the window during the run has a zero count and an
empty active list. Moreover a call of fast reclaim, from any state whatever, pops only
entries whose count is zero and whose active list is empty. -/
theorem no_premature_reclaim (j0 : journal n) (ops : List (ledger_op n))
    (hc : count_ge_attached j0) (hl : links_ok j0) :
    ledger_run j0 ops ≠ .error .reclaim_list_not_empty ∧
    (∀ j, ledger_run j0 ops = .ok j →
      count_ge_attached j ∧ links_ok j ∧
      ∀ s, j0.pin.front ≤ s → s < j.pin.front →
        (j.pin.data s).count = 0 ∧ (j.pin.data s).list = []) ∧
    (∀ j r : journal n, bch2_journal_reclaim_fast j = .ok r →
      ∀ s, j.pin.front ≤ s → s < r.pin.front →
        (j.pin.data s).count = 0 ∧ (j.pin.data s).list = []) := by
  refine ⟨ledger_run_no_list_bug ops j0 hc hl, ?_, ?_⟩
  · intro j hj
    have a := ledger_run_facts ops j0 j hj
    exact ⟨count_ge_of_conserve _ _ hc a.conserve, a.links hl, a.popped hc⟩
  · intro j r hr
    exact (reclaim_fast_ok j r hr).2.2.2.2.2.1

/-- Witness for C1: the example ledger satisfies the hypotheses; pin 0 is dropped (which
empties the front entry), then pin 2 is attached next to pin 1 and fetched for flushing. -/
theorem no_premature_reclaim_witness :
    count_ge_attached ledger_ex ∧ links_ok ledger_ex ∧
    ledger_run ledger_ex [.pin_drop 0, .pin_add_if_older 1 2 (some 7), .get_next_pin 8]
      ≠ .error .reclaim_list_not_empty :=
  ⟨ledger_ex_count_ge, ledger_ex_links,
    (no_premature_reclaim ledger_ex [.pin_drop 0, .pin_add_if_older 1 2 (some 7), .get_next_pin 8]
      ledger_ex_count_ge ledger_ex_links).1⟩

/-! ## C2: pin monotonicity -/

/-- C2 (pin monotonicity). Start from a ledger in which every pin list's count is at
least the number of pins attached to it and make any sequence of ledger calls that trips
no assertion (`bch2_journal_pin_add`, `bch2_journal_pin_drop`,
`bch2_journal_pin_add_if_older`; the next-pin fetch and fast reclaim are allowed too).
From the state `j` reached to the state `j'` after one more call, neither the reclaim
watermark (oldest seq of the window with a nonzero count) nor the front seq of the window
decreases; so they are also at least what they were at the start. -/
theorem pin_monotonicity (j0 : journal n) (ops : List (ledger_op n))
    (hc : count_ge_attached j0) (j : journal n) (hrun : ledger_run j0 ops = .ok j)
    (op : ledger_op n) (j' : journal n) (hstep : ledger_step j op = .ok j') :
    reclaim_watermark j ≤ reclaim_watermark j' ∧ j.pin.front ≤ j'.pin.front ∧
    reclaim_watermark j0 ≤ reclaim_watermark j ∧ j0.pin.front ≤ j.pin.front := by
  have a := ledger_run_facts ops j0 j hrun
  have b := ledger_step_facts j j' op hstep
  have hcj := count_ge_of_conserve _ _ hc a.conserve
  exact ⟨reclaim_watermark_mono j j' b.front_le b.back_eq (b.nonzero hcj), b.front_le,
    reclaim_watermark_mono j0 j a.front_le a.back_eq (a.nonzero hc), a.front_le⟩
theorem ledger_ex_reclaimed_zero : reclaimed_zero ledger_ex := by
  intro s hs
  have h5 : s ≠ 5 := by simp only [ledger_ex] at hs; omega
  have h8 : s ≠ 8 := by simp only [ledger_ex] at hs; omega
  simp [ledger_ex, ledger_ex_data, h5, h8]

/-- A returning drop of an active pin ends in the detached state, up to the front of the
window, which fast reclaim may have advanced to an entry with a nonzero count. -/
theorem pin_drop_ok (j j' : journal n) (p : Fin n) (s : Nat)
    (hp : (j.pins p).pin_list = some s) (h : __journal_pin_drop j p = .ok j') :
    j'.pins = (pin_drop_detached j p s).pins ∧
    j'.pin.data = (pin_drop_detached j p s).pin.data ∧
    j'.pin.back = j.pin.back ∧ j.pin.front ≤ j'.pin.front ∧
    (((j.pin.data s).count - 1 = 0 ∧ s = j.pin.front) →
      (j'.pin.data j'.pin.front).count ≠ 0 ∧ j.pin.front < j'.pin.front) ∧
    (¬ ((j.pin.data s).count - 1 = 0 ∧ s = j.pin.front) → j'.pin.front = j.pin.front) := by
  rw [pin_drop_active j p s hp] at h
  split at h
  · rename_i hcond
    obtain ⟨h1, h2, h3, _, h5, _, h7, _⟩ := reclaim_fast_ok _ _ h
    refine ⟨h1, h2, h3, h5, fun _ => ⟨h7, ?_⟩, fun hn => absurd hcond hn⟩
    rcases Nat.lt_or_ge j.pin.front j'.pin.front with hlt | hge
    · exact hlt
    · exfalso
      have hfe : j'.pin.front = j.pin.front := le_antisymm hge h5
      rw [hfe, h2, pin_drop_detached_count, ← hcond.2, if_pos rfl] at h7
      exact h7 hcond.1
  · rename_i hcond
    cases h
    exact ⟨rfl, rfl, rfl, le_refl _, fun hy => absurd hy hcond, fun _ => rfl⟩

/-- In a well-formed ledger a drop of an active pin returns, provided that some later
entry of the window has a nonzero count whenever the drop empties the front entry; the
front is then still inside the window. -/
theorem pin_drop_returns (j : journal n) (p : Fin n) (s : Nat)
    (hp : (j.pins p).pin_list = some s) (hc : count_ge_attached j) (hl : links_ok j)
    (hkeep : (j.pin.data s).count - 1 = 0 → s = j.pin.front →
      ∃ t, j.pin.front < t ∧ t < j.pin.back ∧ (j.pin.data t).count ≠ 0) :
    ∃ j', __journal_pin_drop j p = .ok j' ∧
      (((j.pin.data s).count - 1 = 0 ∧ s = j.pin.front) → j'.pin.front < j'.pin.back) := by
  rw [pin_drop_active j p s hp]
  by_cases hcond : (j.pin.data s).count - 1 = 0 ∧ s = j.pin.front
  · rw [if_pos hcond]
    obtain ⟨t, ht1, ht2, ht3⟩ := hkeep hcond.1 hcond.2
    have a := pin_drop_detached_facts j p s hp
    have hts : t ≠ s := by omega
    obtain ⟨r, hr, hr2⟩ := reclaim_fast_returns (pin_drop_detached j p s) t
      (list_empty_of_count_zero _ (count_ge_of_conserve _ _ hc a.conserve) (a.links hl))
      (by simp only [pin_drop_detached_front]; omega)
      (by simp only [pin_drop_detached_back]; exact ht2)
      (by simpa [hts] using ht3)
    refine ⟨r, hr, fun _ => ?_⟩
    have := (reclaim_fast_ok _ _ hr).2.2.1
    rw [this, pin_drop_detached_back]
    omega
  · rw [if_neg hcond]
    exact ⟨_, rfl, fun h => absurd h hcond⟩
/-! ## C3: oldest-wins re-pin -/

theorem pin_add_if_older_src_inactive (j : journal n) (src pin : Fin n) (f : Option Nat)
    (h : (j.pins src).pin_list = none) : bch2_journal_pin_add_if_older j src pin f = .ok j := by
  unfold bch2_journal_pin_add_if_older
  rw [h]

theorem pin_add_if_older_keep (j : journal n) (src pin : Fin n) (f : Option Nat) (a p : Nat)
    (hs : (j.pins src).pin_list = some a) (hp : (j.pins pin).pin_list = some p) (hle : p ≤ a) :
    bch2_journal_pin_add_if_older j src pin f = .ok j := by
  unfold bch2_journal_pin_add_if_older
  rw [hs]
  simp only [hp, journal_pin_seq, fifo_entry_idx_abs]
  rw [if_neg (by simp; omega)]

theorem pin_add_if_older_take (j : journal n) (src pin : Fin n) (f : Option Nat) (a : Nat)
    (hs : (j.pins src).pin_list = some a)
    (hp : (j.pins pin).pin_list = none ∨ ∃ p, (j.pins pin).pin_list = some p ∧ a < p) :
    bch2_journal_pin_add_if_older j src pin f =
      match __journal_pin_drop j pin with
      | .error b => .error b
      | .ok j1 => __journal_pin_add j1 a pin f := by
  unfold bch2_journal_pin_add_if_older
  rw [hs]
  rcases hp with hp | ⟨p, hp, hlt⟩
  · simp only [hp]
    rfl
  · simp only [hp, journal_pin_seq, fifo_entry_idx_abs]
    rw [if_pos (by simpa using hlt)]

/-- The seq of an attached pin lies at or after the front of the window. -/
theorem front_le_of_attached (j : journal n) (hc : count_ge_attached j) (hz : reclaimed_zero j)
    (p : Fin n) (a : Nat) (h : (j.pins p).pin_list = some a) : j.pin.front ≤ a := by
  by_contra hlt
  have h1 := hz a (by omega)
  have h2 := count_pos_of_attached j hc p a h
  omega

/-- Re-targeting `pin` onto the list of an attached `src_pin`: the call returns and the
pin is attached to `a`; all other pins are as before. -/
theorem pin_add_if_older_retarget (j : journal n) (src pin : Fin n) (f : Option Nat) (a : Nat)
    (hc : count_ge_attached j) (hz : reclaimed_zero j)
    (hs : (j.pins src).pin_list = some a)
    (hp : (j.pins pin).pin_list = none ∨ ∃ p, (j.pins pin).pin_list = some p ∧ a < p) :
    ∃ j', bch2_journal_pin_add_if_older j src pin f = .ok j' ∧
      j'.pins pin = { flush := f, pin_list := some a } ∧
      (∀ q, q ≠ pin → j'.pins q = j.pins q) ∧ j'.pin.front = j.pin.front ∧
      (∀ t, (j'.pin.data t).count = (j.pin.data t).count
        - (if (j.pins pin).pin_list = some t then 1 else 0) + (if t = a then 1 else 0)) := by
  rw [pin_add_if_older_take j src pin f a hs hp]
  have hca := count_pos_of_attached j hc src a hs
  rcases hp with hp | ⟨p, hp, hlt⟩
  · rw [pin_drop_inactive j pin hp]
    obtain ⟨j', hj'⟩ := pin_add_returns j a pin f hp (by omega)
    obtain ⟨_, _, e, he1, _, _, _, rfl⟩ := pin_add_ok j j' a pin f hj'
    refine ⟨_, hj', by simp, fun q hq => by simp [Function.update_noteq hq], rfl, ?_⟩
    intro t
    simp only [pin_fifo.set_data, hp]
    by_cases hta : t = a
    · subst hta; simp [he1]
    · simp [hta]
  · have hfront := front_le_of_attached j hc hz src a hs
    rw [pin_drop_active j pin p hp, if_neg (by omega)]
    have hcnt : ((pin_drop_detached j pin p).pin.data a).count ≠ 0 := by
      rw [pin_drop_detached_count, if_neg (by omega)]
      omega
    obtain ⟨j', hj'⟩ := pin_add_returns (pin_drop_detached j pin p) a pin f (by simp) hcnt
    obtain ⟨_, _, e, he1, _, _, _, rfl⟩ := pin_add_ok _ j' a pin f hj'
    refine ⟨_, hj', by simp, fun q hq => by simp [Function.update_noteq hq], rfl, ?_⟩
    intro t
    simp only [pin_fifo.set_data, hp]
    by_cases hta : t = a
    · subst hta
      have : ¬ (p = t) := by omega
      have : ¬ (t = p) := by omega
      simp [he1, *]
    · by_cases htp : t = p
      · subst htp; simp [hta]
      · have : ¬ (p = t) := fun e => htp e.symm
        simp [hta, htp, this]

/-- C3 (oldest-wins re-pin). In a well-formed ledger (counts at least the number of
attached pins, popped entries with a zero count): when `src_pin` is inactive,
`bch2_journal_pin_add_if_older` leaves the ledger unchanged; when `src_pin` is active at
seq `a`, the call returns and afterwards `pin` is active at seq `min a p`, where `p` is
the seq `pin` was attached to (`a` when it was inactive), and the ledger is unchanged
when `pin` was already active at a seq `p ≤ a`. In particular, with `P` inactive, `A`
active at `a` and `B` active at `b ≥ a` (such as 5 and 8), `add_if_older(A, P)` followed
by `add_if_older(B, P)` leaves `P` attached to `a`. -/
theorem oldest_wins_repin (j : journal n) (src_pin pin : Fin n) (flush_fn : Option Nat)
    (hc : count_ge_attached j) (hz : reclaimed_zero j) :
    ((j.pins src_pin).pin_list = none →
      bch2_journal_pin_add_if_older j src_pin pin flush_fn = .ok j) ∧
    (∀ a, (j.pins src_pin).pin_list = some a →
      ∃ j', bch2_journal_pin_add_if_older j src_pin pin flush_fn = .ok j' ∧
        journal_pin_active (j'.pins pin) = true ∧
        bch2_journal_pin_seq j' pin = min a ((j.pins pin).pin_list.getD a) ∧
        (∀ p, (j.pins pin).pin_list = some p → p ≤ a → j' = j)) ∧
    (∀ (other : Fin n) (g : Option Nat) (a b : Nat),
      (j.pins src_pin).pin_list = some a → (j.pins other).pin_list = some b →
      (j.pins pin).pin_list = none → a ≤ b →
      ∃ j1 j2, bch2_journal_pin_add_if_older j src_pin pin flush_fn = .ok j1 ∧
        bch2_journal_pin_add_if_older j1 other pin g = .ok j2 ∧
        bch2_journal_pin_seq j2 pin = a) := by
  refine ⟨pin_add_if_older_src_inactive j src_pin pin flush_fn, ?_, ?_⟩
  · intro a hs
    cases hp : (j.pins pin).pin_list with
    | none =>
      obtain ⟨j', h1, h2, _⟩ :=
        pin_add_if_older_retarget j src_pin pin flush_fn a hc hz hs (Or.inl hp)
      refine ⟨j', h1, by simp [journal_pin_active, h2], ?_, fun p hp2 => by cases hp2⟩
      simp [bch2_journal_pin_seq, h2, journal_pin_seq, fifo_entry_idx_abs]
    | some p =>
      by_cases hle : p ≤ a
      · refine ⟨j, pin_add_if_older_keep j src_pin pin flush_fn a p hs hp hle,
          by simp [journal_pin_active, hp], ?_, fun _ _ _ => rfl⟩
        simp [bch2_journal_pin_seq, hp, journal_pin_seq, fifo_entry_idx_abs, hle]
      · obtain ⟨j', h1, h2, _⟩ := pin_add_if_older_retarget j src_pin pin flush_fn a hc hz hs
          (Or.inr ⟨p, hp, by omega⟩)
        refine ⟨j', h1, by simp [journal_pin_active, h2], ?_, fun q hq hqa => ?_⟩
        · simp [bch2_journal_pin_seq, h2, journal_pin_seq, fifo_entry_idx_abs]
          omega
        · cases hq
          exact absurd hqa hle
  · intro other g a b hs ho hp hab
    obtain ⟨j1, h1, h2, h3, _⟩ :=
      pin_add_if_older_retarget j src_pin pin flush_fn a hc hz hs (Or.inl hp)
    have hne : other ≠ pin := by
      intro e
      rw [e, hp] at ho
      cases ho
    have ho1 : (j1.pins other).pin_list = some b := by rw [h3 other hne, ho]
    have hp1 : (j1.pins pin).pin_list = some a := by rw [h2]
    refine ⟨j1, j1, h1, pin_add_if_older_keep j1 other pin g b a ho1 hp1 hab, ?_⟩
    simp [bch2_journal_pin_seq, hp1, journal_pin_seq, fifo_entry_idx_abs]

/-- Witness for C3: on the example ledger `A` (pin 0) is at seq 5, `B` (pin 1) at seq 8
and `P` (pin 2) is inactive; re-pinning `P` from `A` and then from `B` leaves it at
seq 5. -/
theorem oldest_wins_repin_witness :
    count_ge_attached ledger_ex ∧ reclaimed_zero ledger_ex ∧
    ∃ j1 j2, bch2_journal_pin_add_if_older ledger_ex 0 2 (some 7) = .ok j1 ∧
      bch2_journal_pin_add_if_older j1 1 2 (some 7) = .ok j2 ∧
      bch2_journal_pin_seq j2 2 = 5 :=
  ⟨ledger_ex_count_ge, ledger_ex_reclaimed_zero,
    (oldest_wins_repin ledger_ex 0 2 (some 7) ledger_ex_count_ge ledger_ex_reclaimed_zero).2.2
      1 (some 7) 5 8 rfl rfl rfl (by decide)⟩
theorem reclaim_fast_stop (j : journal n) (h : (j.pin.data j.pin.front).count ≠ 0) :
    bch2_journal_reclaim_fast j = .ok j := by
  rw [reclaim_fast_unfold, if_pos (by simpa [fifo_peek_front] using h)]

theorem reclaim_fast_pop (j : journal n) (h1 : (j.pin.data j.pin.front).count = 0)
    (h2 : (j.pin.data j.pin.front).list = []) (h3 : j.pin.front < j.pin.back) :
    bch2_journal_reclaim_fast j =
      bch2_journal_reclaim_fast { j with pin := { j.pin with front := j.pin.front + 1 } } := by
  rw [reclaim_fast_unfold, if_neg (by simpa [fifo_peek_front] using h1),
    if_neg (by simpa [fifo_peek_front] using h2)]
  have : fifo_pop j.pin = some { j.pin with front := j.pin.front + 1 } := by
    unfold fifo_pop fifo_used
    rw [if_neg (by omega)]
  rw [this]

theorem reclaim_fast_empty (j : journal n) (h1 : (j.pin.data j.pin.front).count = 0)
    (h2 : (j.pin.data j.pin.front).list = []) (h3 : j.pin.back ≤ j.pin.front) :
    bch2_journal_reclaim_fast j = .error .reclaim_pop_failed := by
  rw [reclaim_fast_unfold, if_neg (by simpa [fifo_peek_front] using h1),
    if_neg (by simpa [fifo_peek_front] using h2)]
  have : fifo_pop j.pin = none := by
    unfold fifo_pop fifo_used
    rw [if_pos (by omega)]
  rw [this]

/-- Dropping pin 0 of the example ledger empties the front entry; fast reclaim pops the
seqs 5, 6 and 7 and stops at seq 8. -/
theorem ledger_ex_drop_front :
    bch2_journal_pin_drop ledger_ex 0 =
      .ok { pin := { (pin_drop_detached ledger_ex 0 5).pin with front := 8 }
            pins := (pin_drop_detached ledger_ex 0 5).pins } := by
  unfold bch2_journal_pin_drop
  rw [pin_drop_active ledger_ex 0 5 rfl, if_pos (by decide)]
  rw [reclaim_fast_pop _ (by decide) (by decide) (by decide)]
  rw [reclaim_fast_pop _ (by decide) (by decide) (by decide)]
  rw [reclaim_fast_pop _ (by decide) (by decide) (by decide)]
  rw [reclaim_fast_stop _ (by decide)]
  rfl

/-- Dropping the only pin of the single-entry ledger empties the window: fast reclaim
pops seq 5 and then trips the assertion on `fifo_pop`. -/
theorem ledger_single_drop :
    bch2_journal_pin_drop ledger_single 0 = .error .reclaim_pop_failed := by
  unfold bch2_journal_pin_drop
  rw [pin_drop_active ledger_single 0 5 rfl, if_pos (by decide)]
  rw [reclaim_fast_pop _ (by decide) (by decide) (by decide)]
  rw [reclaim_fast_empty _ (by decide) (by decide) (by decide)]
theorem ledger_ex_run_drop : ledger_run ledger_ex [.pin_drop 0] = .ok ledger_ex_dropped := by
  simp only [ledger_run, ledger_step, ledger_ex_drop_front]
  rfl

/-- Witness for C2: on the example ledger the drop of pin 0 moves the watermark from
seq 5 to seq 8; attaching pin 2 at seq 8 afterwards does not move it back. -/
theorem pin_monotonicity_witness :
    count_ge_attached ledger_ex ∧
    ∃ j j', ledger_run ledger_ex [.pin_drop 0] = .ok j ∧
      ledger_step j (.pin_add 8 2 none) = .ok j' ∧
      reclaim_watermark j ≤ reclaim_watermark j' ∧ j.pin.front ≤ j'.pin.front ∧
      reclaim_watermark ledger_ex ≤ reclaim_watermark j ∧ ledger_ex.pin.front ≤ j.pin.front :=
  ⟨ledger_ex_count_ge, ledger_ex_dropped, _, ledger_ex_run_drop, rfl,
    pin_monotonicity ledger_ex [.pin_drop 0] ledger_ex_count_ge ledger_ex_dropped
      ledger_ex_run_drop (.pin_add 8 2 none) _ rfl⟩

/-! ## C7: idempotent drop -/

/-- C7 (idempotent drop). `bch2_journal_pin_drop` applied to an inactive pin returns the
ledger unchanged (window, pin lists and pins); and dropping a pin twice gives the same
outcome as dropping it once. -/
theorem idempotent_drop (j : journal n) (pin : Fin n) :
    (journal_pin_active (j.pins pin) = false → bch2_journal_pin_drop j pin = .ok j) ∧
    (match bch2_journal_pin_drop j pin with
      | .error b => .error b
      | .ok j1 => bch2_journal_pin_drop j1 pin) = bch2_journal_pin_drop j pin := by
  constructor
  · intro h
    exact pin_drop_inactive j pin (by simpa [journal_pin_active] using h)
  · cases hd : bch2_journal_pin_drop j pin with
    | error b => rfl
    | ok j1 =>
      show bch2_journal_pin_drop j1 pin = .ok j1
      cases hp : (j.pins pin).pin_list with
      | none =>
        have := pin_drop_inactive j pin hp
        unfold bch2_journal_pin_drop at hd
        rw [this] at hd
        cases hd
        exact pin_drop_inactive j pin hp
      | some s =>
        have h1 := (pin_drop_ok j j1 pin s hp hd).1
        exact pin_drop_inactive j1 pin (by rw [h1]; simp)

/-! ## C8: attaching a pin -/

/-- C8. In a ledger whose active memberships only hold attached pins, for a seq inside the
window whose pin list has a nonzero count and an inactive pin,
`bch2_journal_pin_add(seq, pin, flush_fn)` returns; afterwards the pin is active,
`bch2_journal_pin_seq(pin)` is `seq`, the count of `seq` is one higher, every other count
is unchanged, and the pin is on the active membership of `seq` if and only if `flush_fn`
is non-null. -/
theorem pin_add_spec (j : journal n) (seq : Nat) (pin : Fin n) (flush_fn : Option Nat)
    (hl : links_ok j) (_hwin : j.pin.front ≤ seq ∧ seq < j.pin.back)
    (hcount : (j.pin.data seq).count ≠ 0)
    (hinactive : journal_pin_active (j.pins pin) = false) :
    ∃ j', bch2_journal_pin_add j seq pin flush_fn = .ok j' ∧
      journal_pin_active (j'.pins pin) = true ∧
      bch2_journal_pin_seq j' pin = seq ∧
      (j'.pin.data seq).count = (j.pin.data seq).count + 1 ∧
      (∀ s, s ≠ seq → (j'.pin.data s).count = (j.pin.data s).count) ∧
      (pin ∈ (j'.pin.data seq).list ↔ flush_fn ≠ none) := by
  have hp : (j.pins pin).pin_list = none := by simpa [journal_pin_active] using hinactive
  obtain ⟨j', hj'⟩ := pin_add_returns j seq pin flush_fn hp hcount
  obtain ⟨_, _, e, he1, he2, _, _, rfl⟩ := pin_add_ok j j' seq pin flush_fn hj'
  refine ⟨_, hj', by simp [journal_pin_active], ?_, by simp [he1], ?_, ?_⟩
  · simp [bch2_journal_pin_seq, journal_pin_seq, fifo_entry_idx_abs]
  · intro s hs
    simp [hs]
  · have hnot : pin ∉ (j.pin.data seq).list := by
      intro hmem
      have := hl seq pin hmem
      rw [hp] at this
      cases this
    cases flush_fn with
    | none => simpa [he2] using hnot
    | some g => simp [he2]

/-- Witness for C8: attaching the inactive pin 2 of the example ledger at seq 8, without
a flush callback. -/
theorem pin_add_spec_witness :
    links_ok ledger_ex ∧ (ledger_ex.pin.front ≤ 8 ∧ 8 < ledger_ex.pin.back) ∧
    (ledger_ex.pin.data 8).count ≠ 0 ∧ journal_pin_active (ledger_ex.pins 2) = false ∧
    ∃ j', bch2_journal_pin_add ledger_ex 8 2 none = .ok j' ∧
      journal_pin_active (j'.pins 2) = true ∧
      bch2_journal_pin_seq j' 2 = 8 ∧
      (j'.pin.data 8).count = (ledger_ex.pin.data 8).count + 1 ∧
      (∀ s, s ≠ 8 → (j'.pin.data s).count = (ledger_ex.pin.data s).count) ∧
      (2 ∈ (j'.pin.data 8).list ↔ (none : Option Nat) ≠ none) :=
  ⟨ledger_ex_links, by decide, by decide, by decide,
    pin_add_spec ledger_ex 8 2 none ledger_ex_links (by decide) (by decide) (by decide)⟩
/-! ## C9: dropping an active pin -/

theorem ledger_single_count_ge : count_ge_attached ledger_single := by
  intro s
  unfold nr_attached
  rw [Finset.card_filter]
  simp only [Fin.sum_univ_one, ledger_single]
  by_cases h5 : s = 5
  · subst h5; decide
  · have a : ¬ (5 = s) := fun e => h5 e.symm
    simp [h5, a]

theorem ledger_single_links : links_ok ledger_single := by
  intro s p hp
  simp only [ledger_single] at hp
  by_cases h5 : s = 5
  · subst h5; rfl
  · simp [h5] at hp

/-- The assertion behind the condition under which a drop returns: in the single-entry
ledger the pin holds the only reference of the whole window (the journal's own reference
on the newest entry is missing); dropping it pops the only entry and fast reclaim then
stops on its assertion on `fifo_pop`. -/
theorem pin_drop_last_reference :
    (ledger_single.pins 0).pin_list = some 5 ∧
    count_ge_attached ledger_single ∧ links_ok ledger_single ∧
    bch2_journal_pin_drop ledger_single 0 = .error .reclaim_pop_failed ∧
    ¬ ∃ j', bch2_journal_pin_drop ledger_single 0 = .ok j' := by
  refine ⟨rfl, ledger_single_count_ge, ledger_single_links, ledger_single_drop, ?_⟩
  rintro ⟨j', hj'⟩
  rw [ledger_single_drop] at hj'
  cases hj'

/-- C9 (dropping an active pin). Let `pin` be active at seq `s`. Whenever
`bch2_journal_pin_drop` returns, the pin is inactive, `bch2_journal_pin_seq` gives 0, the
pin is on no active or flushed membership while the other members are kept, the count of
`s` is one lower and every other count is unchanged; and if that count became zero while
`s` was the front of the window, fast reclaim has run: the front has advanced and the
front entry has a nonzero count (otherwise the front has not moved). Moreover the drop
does return in a well-formed ledger (counts at least the number of attached pins, active
memberships holding attached pins only) in which some later entry of the window has a
nonzero count whenever the drop empties the front entry, as the journal's own reference
on the newest entry ensures; the front is then still inside the window. -/
theorem pin_drop_spec (j : journal n) (pin : Fin n) (s : Nat)
    (hactive : (j.pins pin).pin_list = some s) :
    (∀ j', bch2_journal_pin_drop j pin = .ok j' →
      journal_pin_active (j'.pins pin) = false ∧
      bch2_journal_pin_seq j' pin = 0 ∧
      (∀ t, pin ∉ (j'.pin.data t).list ∧ pin ∉ (j'.pin.data t).flushed) ∧
      (∀ t q, q ≠ pin → (q ∈ (j'.pin.data t).list ↔ q ∈ (j.pin.data t).list) ∧
        (q ∈ (j'.pin.data t).flushed ↔ q ∈ (j.pin.data t).flushed)) ∧
      (j'.pin.data s).count = (j.pin.data s).count - 1 ∧
      (∀ t, t ≠ s → (j'.pin.data t).count = (j.pin.data t).count) ∧
      (((j.pin.data s).count - 1 = 0 ∧ s = j.pin.front) →
        j.pin.front < j'.pin.front ∧ (fifo_peek_front j'.pin).count ≠ 0) ∧
      (¬ ((j.pin.data s).count - 1 = 0 ∧ s = j.pin.front) → j'.pin.front = j.pin.front)) ∧
    (count_ge_attached j → links_ok j →
      ((j.pin.data s).count - 1 = 0 → s = j.pin.front →
        ∃ t, j.pin.front < t ∧ t < j.pin.back ∧ (j.pin.data t).count ≠ 0) →
      ∃ j', bch2_journal_pin_drop j pin = .ok j' ∧
        (((j.pin.data s).count - 1 = 0 ∧ s = j.pin.front) → j'.pin.front < j'.pin.back)) := by
  refine ⟨fun j' hj' => ?_, fun hc hl hkeep => pin_drop_returns j pin s hactive hc hl hkeep⟩
  obtain ⟨h1, h2, _, _, h5, h6⟩ := pin_drop_ok j j' pin s hactive hj'
  have hpl : (j'.pins pin).pin_list = none := by rw [h1]; simp
  refine ⟨by simp [journal_pin_active, hpl], by simp [bch2_journal_pin_seq, hpl],
    ?_, ?_, ?_, ?_, ?_, h6⟩
  · intro t
    rw [h2]
    simp [List.mem_filter]
  · intro t q hq
    rw [h2]
    simp [List.mem_filter, hq]
  · rw [h2]; simp
  · intro t ht
    rw [h2]; simp [ht]
  · intro hcond
    exact ⟨(h5 hcond).2, (h5 hcond).1⟩

/-- Witness for C9: dropping pin 0 of the example ledger empties the front entry
(seq 5), and seq 8 still has a nonzero count. -/
theorem pin_drop_spec_witness :
    count_ge_attached ledger_ex ∧ links_ok ledger_ex ∧
    (ledger_ex.pins 0).pin_list = some 5 ∧
    ∃ j', bch2_journal_pin_drop ledger_ex 0 = .ok j' ∧
      journal_pin_active (j'.pins 0) = false ∧ bch2_journal_pin_seq j' 0 = 0 ∧
      (j'.pin.data 5).count = (ledger_ex.pin.data 5).count - 1 := by
  have h := pin_drop_spec ledger_ex 0 5 rfl
  obtain ⟨j', hj', _⟩ := h.2 ledger_ex_count_ge ledger_ex_links
    (fun _ _ => ⟨8, by decide, by decide, by decide⟩)
  obtain ⟨h2, h3, _, _, h6, _⟩ := h.1 j' hj'
  exact ⟨ledger_ex_count_ge, ledger_ex_links, rfl, j', hj', h2, h3, h6⟩

/-! ## C10: reference-count conservation -/

theorem pin_add_if_older_ok_counts (j j' : journal n) (src pin : Fin n) (f : Option Nat)
    (a p : Nat) (h : bch2_journal_pin_add_if_older j src pin f = .ok j')
    (hs : (j.pins src).pin_list = some a) (hp : (j.pins pin).pin_list = some p) (hlt : a < p) :
    ∀ t, (j'.pin.data t).count =
      (j.pin.data t).count - (if t = p then 1 else 0) + (if t = a then 1 else 0) := by
  rw [pin_add_if_older_take j src pin f a hs (Or.inr ⟨p, hp, hlt⟩)] at h
  split at h
  · cases h
  · rename_i j1 hd
    obtain ⟨_, h2, _⟩ := pin_drop_ok j j1 pin p hp hd
    obtain ⟨_, _, e, he1, _, _, _, rfl⟩ := pin_add_ok j1 j' a pin f h
    intro t
    simp only [pin_fifo.set_data]
    by_cases hta : t = a
    · subst hta
      rw [if_pos rfl, he1, h2, pin_drop_detached_count]
      simp
    · rw [if_neg hta, h2, pin_drop_detached_count]
      simp [hta]

/-- C10 (reference-count conservation). For each pin list `L`, the count of `L` minus the
number of pins whose back-reference is `L` is the same before and after any returning
call of `bch2_journal_pin_add`, `bch2_journal_pin_drop`, `bch2_journal_pin_add_if_older`
and the next-pin fetch (and of fast reclaim). An attach adds exactly one to the count of
its seq, a drop of an active pin subtracts exactly one from the count of its list, a
re-pin moves one unit from the old list's count to the new one's, and the next-pin fetch
changes no count and no back-reference. -/
theorem refcount_conservation (j j' : journal n) (op : ledger_op n)
    (h : ledger_step j op = .ok j') :
    (∀ L, (j'.pin.data L).count - (nr_attached j' L : Int) =
      (j.pin.data L).count - (nr_attached j L : Int)) ∧
    (∀ seq pin f, op = .pin_add seq pin f →
      ∀ t, (j'.pin.data t).count = (j.pin.data t).count + (if t = seq then 1 else 0)) ∧
    (∀ pin s, op = .pin_drop pin → (j.pins pin).pin_list = some s →
      ∀ t, (j'.pin.data t).count = (j.pin.data t).count - (if t = s then 1 else 0)) ∧
    (∀ src pin f a p, op = .pin_add_if_older src pin f →
      (j.pins src).pin_list = some a → (j.pins pin).pin_list = some p → a < p →
      ∀ t, (j'.pin.data t).count =
        (j.pin.data t).count - (if t = p then 1 else 0) + (if t = a then 1 else 0)) ∧
    (∀ seq_to_flush, op = .get_next_pin seq_to_flush →
      j'.pins = j.pins ∧ ∀ t, (j'.pin.data t).count = (j.pin.data t).count) := by
  refine ⟨(ledger_step_facts j j' op h).conserve, ?_, ?_, ?_, ?_⟩
  · rintro seq pin f rfl t
    obtain ⟨_, _, e, he1, _, _, _, rfl⟩ := pin_add_ok j j' seq pin f h
    simp only [pin_fifo.set_data]
    by_cases hts : t = seq
    · subst hts; simp [he1]
    · simp [hts]
  · rintro pin s rfl hp t
    obtain ⟨_, h2, _⟩ := pin_drop_ok j j' pin s hp h
    rw [h2, pin_drop_detached_count]
  · rintro src pin f a p rfl hs hp hlt
    exact pin_add_if_older_ok_counts j j' src pin f a p h hs hp hlt
  · rintro stf rfl
    simp only [ledger_step] at h
    split at h
    · cases h
    · rename_i r hr
      cases h
      unfold __journal_get_next_pin at hr
      split at hr
      · cases hr
      · rename_i j1 hj1
        cases hr
        obtain ⟨h1, h2, _⟩ := reclaim_fast_ok j j1 hj1
        rcases get_next_pin_scan_cases j1 stf (List.range' j1.pin.front (fifo_used j1.pin))
          with hsc | ⟨ret, iter, rest, _, _, _, hsc⟩
        · rw [hsc]
          exact ⟨h1, fun t => by rw [h2]⟩
        · rw [hsc]
          exact ⟨h1, fun t => by rw [list_move_flushed_count, h2]⟩

/-- Witness for C10: on the example ledger, re-pinning pin 1 (at seq 8) from pin 0 (at
seq 5) moves one unit of count from seq 8 to seq 5. -/
theorem refcount_conservation_witness :
    ∃ j', ledger_step ledger_ex (.pin_add_if_older 0 1 (some 1)) = .ok j' ∧
      (∀ L, (j'.pin.data L).count - (nr_attached j' L : Int) =
        (ledger_ex.pin.data L).count - (nr_attached ledger_ex L : Int)) ∧
      (j'.pin.data 8).count = 1 ∧ (j'.pin.data 5).count = 2 := by
  have h : ledger_step ledger_ex (.pin_add_if_older 0 1 (some 1)) = .ok _ := rfl
  have c := refcount_conservation ledger_ex _ (.pin_add_if_older 0 1 (some 1)) h
  refine ⟨_, h, c.1, ?_, ?_⟩
  · rw [c.2.2.2.1 0 1 (some 1) 5 8 rfl rfl rfl (by decide) 8]; decide
  · rw [c.2.2.2.1 0 1 (some 1) 5 8 rfl rfl rfl (by decide) 5]; decide
/-! ## Lemmas: the commit path -/

theorem capacity_walk_first_failure (env : commit_env) (trans : btree_trans) (k idx fail : Nat)
    (h1 : idx ≤ fail) (h2 : fail < idx + k)
    (hpass : ∀ i, idx ≤ i → i < fail → can_insert_at env trans i = 0)
    (hfail : can_insert_at env trans fail ≠ 0) :
    capacity_walk env trans k idx (capacity_state env trans idx).1
        (capacity_state env trans idx).2 =
      .error (can_insert_at env trans fail, trans.updates_sorted.getD fail 0) := by
  induction k generalizing idx with
  | zero => omega
  | succ k ih =>
    unfold capacity_walk
    by_cases he : fail = idx
    · subst he
      simp only [can_insert_at] at hfail
      simp only [can_insert_at]
      rw [if_pos hfail]
    · have hp := hpass idx (le_refl _) (by omega)
      simp only [can_insert_at] at hp
      simp only
      rw [if_neg (by simpa using hp)]
      exact ih (idx + 1) (by omega) (by omega) (fun i hi1 hi2 => hpass i (by omega) hi2)

theorem write_locked_trans (env : commit_env) (trans : btree_trans) :
    (bch2_trans_commit_write_locked env trans).trans = trans := by
  unfold bch2_trans_commit_write_locked
  split
  · rfl
  · split
    · rfl
    · simp only
      split
      · rfl
      · split <;> rfl

theorem write_locks_append (a b : List commit_event) :
    write_locks (a ++ b) = write_locks a ++ write_locks b := by
  simp [write_locks, List.filterMap_append]

theorem write_unlocks_append (a b : List commit_event) :
    write_unlocks (a ++ b) = write_unlocks a ++ write_unlocks b := by
  simp [write_unlocks, List.filterMap_append]

theorem write_locks_eq_nil (evs : List commit_event)
    (h : ∀ e ∈ evs, ∀ b, e ≠ .lock_write b) : write_locks evs = [] := by
  induction evs with
  | nil => rfl
  | cons e evs ih =>
    have he := h e (List.mem_cons_self _ _)
    have := ih (fun e' he' => h e' (List.mem_cons_of_mem _ he'))
    cases e <;> simp_all [write_locks]

theorem write_unlocks_eq_nil (evs : List commit_event)
    (h : ∀ e ∈ evs, ∀ b, e ≠ .unlock_write b) : write_unlocks evs = [] := by
  induction evs with
  | nil => rfl
  | cons e evs ih =>
    have he := h e (List.mem_cons_self _ _)
    have := ih (fun e' he' => h e' (List.mem_cons_of_mem _ he'))
    cases e <;> simp_all [write_unlocks]

/-- The calls `bch2_trans_commit_write_locked` makes: no node lock, no node unlock, no
release of the journal reservation. -/
theorem write_locked_events (env : commit_env) (trans : btree_trans) :
    ∀ e ∈ (bch2_trans_commit_write_locked env trans).events,
      (∀ b, e ≠ .lock_write b) ∧ (∀ b, e ≠ .unlock_write b) ∧ e ≠ .journal_res_put := by
  intro e he
  unfold bch2_trans_commit_write_locked at he
  split at he
  · simp at he
  · split at he
    · simp at he
    · simp only at he
      have hres : ∀ fl, (bch2_trans_journal_res_get env trans fl).2 =
          .journal_res_get trans.journal_u64s
            (if has_flag trans.flags BTREE_INSERT_JOURNAL_RESERVED then
              { fl with reserved := true } else fl) := fun fl => rfl
      split at he
      · simp only [List.mem_append] at he
        rcases he with (he | he) | he
        · split at he
          · simp at he
            rcases he with rfl | rfl <;> simp
          · simp at he
        · split at he
          all_goals simp at he
          subst he; rw [hres]; simp
        · split at he
          · simp at he
            rcases he with rfl | rfl <;> simp
          · simp at he
      · split at he
        · simp only [List.mem_append] at he
          rcases he with ((he | he) | he) | he
          · split at he
            · simp at he
              rcases he with rfl | rfl <;> simp
            · simp at he
          · split at he
            all_goals simp at he
            subst he; rw [hres]; simp
          · simp at he; subst he; simp
          · split at he
            · simp at he
              rcases he with rfl | rfl <;> simp
            · simp at he
        · simp only [List.mem_append] at he
          rcases he with ((((((he | he) | he) | he) | he) | he) | he) | he
          · split at he
            · simp at he
              rcases he with rfl | rfl <;> simp
            · simp at he
          · split at he
            all_goals simp at he
            subst he; rw [hres]; simp
          · split at he
            all_goals simp at he
            subst he; simp
          · simp only [List.mem_filterMap] at he
            obtain ⟨i, _, hi⟩ := he
            split at hi <;> simp at hi
            subst hi; simp
          · split at he
            all_goals simp at he
            subst he; simp
          · split at he
            · unfold bch2_trans_mark_gc at he
              split at he
              · simp at he
              · simp only [List.mem_filterMap] at he
                obtain ⟨i, _, hi⟩ := he
                split at hi <;> simp at hi
                subst hi; simp
            · simp at he
          · simp only [List.mem_map] at he
            obtain ⟨i, _, hi⟩ := he
            subst hi; simp
          · split at he
            · simp at he
              rcases he with rfl | rfl <;> simp
            · simp at he
/-! ## C4: the capacity check precedes mutation -/

/-- C4 (capacity check precedes mutation). Let `idx` be the first position of the sorted
walk of `bch2_trans_commit_write_locked` at which `btree_key_can_insert` fails (the
walk takes place: no injected fault). Then the function returns that failure code with
`*stopped_at` set to the failing update and the transaction as it was, having made no
call at all: it has not asked for the journal reservation, not taken the mark lock, not
run a marking hook and not applied any update to any node. -/
theorem capacity_check_precedes_mutation (env : commit_env) (trans : btree_trans) (idx : Nat)
    (hrace : env.race_fault = false) (hidx : idx < trans.updates.length)
    (hpass : ∀ i, i < idx → can_insert_at env trans i = 0)
    (hfail : can_insert_at env trans idx ≠ 0) :
    (bch2_trans_commit_write_locked env trans).ret = can_insert_at env trans idx ∧
    (bch2_trans_commit_write_locked env trans).stopped_at
      = some (trans.updates_sorted.getD idx 0) ∧
    (bch2_trans_commit_write_locked env trans).events = [] ∧
    (bch2_trans_commit_write_locked env trans).trans = trans ∧
    (∀ e ∈ (bch2_trans_commit_write_locked env trans).events,
      (∀ u f, e ≠ .journal_res_get u f) ∧ e ≠ .mark_lock_down ∧
      (∀ i, e ≠ .mark_update i ∧ e ≠ .mark_update_gc i ∧ e ≠ .insert_one i)) := by
  have hw := capacity_walk_first_failure env trans trans.updates.length 0 idx (Nat.zero_le _)
    (by omega) (fun i _ hi => hpass i hi) hfail
  have hs : capacity_state env trans 0 = (0, false) := rfl
  rw [hs] at hw
  have hev : (bch2_trans_commit_write_locked env trans).events = [] := by
    unfold bch2_trans_commit_write_locked
    rw [hrace]
    simp only [Bool.false_eq_true, if_false, hw]
  refine ⟨?_, ?_, hev, write_locked_trans env trans, ?_⟩
  · unfold bch2_trans_commit_write_locked
    rw [hrace]
    simp only [Bool.false_eq_true, if_false, hw]
  · unfold bch2_trans_commit_write_locked
    rw [hrace]
    simp only [Bool.false_eq_true, if_false, hw]
  · intro e he
    rw [hev] at he
    cases he

/-- Witness for C4: in the example transaction, sorted, the third position is the update
to leaf 11, which does not fit; the first two positions (leaf 10) pass. -/
theorem capacity_check_precedes_mutation_witness :
    env_ex.race_fault = false ∧
    2 < (btree_trans_sort_updates env_ex trans_ex).updates.length ∧
    (∀ i, i < 2 → can_insert_at env_ex (btree_trans_sort_updates env_ex trans_ex) i = 0) ∧
    can_insert_at env_ex (btree_trans_sort_updates env_ex trans_ex) 2 ≠ 0 ∧
    (bch2_trans_commit_write_locked env_ex (btree_trans_sort_updates env_ex trans_ex)).ret
      = BTREE_INSERT_BTREE_NODE_FULL ∧
    (bch2_trans_commit_write_locked env_ex (btree_trans_sort_updates env_ex trans_ex)).stopped_at
      = some 1 ∧
    (bch2_trans_commit_write_locked env_ex (btree_trans_sort_updates env_ex trans_ex)).events
      = [] := by
  have hp : ∀ i, i < 2 → can_insert_at env_ex (btree_trans_sort_updates env_ex trans_ex) i = 0 := by
    intro i hi
    interval_cases i <;> decide
  have h := capacity_check_precedes_mutation env_ex (btree_trans_sort_updates env_ex trans_ex) 2
    rfl (by decide) hp (by decide)
  exact ⟨rfl, by decide, hp, by decide, h.1.trans (by decide), h.2.1.trans (by decide), h.2.2.1⟩

/-! ## C5: one write lock per leaf -/

theorem group_starts_mem (g : Nat → Nat) (n k : Nat) (hk : k < n) :
    g k ∈ ((List.range n).filter (fun idx => !(idx != 0 && g idx == g (idx - 1)))).map g := by
  induction k with
  | zero =>
    exact List.mem_map.mpr ⟨0, List.mem_filter.mpr ⟨List.mem_range.mpr hk, by simp⟩, rfl⟩
  | succ k ih =>
    by_cases he : g (k + 1) = g k
    · rw [he]; exact ih (by omega)
    · exact List.mem_map.mpr ⟨k + 1, List.mem_filter.mpr ⟨List.mem_range.mpr hk, by simp [he]⟩, rfl⟩

theorem group_starts_nodup (g : Nat → Nat) (n : Nat)
    (hadj : ∀ a b c, a ≤ b → b ≤ c → c < n → g a = g c → g b = g a) :
    (((List.range n).filter (fun idx => !(idx != 0 && g idx == g (idx - 1)))).map g).Nodup := by
  apply List.Nodup.map_on _ ((List.nodup_range n).filter _)
  have key : ∀ x y, x < y → y < n →
      (!(y != 0 && g y == g (y - 1))) = true → g x = g y → False := by
    intro x y hxy hy hP hg
    have h1 := hadj x (y - 1) y (by omega) (by omega) hy hg
    have : g y = g (y - 1) := by rw [h1, hg]
    have hy0 : y ≠ 0 := by omega
    simp [hy0, this] at hP
  intro x hx y hy hg
  rw [List.mem_filter, List.mem_range] at hx hy
  rcases Nat.lt_trichotomy x y with h | h | h
  · exact absurd hg (fun e => key x y h hy.1 hy.2 e)
  · exact h
  · exact absurd hg.symm (fun e => key y x h hx.1 hx.2 e)

theorem sort_updates_insert_perm (env : commit_env) (trans : btree_trans) (sorted : List Nat)
    (l : Nat) : (sort_updates_insert env trans sorted l).Perm (l :: sorted) := by
  unfold sort_updates_insert
  simp only
  refine List.perm_middle.trans ?_
  rw [List.takeWhile_append_dropWhile]

theorem sort_updates_foldl_perm (env : commit_env) (trans : btree_trans) (ls init : List Nat) :
    (ls.foldl (sort_updates_insert env trans) init).Perm (ls ++ init) := by
  induction ls generalizing init with
  | nil => exact List.Perm.refl _
  | cons a ls ih =>
    simp only [List.foldl_cons]
    refine (ih _).trans ?_
    refine (List.Perm.append_left ls (sort_updates_insert_perm env trans init a)).trans ?_
    simp only [List.cons_append]
    exact List.perm_middle

/-- Embedding of `btree_trans_sort_updates` leaves in `updates_sorted` a permutation of the indices of
the pending updates. -/
theorem sort_updates_perm (env : commit_env) (trans : btree_trans) :
    (btree_trans_sort_updates env trans).updates_sorted.Perm (List.range trans.updates.length) := by
  have := sort_updates_foldl_perm env trans (List.range trans.updates.length) []
  simpa [btree_trans_sort_updates] using this

/-- After the sort, the leaves met along the sorted walk are the leaves of the pending
updates. -/
theorem sorted_leaf_mem_iff (env : commit_env) (trans : btree_trans) (b : Nat) :
    b ∈ target_leaves trans ↔
      ∃ idx, idx < trans.updates.length ∧
        sorted_leaf (btree_trans_sort_updates env trans) idx = b := by
  have hperm := sort_updates_perm env trans
  have hlen : (btree_trans_sort_updates env trans).updates_sorted.length = trans.updates.length := by
    rw [hperm.length_eq, List.length_range]
  constructor
  · intro hb
    obtain ⟨u, hu, rfl⟩ := List.mem_map.mp hb
    obtain ⟨i, hi, rfl⟩ := List.getElem_of_mem hu
    have hmem : i ∈ (btree_trans_sort_updates env trans).updates_sorted :=
      hperm.mem_iff.mpr (List.mem_range.mpr hi)
    obtain ⟨idx, hidx, hget⟩ := List.getElem_of_mem hmem
    refine ⟨idx, by omega, ?_⟩
    simp only [sorted_leaf, sorted_update]
    rw [List.getD_eq_getElem _ _ hidx, hget]
    show (trans.iters (trans.updates.getD i default).iter).leaf = _
    rw [List.getD_eq_getElem _ _ hi]
  · rintro ⟨idx, hidx, rfl⟩
    have hidx2 : idx < (btree_trans_sort_updates env trans).updates_sorted.length := by omega
    have hmem : (btree_trans_sort_updates env trans).updates_sorted[idx] ∈ List.range trans.updates.length :=
      hperm.mem_iff.mp (List.getElem_mem _)
    rw [List.mem_range] at hmem
    simp only [sorted_leaf, sorted_update]
    rw [List.getD_eq_getElem _ _ hidx2]
    show (trans.iters (trans.updates.getD _ default).iter).leaf ∈ _
    rw [List.getD_eq_getElem _ _ hmem]
    exact List.mem_map.mpr ⟨_, List.getElem_mem _, rfl⟩
theorem write_locks_map_lock (l : List Nat) (g : Nat → Nat) :
    write_locks (l.map (fun idx => commit_event.lock_write (g idx))) = l.map g := by
  induction l with
  | nil => rfl
  | cons a l ih =>
    simp only [List.map_cons, write_locks, List.filterMap_cons] at ih ⊢
    rw [ih]

theorem write_unlocks_map_unlock (l : List Nat) (g : Nat → Nat) :
    write_unlocks (l.map (fun idx => commit_event.unlock_write (g idx))) = l.map g := by
  induction l with
  | nil => rfl
  | cons a l ih =>
    simp only [List.map_cons, write_unlocks, List.filterMap_cons] at ih ⊢
    rw [ih]

/-- The calls of the second half of `do_bch2_trans_commit`, in order: read unlocks, one
write lock per leaf group, the calls of `bch2_trans_commit_write_locked`, one write
unlock per leaf group, the release of the journal reservation, and what follows a
success. -/
theorem commit_locked_events (env : commit_env) (trans : btree_trans) :
    ∃ ev_read ev_after : List commit_event,
      (do_bch2_trans_commit_locked env trans).events =
        ev_read ++
        (leaf_group_starts (btree_trans_sort_updates env trans)).map
          (fun idx => .lock_write (sorted_leaf (btree_trans_sort_updates env trans) idx)) ++
        (bch2_trans_commit_write_locked env (btree_trans_sort_updates env trans)).events ++
        (leaf_group_starts (btree_trans_sort_updates env trans)).map
          (fun idx => .unlock_write (sorted_leaf (btree_trans_sort_updates env trans) idx)) ++
        [.journal_res_put] ++ ev_after ∧
      (∀ e ∈ ev_read, (∀ b, e ≠ .lock_write b) ∧ (∀ b, e ≠ .unlock_write b) ∧
        e ≠ .journal_res_put) ∧
      (∀ e ∈ ev_after, (∀ b, e ≠ .lock_write b) ∧ (∀ b, e ≠ .unlock_write b) ∧
        e ≠ .journal_res_put) := by
  unfold do_bch2_trans_commit_locked
  simp only [write_locked_trans]
  have hread : ∀ e ∈ env.all_iters.filterMap (fun it =>
      if (trans.iters it).nodes_locked ≠ (trans.iters it).nodes_intent_locked then
        some (commit_event.iter_unlock it) else none),
      (∀ b, e ≠ .lock_write b) ∧ (∀ b, e ≠ .unlock_write b) ∧ e ≠ .journal_res_put := by
    intro e he
    simp only [List.mem_filterMap] at he
    obtain ⟨i, _, hi⟩ := he
    split at hi <;> simp at hi
    subst hi; simp
  split
  · exact ⟨_, [], by simp, hread, by simp⟩
  · refine ⟨_, _, by simp only [List.append_assoc]; rfl, hread, ?_⟩
    intro e he
    simp only [List.mem_append, List.mem_map] at he
    rcases he with ⟨i, _, rfl⟩ | ⟨u, _, rfl⟩ <;> simp

/-- C5 (at most one lock per node). Take a commit attempt that reaches the locking half
of `do_bch2_trans_commit`, and suppose the sorted update order places the updates to
one leaf next to each other. Then, whatever `bch2_trans_commit_write_locked` returns:
the sequence of write unlocks equals the sequence of write locks; every target leaf is
write-locked exactly once and write-unlocked exactly once, and no other node is locked;
and the journal reservation is released exactly once, after every unlock (and lock). -/
theorem one_lock_per_node (env : commit_env) (trans : btree_trans)
    (hadj : leaves_adjacent (btree_trans_sort_updates env trans)) :
    write_unlocks (do_bch2_trans_commit_locked env trans).events =
      write_locks (do_bch2_trans_commit_locked env trans).events ∧
    (∀ b, b ∈ target_leaves trans →
      (write_locks (do_bch2_trans_commit_locked env trans).events).count b = 1 ∧
      (write_unlocks (do_bch2_trans_commit_locked env trans).events).count b = 1) ∧
    (∀ b, b ∈ write_locks (do_bch2_trans_commit_locked env trans).events →
      b ∈ target_leaves trans) ∧
    ∃ pre post, (do_bch2_trans_commit_locked env trans).events =
        pre ++ .journal_res_put :: post ∧
      commit_event.journal_res_put ∉ pre ∧ commit_event.journal_res_put ∉ post ∧
      write_unlocks post = [] ∧ write_locks post = [] := by
  obtain ⟨ev_read, ev_after, hev, hread, hafter⟩ := commit_locked_events env trans
  have hwl := write_locked_events env (btree_trans_sort_updates env trans)
  have hlen : (btree_trans_sort_updates env trans).updates.length = trans.updates.length := rfl
  -- the leaves locked, in order
  have hL : write_locks (do_bch2_trans_commit_locked env trans).events =
      (leaf_group_starts (btree_trans_sort_updates env trans)).map
        (sorted_leaf (btree_trans_sort_updates env trans)) := by
    rw [hev]
    simp only [write_locks_append, write_locks_map_lock]
    rw [write_locks_eq_nil ev_read (fun e he => (hread e he).1),
      write_locks_eq_nil _ (fun e he => (hwl e he).1),
      write_locks_eq_nil ev_after (fun e he => (hafter e he).1)]
    simp [write_locks]
  have hU : write_unlocks (do_bch2_trans_commit_locked env trans).events =
      (leaf_group_starts (btree_trans_sort_updates env trans)).map
        (sorted_leaf (btree_trans_sort_updates env trans)) := by
    rw [hev]
    simp only [write_unlocks_append, write_unlocks_map_unlock]
    rw [write_unlocks_eq_nil ev_read (fun e he => (hread e he).2.1),
      write_unlocks_eq_nil _ (fun e he => (hwl e he).2.1),
      write_unlocks_eq_nil ev_after (fun e he => (hafter e he).2.1)]
    simp [write_unlocks]
  have hnodup : ((leaf_group_starts (btree_trans_sort_updates env trans)).map
      (sorted_leaf (btree_trans_sort_updates env trans))).Nodup := by
    have := group_starts_nodup (sorted_leaf (btree_trans_sort_updates env trans))
      trans.updates.length (fun a b c h1 h2 h3 h4 => hadj a b c h1 h2 (by rw [hlen]; exact h3) h4)
    simpa [leaf_group_starts, same_leaf_as_prev] using this
  have hmem : ∀ b, b ∈ target_leaves trans →
      b ∈ (leaf_group_starts (btree_trans_sort_updates env trans)).map
        (sorted_leaf (btree_trans_sort_updates env trans)) := by
    intro b hb
    obtain ⟨idx, hidx, rfl⟩ := (sorted_leaf_mem_iff env trans b).mp hb
    have := group_starts_mem (sorted_leaf (btree_trans_sort_updates env trans))
      trans.updates.length idx hidx
    simpa [leaf_group_starts, same_leaf_as_prev] using this
  refine ⟨by rw [hL, hU], ?_, ?_, ?_⟩
  · intro b hb
    rw [hL, hU]
    exact ⟨List.count_eq_one_of_mem hnodup (hmem b hb),
      List.count_eq_one_of_mem hnodup (hmem b hb)⟩
  · intro b hb
    rw [hL] at hb
    obtain ⟨idx, hidx, rfl⟩ := List.mem_map.mp hb
    have hi : idx < trans.updates.length := by
      have := (List.mem_filter.mp hidx).1
      rw [List.mem_range] at this
      exact this
    exact (sorted_leaf_mem_iff env trans _).mpr ⟨idx, hi, rfl⟩
  · refine ⟨ev_read ++
        (leaf_group_starts (btree_trans_sort_updates env trans)).map
          (fun idx => .lock_write (sorted_leaf (btree_trans_sort_updates env trans) idx)) ++
        (bch2_trans_commit_write_locked env (btree_trans_sort_updates env trans)).events ++
        (leaf_group_starts (btree_trans_sort_updates env trans)).map
          (fun idx => .unlock_write (sorted_leaf (btree_trans_sort_updates env trans) idx)),
      ev_after, by rw [hev]; simp only [List.append_assoc, List.singleton_append], ?_,
      fun h => (hafter _ h).2.2 rfl, write_unlocks_eq_nil _ (fun e he => (hafter e he).2.1),
      write_locks_eq_nil _ (fun e he => (hafter e he).1)⟩
    intro h
    simp only [List.mem_append, List.mem_map] at h
    rcases h with ((h | ⟨i, _, h⟩) | h) | ⟨i, _, h⟩
    · exact (hread _ h).2.2 rfl
    · cases h
    · exact (hwl _ h).2.2 rfl
    · cases h
/-- The trigger loop of `do_bch2_trans_commit` only adds trigger calls to the calls made
so far. -/
theorem commit_triggers_events (env : commit_env) (fuel i : Nat) (trans : btree_trans)
    (evs : List commit_event) (ret : Int) (trans' : btree_trans) (evs' : List commit_event)
    (h : do_bch2_trans_commit_triggers env fuel i trans evs = some (ret, trans', evs')) :
    ∃ added, evs' = evs ++ added ∧ ∀ e ∈ added, ∃ k, e = .trans_mark_update k := by
  induction fuel generalizing i trans evs with
  | zero => simp [do_bch2_trans_commit_triggers] at h
  | succ fuel ih =>
    unfold do_bch2_trans_commit_triggers at h
    simp only at h
    split_ifs at h
    all_goals first
      | (simp only [Option.some.injEq, Prod.mk.injEq] at h
         obtain ⟨_, _, rfl⟩ := h
         first
           | (refine ⟨[], ?_, ?_⟩
              · simp
              · simp)
           | (refine ⟨[.trans_mark_update i], rfl, ?_⟩
              simp))
      | (obtain ⟨added, h1, h2⟩ := ih _ _ _ h
         first
           | exact ⟨added, h1, h2⟩
           | (refine ⟨.trans_mark_update i :: added, ?_, ?_⟩
              · rw [h1]; simp
              · intro e he
                rcases List.mem_cons.mp he with rfl | he
                · exact ⟨i, rfl⟩
                · exact h2 e he))

/-- A whole call of `do_bch2_trans_commit` either returns before the locking half, having
locked and unlocked no node and released no journal reservation, or makes exactly the
node locks and unlocks of its locking half, run on the transaction the trigger loop
left. -/
theorem do_bch2_trans_commit_locks (env : commit_env) (fuel : Nat) (trans : btree_trans)
    (r : commit_result) (h : do_bch2_trans_commit env fuel trans = some r) :
    (write_locks r.events = [] ∧ write_unlocks r.events = [] ∧
      commit_event.journal_res_put ∉ r.events) ∨
    ∃ ret trans1 evs, do_bch2_trans_commit_triggers env fuel 0 trans [] = some (ret, trans1, evs) ∧
      write_locks r.events = write_locks (do_bch2_trans_commit_locked env trans1).events ∧
      write_unlocks r.events = write_unlocks (do_bch2_trans_commit_locked env trans1).events := by
  unfold do_bch2_trans_commit at h
  split at h
  · cases h
  · rename_i ret t1 evs htr
    obtain ⟨added, h1, h2⟩ := commit_triggers_events env fuel 0 trans [] ret t1 evs htr
    simp only [List.nil_append] at h1
    subst h1
    have hadd : ∀ e ∈ evs, (∀ b, e ≠ .lock_write b) ∧ (∀ b, e ≠ .unlock_write b) ∧
        e ≠ .journal_res_put := by
      intro e he
      obtain ⟨k, rfl⟩ := h2 e he
      simp
    have hcold : ∀ e ∈ (bch2_trans_journal_preres_get_cold env 0).2,
        (∀ b, e ≠ .lock_write b) ∧ (∀ b, e ≠ .unlock_write b) ∧ e ≠ .journal_res_put := by
      intro e he
      unfold bch2_trans_journal_preres_get_cold at he
      simp only at he
      split at he
      · simp at he; rcases he with rfl | rfl <;> simp
      · split at he <;> simp at he <;> rcases he with rfl | rfl | rfl <;> simp
    have hpre1 : ∀ e ∈ (evs ++ [commit_event.journal_preres_get 0
          { nonblock := true, check := false, reserved := false }]) ++
          (bch2_trans_journal_preres_get_cold env 0).2,
        (∀ b, e ≠ .lock_write b) ∧ (∀ b, e ≠ .unlock_write b) ∧ e ≠ .journal_res_put := by
      intro e he
      simp only [List.mem_append, List.mem_singleton] at he
      rcases he with (he | rfl) | he
      · exact hadd e he
      · simp
      · exact hcold e he
    have hpre2 : ∀ e ∈ evs ++ [commit_event.journal_preres_get 0
          { nonblock := true, check := false, reserved := false }],
        (∀ b, e ≠ .lock_write b) ∧ (∀ b, e ≠ .unlock_write b) ∧ e ≠ .journal_res_put := by
      intro e he
      simp only [List.mem_append, List.mem_singleton] at he
      rcases he with he | rfl
      · exact hadd e he
      · simp
    simp only at h
    split_ifs at h
    all_goals
      cases h
      first
        | exact Or.inl ⟨write_locks_eq_nil _ (fun e he => (hadd e he).1),
            write_unlocks_eq_nil _ (fun e he => (hadd e he).2.1), fun he => (hadd _ he).2.2 rfl⟩
        | exact Or.inl ⟨write_locks_eq_nil _ (fun e he => (hpre1 e he).1),
            write_unlocks_eq_nil _ (fun e he => (hpre1 e he).2.1), fun he => (hpre1 _ he).2.2 rfl⟩
        | exact Or.inl ⟨write_locks_eq_nil _ (fun e he => (hpre2 e he).1),
            write_unlocks_eq_nil _ (fun e he => (hpre2 e he).2.1), fun he => (hpre2 _ he).2.2 rfl⟩
        | (refine Or.inr ⟨ret, t1, evs, htr, ?_, ?_⟩
           · simp only [write_locks_append]
             rw [write_locks_eq_nil evs (fun e he => (hadd e he).1)]
             first
               | (rw [write_locks_eq_nil _ (fun e he => (hcold e he).1)]; rfl)
               | rfl
           · simp only [write_unlocks_append]
             rw [write_unlocks_eq_nil evs (fun e he => (hadd e he).2.1)]
             first
               | (rw [write_unlocks_eq_nil _ (fun e he => (hcold e he).2.1)]; rfl)
               | rfl)

theorem trans_ex_adjacent : leaves_adjacent (btree_trans_sort_updates env_ex trans_ex) := by
  intro a b c h1 h2 h3
  have h3 : c < 3 := h3
  interval_cases c <;> interval_cases b <;> interval_cases a <;> decide

/-- Witness for C5: the example transaction has two updates to leaf 10 and one to leaf
11; the sort puts the two next to each other, and each leaf is locked and unlocked
once, although the commit fails (leaf 11 is full). -/
theorem one_lock_per_node_witness :
    leaves_adjacent (btree_trans_sort_updates env_ex trans_ex) ∧
    (do_bch2_trans_commit_locked env_ex trans_ex).ret = BTREE_INSERT_BTREE_NODE_FULL ∧
    write_locks (do_bch2_trans_commit_locked env_ex trans_ex).events = [10, 11] ∧
    write_unlocks (do_bch2_trans_commit_locked env_ex trans_ex).events =
      write_locks (do_bch2_trans_commit_locked env_ex trans_ex).events :=
  ⟨trans_ex_adjacent, by decide, by decide,
    (one_lock_per_node env_ex trans_ex trans_ex_adjacent).1⟩
/-! ## C6: range delete -/

theorem first_live_none (live : List Nat) (pos : Nat) (h : first_live live pos = none) :
    ∀ u ∈ live, u < pos := by
  induction live with
  | nil => simp
  | cons a live ih =>
    simp only [first_live, List.foldr_cons] at h ih
    intro u hu
    split at h
    · split at h <;> cases h
    · rcases List.mem_cons.mp hu with rfl | hu
      · omega
      · exact ih h u hu

theorem first_live_some (live : List Nat) (pos v : Nat) (h : first_live live pos = some v) :
    pos ≤ v ∧ v ∈ live ∧ ∀ u ∈ live, pos ≤ u → v ≤ u := by
  induction live generalizing v with
  | nil => simp [first_live] at h
  | cons a live ih =>
    simp only [first_live, List.foldr_cons] at h ih
    split at h
    · rename_i hpa
      split at h
      · rename_i hn
        cases h
        refine ⟨hpa, List.mem_cons_self _ _, ?_⟩
        intro u hu hpu
        rcases List.mem_cons.mp hu with rfl | hu
        · exact le_refl _
        · have := first_live_none live pos hn u hu
          omega
      · rename_i w hw
        cases h
        obtain ⟨h1, h2, h3⟩ := ih w hw
        refine ⟨by omega, ?_, ?_⟩
        · rcases Nat.le_total a w with hle | hle
          · rw [Nat.min_eq_left hle]; exact List.mem_cons_self _ _
          · rw [Nat.min_eq_right hle]; exact List.mem_cons_of_mem _ h2
        · intro u hu hpu
          rcases List.mem_cons.mp hu with rfl | hu
          · exact Nat.min_le_left _ _
          · exact le_trans (Nat.min_le_right _ _) (h3 u hu hpu)
    · obtain ⟨h1, h2, h3⟩ := ih v h
      refine ⟨h1, List.mem_cons_of_mem _ h2, ?_⟩
      intro u hu hpu
      rcases List.mem_cons.mp hu with rfl | hu
      · omega
      · exact h3 u hu hpu

theorem mem_apply_tombstone (is_extents : Bool) (live : List Nat) (k : bkey) (u : Nat) :
    u ∈ apply_tombstone is_extents live k ↔
      u ∈ live ∧ (if is_extents then ¬ (k.p - k.size ≤ u ∧ u < k.p) else u ≠ k.p) := by
  unfold apply_tombstone
  cases is_extents
  · simp [List.mem_filter]
  · simp only [if_true, List.mem_filter, Bool.not_eq_true', Bool.and_eq_false_imp,
      decide_eq_true_eq, decide_eq_false_iff_not, not_and]

/-- The tombstone an extent iterator at `u < end_pos` builds before trimming starts at
`u` and does not extend past `end_pos`. -/
theorem cut_back_resize (u end_pos max_sectors : Nat) (h : u < end_pos) :
    (bch2_cut_back end_pos (bch2_key_resize { p := u, size := 0 } max_sectors)).p ≤ end_pos ∧
    (bch2_cut_back end_pos (bch2_key_resize { p := u, size := 0 } max_sectors)).p -
      (bch2_cut_back end_pos (bch2_key_resize { p := u, size := 0 } max_sectors)).size = u := by
  unfold bch2_cut_back bch2_key_resize
  simp only [Nat.sub_zero]
  split
  · simp only
    omega
  · simp only
    omega
theorem delete_inv_step {is_extents : Bool} {start end_pos : Nat} {live0 : List Nat}
    {st : delete_state} (h : delete_inv is_extents start end_pos live0 st) :
    delete_inv is_extents start end_pos live0 { st with step := st.step + 1 } :=
  ⟨h.pos_ge, h.sub, h.keep, h.dead, h.toms⟩

theorem delete_inv_peek {is_extents : Bool} {start end_pos : Nat} {live0 : List Nat}
    {st : delete_state} (h : delete_inv is_extents start end_pos live0 st) (u : Nat)
    (hu : first_live st.live st.pos = some u) :
    delete_inv is_extents start end_pos live0 { st with step := st.step + 1, pos := u } := by
  obtain ⟨h1, _, h3⟩ := first_live_some st.live st.pos u hu
  exact ⟨le_trans h.pos_ge h1, h.sub, h.keep, fun x hx hsx => h3 x hx (h.dead x hx hsx), h.toms⟩

theorem delete_inv_commit {is_extents : Bool} {start end_pos : Nat} {live0 : List Nat}
    {st : delete_state} (h : delete_inv is_extents start end_pos live0 st) (k : bkey)
    (hlt : st.pos < end_pos) (hp : k.p ≤ end_pos) (hs : st.pos ≤ k.p - k.size)
    (hk : is_extents = false → k = { p := st.pos, size := 0 }) :
    delete_inv is_extents start end_pos live0
      { st with live := apply_tombstone is_extents st.live k
                committed := st.committed ++ [(st.pos, k)] } := by
  refine ⟨h.pos_ge, ?_, ?_, ?_, ?_⟩
  · intro u hu
    exact h.sub u ((mem_apply_tombstone _ _ _ _).mp hu).1
  · intro u hu hout
    refine (mem_apply_tombstone _ _ _ _).mpr ⟨h.keep u hu hout, ?_⟩
    have hge := h.pos_ge
    cases is_extents with
    | false =>
      simp only [Bool.false_eq_true, if_false]
      rw [hk rfl]
      simp only
      omega
    | true =>
      simp only [if_true]
      omega
  · intro u hu hsu
    exact h.dead u ((mem_apply_tombstone _ _ _ _).mp hu).1 hsu
  · intro c hc
    rcases List.mem_append.mp hc with hc | hc
    · exact h.toms c hc
    · simp only [List.mem_singleton] at hc
      subst hc
      exact ⟨h.pos_ge, hlt, hp, hs, hk⟩

/-- The loop invariant of `bch2_btree_delete_at_range`, and what it gives when the
function returns: the result is never `-EINTR`, and on success no live key is left in
the range. -/
theorem delete_at_range_inv (env : delete_env) (is_extents : Bool) (start end_pos : Nat)
    (live0 : List Nat)
    (htrim : ∀ n k, (env.bch2_extent_trim_atomic n k).2.p ≤ k.p ∧
      k.p - k.size ≤ (env.bch2_extent_trim_atomic n k).2.p -
        (env.bch2_extent_trim_atomic n k).2.size)
    (fuel : Nat) (st : delete_state) (ret : Int) (st' : delete_state)
    (hinv : delete_inv is_extents start end_pos live0 st)
    (h : bch2_btree_delete_at_range env is_extents end_pos fuel st = some (ret, st')) :
    delete_inv is_extents start end_pos live0 st' ∧ ret ≠ -EINTR ∧
    (ret = 0 → ∀ u ∈ st'.live, ¬ (start ≤ u ∧ u < end_pos)) := by
  induction fuel generalizing st with
  | zero => simp [bch2_btree_delete_at_range] at h
  | succ fuel ih =>
    unfold bch2_btree_delete_at_range at h
    simp only at h
    by_cases hpe : env.peek_err st.step ≠ 0
    · rw [if_pos hpe] at h
      by_cases hpi : env.peek_err st.step = -EINTR
      · rw [if_pos hpi] at h
        exact ih _ (delete_inv_step hinv) h
      · rw [if_neg hpi] at h
        cases h
        exact ⟨delete_inv_step hinv, hpi, fun h0 => absurd h0 hpe⟩
    · rw [if_neg hpe] at h
      cases hfl : first_live st.live st.pos with
      | none =>
        rw [hfl] at h
        cases h
        refine ⟨delete_inv_step hinv, by decide, fun _ u hu hr => ?_⟩
        have h1 := first_live_none st.live st.pos hfl u hu
        have h2 := hinv.dead u hu hr.1
        omega
      | some u =>
        rw [hfl] at h
        simp only at h
        have hinv2 := delete_inv_peek hinv u hfl
        by_cases hue : ¬ (u < end_pos)
        · rw [if_pos hue] at h
          cases h
          refine ⟨hinv2, by decide, fun _ x hx hr => ?_⟩
          have := hinv2.dead x hx hr.1
          simp only at this
          omega
        · rw [if_neg hue] at h
          have hlt : u < end_pos := by omega
          by_cases htr : (is_extents &&
              decide ((env.bch2_extent_trim_atomic st.step
                (bch2_cut_back end_pos (bch2_key_resize { p := u, size := 0 } env.max_sectors))).1
                  ≠ 0)) = true
          · rw [if_pos htr] at h
            split at h
            · exact ih _ hinv2 h
            · rename_i hne
              cases h
              refine ⟨hinv2, hne, fun h0 => ?_⟩
              simp only [Bool.and_eq_true, decide_eq_true_eq] at htr
              exact absurd h0 htr.2
          · rw [if_neg htr] at h
            by_cases hcr : env.commit_ret st.step ≠ 0
            · rw [if_pos hcr] at h
              split at h
              · exact ih _ hinv2 h
              · rename_i hne
                cases h
                exact ⟨hinv2, hne, fun h0 => absurd h0 hcr⟩
            · rw [if_neg hcr] at h
              refine ih _ ?_ h
              have hcut := cut_back_resize u end_pos env.max_sectors hlt
              have htk := htrim st.step
                (bch2_cut_back end_pos (bch2_key_resize { p := u, size := 0 } env.max_sectors))
              refine delete_inv_commit hinv2 _ hlt ?_ ?_ ?_
              · cases is_extents with
                | false => simp only [Bool.false_eq_true, if_false]; omega
                | true => simp only [if_true]; omega
              · cases is_extents with
                | false => simp only [Bool.false_eq_true, if_false]; omega
                | true => simp only [if_true]; omega
              · intro hfalse
                rw [hfalse]
                rfl
/-- With collaborators that never fail, the range delete over plain keys returns 0 once
the fuel exceeds the number of live keys at or after the iterator. -/
theorem delete_at_range_returns (env : delete_env) (end_pos : Nat)
    (hp : ∀ n, env.peek_err n = 0) (hc : ∀ n, env.commit_ret n = 0)
    (fuel : Nat) (st : delete_state)
    (hfuel : (st.live.filter (fun x => decide (st.pos ≤ x))).length < fuel) :
    ∃ st', bch2_btree_delete_at_range env false end_pos fuel st = some (0, st') := by
  induction fuel generalizing st with
  | zero => omega
  | succ fuel ih =>
    unfold bch2_btree_delete_at_range
    simp only
    rw [if_neg (by simp [hp])]
    cases hfl : first_live st.live st.pos with
    | none => exact ⟨_, rfl⟩
    | some u =>
      simp only
      by_cases hue : ¬ (u < end_pos)
      · rw [if_pos hue]
        exact ⟨_, rfl⟩
      · rw [if_neg hue, if_neg (by simp), if_neg (by simp [hc])]
        apply ih
        simp only [Bool.false_eq_true, if_false]
        obtain ⟨h1, h2, _⟩ := first_live_some st.live st.pos u hfl
        have hlt : ((st.live.filter (fun x => decide (st.pos ≤ x))).filter
            (fun x => x != u && decide (u ≤ x))).length <
            (st.live.filter (fun x => decide (st.pos ≤ x))).length := by
          rw [List.length_filter_lt_length_iff_exists]
          exact ⟨u, List.mem_filter.mpr ⟨h2, by simpa using h1⟩, by simp⟩
        have heq : (apply_tombstone false st.live { p := u, size := 0 }).filter
            (fun x => decide (u ≤ x)) =
            (st.live.filter (fun x => decide (st.pos ≤ x))).filter
              (fun x => x != u && decide (u ≤ x)) := by
          unfold apply_tombstone
          simp only [Bool.false_eq_true, if_false, List.filter_filter]
          apply List.filter_congr
          intro x _
          by_cases hx : u ≤ x
          · have : st.pos ≤ x := by omega
            simp [hx, this, Bool.and_comm]
          · simp [hx]
        rw [heq]
        omega
theorem delete_inv_start (is_extents : Bool) (start end_pos : Nat) (live : List Nat) :
    delete_inv is_extents start end_pos live (delete_range_start live start) :=
  ⟨le_refl _, fun _ h => h, fun _ h _ => h, fun _ _ h => h, fun c hc => by cases hc⟩

/-- With collaborators that never fail, deleting `[2, 6)` from the plain keys 1, 3, 5, 7
leaves the keys 1 and 7. -/
theorem delete_range_example (env : delete_env) (hp : ∀ n, env.peek_err n = 0)
    (hc : ∀ n, env.commit_ret n = 0) :
    ∃ st, bch2_btree_delete_at_range env false 6 5 (delete_range_start [1, 3, 5, 7] 2)
        = some (0, st) ∧ st.live = [1, 7] := by
  simp [bch2_btree_delete_at_range, delete_range_start, hp, hc, first_live, apply_tombstone]

/-- C6 (delete-range end-exclusivity). Start `bch2_btree_delete_at_range` with the
iterator at `start` on any set of live keys, with an extent collaborator that only
trims the end of the tombstone. Whenever the function returns: every tombstone was
committed at an iterator position `p` with `start ≤ p < end`, does not extend past
`end` (a plain tombstone sits at `p` itself) and does not start before `p`; the keys at
`end` or beyond (and those before `start`) are exactly as before and no key appeared;
the result is never `-EINTR`; and when the result is 0 no live key remains in
`[start, end)`. For plain keys and collaborators that never fail the function does
return 0, with as much fuel as there are keys plus one, leaving exactly the keys outside
the range; keys 1, 3, 5, 7 with range `[2, 6)` leave 1 and 7. -/
theorem delete_range_end_exclusive (env : delete_env) (is_extents : Bool)
    (start end_pos : Nat) (live : List Nat)
    (htrim : ∀ n k, (env.bch2_extent_trim_atomic n k).2.p ≤ k.p ∧
      k.p - k.size ≤ (env.bch2_extent_trim_atomic n k).2.p -
        (env.bch2_extent_trim_atomic n k).2.size) :
    (∀ fuel ret st,
      bch2_btree_delete_at_range env is_extents end_pos fuel (delete_range_start live start)
        = some (ret, st) →
      (∀ c ∈ st.committed, start ≤ c.1 ∧ c.1 < end_pos ∧ c.2.p ≤ end_pos ∧
        c.1 ≤ c.2.p - c.2.size ∧ (is_extents = false → c.2 = { p := c.1, size := 0 })) ∧
      (∀ u, end_pos ≤ u ∨ u < start → (u ∈ st.live ↔ u ∈ live)) ∧
      (∀ u ∈ st.live, u ∈ live) ∧
      ret ≠ -EINTR ∧
      (ret = 0 → ∀ u ∈ st.live, ¬ (start ≤ u ∧ u < end_pos))) ∧
    ((∀ n, env.peek_err n = 0) → (∀ n, env.commit_ret n = 0) →
      (∃ st, bch2_btree_delete_at_range env false end_pos (live.length + 1)
          (delete_range_start live start) = some (0, st) ∧
        ∀ u, u ∈ st.live ↔ u ∈ live ∧ ¬ (start ≤ u ∧ u < end_pos)) ∧
      ∃ st, bch2_btree_delete_at_range env false 6 5 (delete_range_start [1, 3, 5, 7] 2)
          = some (0, st) ∧ st.live = [1, 7]) := by
  constructor
  · intro fuel ret st h
    obtain ⟨hinv, hne, hz⟩ := delete_at_range_inv env is_extents start end_pos live htrim fuel
      _ ret st (delete_inv_start is_extents start end_pos live) h
    exact ⟨hinv.toms, fun u hu => ⟨hinv.sub u, fun hl => hinv.keep u hl hu⟩, hinv.sub, hne, hz⟩
  · intro hp hc
    refine ⟨?_, delete_range_example env hp hc⟩
    obtain ⟨st, hst⟩ := delete_at_range_returns env end_pos hp hc (live.length + 1)
      (delete_range_start live start)
      (Nat.lt_succ_of_le (List.length_filter_le _ _))
    obtain ⟨hinv, _, hz⟩ := delete_at_range_inv env false start end_pos live htrim _
      _ 0 st (delete_inv_start false start end_pos live) hst
    refine ⟨st, hst, fun u => ⟨fun hu => ⟨hinv.sub u hu, hz rfl u hu⟩, fun hu => ?_⟩⟩
    refine hinv.keep u hu.1 ?_
    have := hu.2
    omega

/-- Witness for C6: the example collaborators never fail and do not trim; on the keys
1, 3, 5, 7 the delete of `[2, 6)` returns 0 and commits tombstones at 3 and 5 only. -/
theorem delete_range_end_exclusive_witness :
    (∀ n k, (delete_env_ex.bch2_extent_trim_atomic n k).2.p ≤ k.p ∧
      k.p - k.size ≤ (delete_env_ex.bch2_extent_trim_atomic n k).2.p -
        (delete_env_ex.bch2_extent_trim_atomic n k).2.size) ∧
    (bch2_btree_delete_at_range delete_env_ex false 6 5 (delete_range_start [1, 3, 5, 7] 2)).map
      (fun r => (r.1, r.2.live, r.2.committed.map (fun c => c.1))) = some (0, [1, 7], [3, 5]) ∧
    ∃ st, bch2_btree_delete_at_range delete_env_ex false 6 5 (delete_range_start [1, 3, 5, 7] 2)
        = some (0, st) ∧ st.live = [1, 7] :=
  ⟨fun _ _ => ⟨le_refl _, le_refl _⟩, by decide,
    ((delete_range_end_exclusive delete_env_ex false 2 6 [1, 3, 5, 7]
      (fun _ _ => ⟨le_refl _, le_refl _⟩)).2 (fun _ => rfl) (fun _ => rfl)).2⟩

/-! ## C11: fast reclaim removes the maximal zero-count prefix -/

/-- Fast reclaim returns when some entry of the window has a nonzero count and the
zero-count entries of the window have an empty active list. -/
theorem reclaim_fast_returns_window (j : journal n) (t : Nat)
    (H : ∀ s, j.pin.front ≤ s → s < j.pin.back →
      (j.pin.data s).count = 0 → (j.pin.data s).list = [])
    (ht1 : j.pin.front ≤ t) (ht2 : t < j.pin.back) (ht3 : (j.pin.data t).count ≠ 0) :
    ∃ r, bch2_journal_reclaim_fast j = .ok r := by
  induction j using bch2_journal_reclaim_fast.induct with
  | case1 x hc => exact ⟨x, by rw [reclaim_fast_unfold, if_pos hc]⟩
  | case2 x hc hl =>
    simp only [fifo_peek_front, ne_eq, not_not] at hc hl
    exact absurd (H _ (le_refl _) (by omega) hc) hl
  | case3 x hc hl hp =>
    unfold fifo_pop fifo_used at hp
    split at hp
    · omega
    · cases hp
  | case4 x hc hl f hp ih =>
    obtain ⟨_, rfl⟩ := fifo_pop_some hp
    simp only [fifo_peek_front, ne_eq, not_not] at hc
    have hne : t ≠ x.pin.front := fun e => ht3 (e ▸ hc)
    obtain ⟨r, hr⟩ := ih (fun s h1 h2 => H s (by simp only at h1; omega) h2)
      (by simp only; omega) ht2 ht3
    exact ⟨r, by
      rw [reclaim_fast_unfold, if_neg (by simpa [fifo_peek_front] using hc), if_neg hl, hp]
      exact hr⟩

/-- C11 (fast reclaim). Take a ledger whose window holds an entry (seq `t`) with a
nonzero count, and in which the zero-count entries of the window have an empty active
list (what C1 establishes for every reachable ledger). Then `bch2_journal_reclaim_fast`
returns, and the ledger it returns is the one it was given with the front moved to the
reclaim watermark, the first seq of the window with a nonzero count: the new front
entry has a nonzero count and lies in the window, every seq popped had a zero count,
the entries that remain (and the back) are unchanged, and the front advanced by the
number of entries popped. -/
theorem reclaim_fast_maximal_prefix (j : journal n) (t : Nat)
    (H : ∀ s, j.pin.front ≤ s → s < j.pin.back →
      (j.pin.data s).count = 0 → (j.pin.data s).list = [])
    (ht1 : j.pin.front ≤ t) (ht2 : t < j.pin.back) (ht3 : (j.pin.data t).count ≠ 0) :
    ∃ r, bch2_journal_reclaim_fast j = .ok r ∧
      r = { j with pin := { j.pin with front := reclaim_watermark j } } ∧
      (r.pin.data r.pin.front).count ≠ 0 ∧
      j.pin.front ≤ r.pin.front ∧ r.pin.front < r.pin.back ∧
      (∀ s, j.pin.front ≤ s → s < r.pin.front → (j.pin.data s).count = 0) ∧
      (∀ s, r.pin.front ≤ s → s < r.pin.back → r.pin.data s = j.pin.data s) ∧
      r.pin.back = j.pin.back ∧
      r.pin.front = j.pin.front + (fifo_used j.pin - fifo_used r.pin) := by
  obtain ⟨r, hr⟩ := reclaim_fast_returns_window j t H ht1 ht2 ht3
  obtain ⟨h1, h2, h3, h4, h5, h6, h7, h8⟩ := reclaim_fast_ok j r hr
  have hrt : r.pin.front ≤ t := by
    by_contra hlt
    push_neg at hlt
    exact ht3 (h6 t ht1 hlt).1
  obtain ⟨a1, a2, a3, a4⟩ :=
    first_pinned_spec j.pin.data (j.pin.back - j.pin.front) j.pin.front
  have hw : r.pin.front = reclaim_watermark j := by
    unfold reclaim_watermark fifo_used
    apply le_antisymm
    · by_contra hlt
      push_neg at hlt
      exact a4 (by omega) (h6 _ a1 hlt).1
    · by_contra hlt
      push_neg at hlt
      rw [h2] at h7
      exact h7 (a3 _ h5 hlt)
  refine ⟨r, hr, ?_, h7, h5, by omega, fun s s1 s2 => (h6 s s1 s2).1,
    fun s _ _ => by rw [h2], h3, ?_⟩
  · obtain ⟨⟨rf, rb, rs, rd⟩, rp⟩ := r
    simp only at h1 h2 h3 h4 hw
    subst h1 h2 h3 h4 hw
    rfl
  · simp only [fifo_used]
    omega

/-- Witness for C11: on the example ledger with pin 0 detached from seq 5, the entries
5, 6 and 7 have a zero count and seq 8 has not. -/
theorem reclaim_fast_maximal_prefix_witness :
    (∀ s, (pin_drop_detached ledger_ex 0 5).pin.front ≤ s →
      s < (pin_drop_detached ledger_ex 0 5).pin.back →
      ((pin_drop_detached ledger_ex 0 5).pin.data s).count = 0 →
      ((pin_drop_detached ledger_ex 0 5).pin.data s).list = []) ∧
    (pin_drop_detached ledger_ex 0 5).pin.front ≤ 8 ∧
    8 < (pin_drop_detached ledger_ex 0 5).pin.back ∧
    ((pin_drop_detached ledger_ex 0 5).pin.data 8).count ≠ 0 ∧
    ∃ r, bch2_journal_reclaim_fast (pin_drop_detached ledger_ex 0 5) = .ok r ∧
      r = { pin_drop_detached ledger_ex 0 5 with
            pin := { (pin_drop_detached ledger_ex 0 5).pin with
                     front := reclaim_watermark (pin_drop_detached ledger_ex 0 5) } } ∧
      (r.pin.data r.pin.front).count ≠ 0 ∧
      (pin_drop_detached ledger_ex 0 5).pin.front ≤ r.pin.front ∧
      r.pin.front < r.pin.back ∧
      (∀ s, (pin_drop_detached ledger_ex 0 5).pin.front ≤ s → s < r.pin.front →
        ((pin_drop_detached ledger_ex 0 5).pin.data s).count = 0) ∧
      (∀ s, r.pin.front ≤ s → s < r.pin.back →
        r.pin.data s = (pin_drop_detached ledger_ex 0 5).pin.data s) ∧
      r.pin.back = (pin_drop_detached ledger_ex 0 5).pin.back ∧
      r.pin.front = (pin_drop_detached ledger_ex 0 5).pin.front +
        (fifo_used (pin_drop_detached ledger_ex 0 5).pin - fifo_used r.pin) :=
  have H : ∀ s, (pin_drop_detached ledger_ex 0 5).pin.front ≤ s →
      s < (pin_drop_detached ledger_ex 0 5).pin.back →
      ((pin_drop_detached ledger_ex 0 5).pin.data s).count = 0 →
      ((pin_drop_detached ledger_ex 0 5).pin.data s).list = [] := by
    intro s h1 h2
    have h1 : 5 ≤ s := h1
    have h2 : s < 9 := h2
    interval_cases s <;> decide
  ⟨H, by decide, by decide, by decide,
    reclaim_fast_maximal_prefix (pin_drop_detached ledger_ex 0 5) 8 H
      (by decide) (by decide) (by decide)⟩

/-! ## C19, C20: the sort of the pending updates -/

theorem sort_updates_insert_sublist (env : commit_env) (trans : btree_trans)
    (sorted : List Nat) (l : Nat) : sorted.Sublist (sort_updates_insert env trans sorted l) := by
  unfold sort_updates_insert
  simp only
  conv_lhs => rw [← List.takeWhile_append_dropWhile
    (fun r => decide (env.btree_iter_cmp (trans.iters (trans.updates.getD l default).iter)
      (trans.iters (trans.updates.getD r default).iter) > 0)) sorted]
  exact List.Sublist.append_left (List.sublist_cons_self _ _) _

/-- An update inserted by the sort lands before every update already placed that it
does not compare greater than. -/
theorem sort_updates_insert_before (env : commit_env) (trans : btree_trans)
    (sorted : List Nat) (l i : Nat) (hi : i ∈ sorted) (hc : update_cmp env trans l i ≤ 0) :
    [l, i].Sublist (sort_updates_insert env trans sorted l) := by
  unfold sort_updates_insert
  simp only
  have hmem : i ∈ List.takeWhile (fun r => decide (env.btree_iter_cmp
        (trans.iters (trans.updates.getD l default).iter)
        (trans.iters (trans.updates.getD r default).iter) > 0)) sorted ++
      List.dropWhile (fun r => decide (env.btree_iter_cmp
        (trans.iters (trans.updates.getD l default).iter)
        (trans.iters (trans.updates.getD r default).iter) > 0)) sorted := by
    rw [List.takeWhile_append_dropWhile]; exact hi
  rcases List.mem_append.mp hmem with h | h
  · have := List.mem_takeWhile_imp h
    simp only [decide_eq_true_eq] at this
    unfold update_cmp at hc
    omega
  · refine List.Sublist.trans ?_ (List.sublist_append_right _ _)
    exact List.Sublist.cons₂ _ (List.singleton_sublist.mpr h)

theorem sort_updates_foldl_range_perm (env : commit_env) (trans : btree_trans) (m : Nat) :
    ((List.range m).foldl (sort_updates_insert env trans) []).Perm (List.range m) := by
  have := sort_updates_foldl_perm env trans (List.range m) []
  simpa using this

/-- Ties and inversions come out in reverse: an update registered later that does not
compare greater than an earlier one is placed before it. -/
theorem sort_updates_foldl_before (env : commit_env) (trans : btree_trans) (m i j : Nat)
    (hij : i < j) (hj : j < m) (hc : update_cmp env trans j i ≤ 0) :
    [j, i].Sublist ((List.range m).foldl (sort_updates_insert env trans) []) := by
  induction m with
  | zero => omega
  | succ m ih =>
    rw [List.range_succ, List.foldl_append]
    simp only [List.foldl_cons, List.foldl_nil]
    by_cases hjm : j < m
    · exact (ih hjm).trans (sort_updates_insert_sublist env trans _ m)
    · have hjm : j = m := by omega
      subst hjm
      apply sort_updates_insert_before env trans _ j i _ hc
      exact (sort_updates_foldl_range_perm env trans j).mem_iff.mpr (List.mem_range.mpr hij)

theorem sublist_pair_indexOf (l : List Nat) (a b : Nat) (hn : l.Nodup) (hab : a ≠ b)
    (h : [a, b].Sublist l) : l.indexOf a < l.indexOf b := by
  induction l with
  | nil => cases h
  | cons x xs ih =>
    have hx := (List.nodup_cons.mp hn)
    cases h with
    | cons _ h' =>
      have ha : a ∈ xs := h'.subset (by simp)
      have hb : b ∈ xs := h'.subset (by simp)
      have hxa : x ≠ a := fun e => hx.1 (e ▸ ha)
      have hxb : x ≠ b := fun e => hx.1 (e ▸ hb)
      rw [List.indexOf_cons_ne _ hxa, List.indexOf_cons_ne _ hxb]
      exact Nat.succ_lt_succ (ih hx.2 h')
    | cons₂ _ h' =>
      have hb : b ∈ xs := h'.subset (by simp)
      rw [List.indexOf_cons_self, List.indexOf_cons_ne _ hab]
      omega

/-- C19, as stated, fails: in the example transaction the updates 0 and 2 are on
iterators that compare equal (same leaf), update 0 was registered first, and the sort
leaves `updates_sorted = [2, 0, 1]`, update 2 before update 0. -/
theorem sort_updates_stable_counterexample :
    (0 : Nat) < 2 ∧ 2 < trans_ex.updates.length ∧
    update_cmp env_ex trans_ex 0 2 = 0 ∧ update_cmp env_ex trans_ex 2 0 = 0 ∧
    (btree_trans_sort_updates env_ex trans_ex).updates_sorted = [2, 0, 1] ∧
    ¬ (sorted_pos (btree_trans_sort_updates env_ex trans_ex) 0 <
        sorted_pos (btree_trans_sort_updates env_ex trans_ex) 2) := by
  decide

/-- C19, amended (ties are reversed). For two pending updates registered at indices
`i < j` such that `btree_iter_cmp(updates[j].iter, updates[i].iter) <= 0` (in
particular when the two iterators compare equal), `btree_trans_sort_updates` places
update `j` before update `i` in `updates_sorted`. -/
theorem sort_updates_ties_reversed (env : commit_env) (trans : btree_trans) (i j : Nat)
    (hij : i < j) (hj : j < trans.updates.length) (hc : update_cmp env trans j i ≤ 0) :
    sorted_pos (btree_trans_sort_updates env trans) j <
      sorted_pos (btree_trans_sort_updates env trans) i := by
  unfold sorted_pos
  apply sublist_pair_indexOf _ j i _ (by omega)
  · exact sort_updates_foldl_before env trans _ i j hij hj hc
  · exact (sort_updates_perm env trans).nodup_iff.mpr (List.nodup_range _)

/-- Witness for C19 (amended): updates 0 and 2 of the example transaction. -/
theorem sort_updates_ties_reversed_witness :
    (0 : Nat) < 2 ∧ 2 < trans_ex.updates.length ∧ update_cmp env_ex trans_ex 2 0 ≤ 0 ∧
    sorted_pos (btree_trans_sort_updates env_ex trans_ex) 2 <
      sorted_pos (btree_trans_sort_updates env_ex trans_ex) 0 :=
  ⟨by decide, by decide, by decide,
    sort_updates_ties_reversed env_ex trans_ex 0 2 (by decide) (by decide) (by decide)⟩

/-- Inserting an update with the loop body of the sort keeps an ordered list ordered,
when `btree_iter_cmp` is total and transitive. -/
theorem sort_updates_insert_pairwise (env : commit_env) (trans : btree_trans)
    (htot : ∀ a b, 0 < env.btree_iter_cmp a b → env.btree_iter_cmp b a ≤ 0)
    (htrans : ∀ a b c, env.btree_iter_cmp a b ≤ 0 → env.btree_iter_cmp b c ≤ 0 →
      env.btree_iter_cmp a c ≤ 0)
    (sorted : List Nat) (l : Nat)
    (hs : sorted.Pairwise (fun a b => update_cmp env trans a b ≤ 0)) :
    (sort_updates_insert env trans sorted l).Pairwise
      (fun a b => update_cmp env trans a b ≤ 0) := by
  unfold sort_updates_insert
  simp only
  generalize hbelow : (fun r => decide (env.btree_iter_cmp
        (trans.iters (trans.updates.getD l default).iter)
        (trans.iters (trans.updates.getD r default).iter) > 0)) = below
  have hsplit := List.takeWhile_append_dropWhile below sorted
  rw [← hsplit] at hs
  obtain ⟨h1, h2, h3⟩ := List.pairwise_append.mp hs
  have htake : ∀ a ∈ List.takeWhile below sorted, update_cmp env trans a l ≤ 0 := by
    intro a ha
    have := List.mem_takeWhile_imp ha
    rw [← hbelow] at this
    simp only [decide_eq_true_eq] at this
    exact htot _ _ this
  have hdrop : ∀ b ∈ List.dropWhile below sorted, update_cmp env trans l b ≤ 0 := by
    intro b hb
    cases hd : List.dropWhile below sorted with
    | nil => rw [hd] at hb; cases hb
    | cons x xs =>
      have hx : below x = false := by
        have := List.head_dropWhile_not below sorted (by rw [hd]; simp)
        simpa [hd] using this
      rw [← hbelow] at hx
      simp only [decide_eq_false_iff_not, not_lt] at hx
      rw [hd] at hb h2
      rcases List.mem_cons.mp hb with rfl | hb
      · exact hx
      · exact htrans _ _ _ hx ((List.pairwise_cons.mp h2).1 b hb)
  refine List.pairwise_append.mpr ⟨h1, List.pairwise_cons.mpr ⟨hdrop, h2⟩, ?_⟩
  intro a ha b hb
  rcases List.mem_cons.mp hb with rfl | hb
  · exact htake a ha
  · exact h3 a ha b hb

theorem sort_updates_foldl_pairwise (env : commit_env) (trans : btree_trans)
    (htot : ∀ a b, 0 < env.btree_iter_cmp a b → env.btree_iter_cmp b a ≤ 0)
    (htrans : ∀ a b c, env.btree_iter_cmp a b ≤ 0 → env.btree_iter_cmp b c ≤ 0 →
      env.btree_iter_cmp a c ≤ 0)
    (ls init : List Nat)
    (hs : init.Pairwise (fun a b => update_cmp env trans a b ≤ 0)) :
    (ls.foldl (sort_updates_insert env trans) init).Pairwise
      (fun a b => update_cmp env trans a b ≤ 0) := by
  induction ls generalizing init with
  | nil => exact hs
  | cons x ls ih =>
    simp only [List.foldl_cons]
    exact ih _ (sort_updates_insert_pairwise env trans htot htrans init x hs)

/-- C20 (the sort orders the updates). When `btree_iter_cmp` is a total preorder (any
two iterators are comparable and the comparison is transitive), then after
`btree_trans_sort_updates` on a transaction with `n` pending updates: `updates_sorted`
is a permutation of the indices `0..n-1`; for every `k` with `k + 1 < n` the update
visited at position `k` compares `<= 0` with the one visited at position `k + 1`; and
the `updates` array (like the flags and the iterators) is the one given. -/
theorem sort_updates_sorted (env : commit_env) (trans : btree_trans)
    (htot : ∀ a b, env.btree_iter_cmp a b ≤ 0 ∨ env.btree_iter_cmp b a ≤ 0)
    (htrans : ∀ a b c, env.btree_iter_cmp a b ≤ 0 → env.btree_iter_cmp b c ≤ 0 →
      env.btree_iter_cmp a c ≤ 0) :
    (btree_trans_sort_updates env trans).updates_sorted.Perm
      (List.range trans.updates.length) ∧
    (btree_trans_sort_updates env trans).updates_sorted.length = trans.updates.length ∧
    (∀ k, k + 1 < trans.updates.length →
      env.btree_iter_cmp
        ((btree_trans_sort_updates env trans).iters
          (sorted_update (btree_trans_sort_updates env trans) k).iter)
        ((btree_trans_sort_updates env trans).iters
          (sorted_update (btree_trans_sort_updates env trans) (k + 1)).iter) ≤ 0) ∧
    (btree_trans_sort_updates env trans).updates = trans.updates ∧
    (btree_trans_sort_updates env trans).iters = trans.iters ∧
    (btree_trans_sort_updates env trans).flags = trans.flags := by
  have hperm := sort_updates_perm env trans
  have hlen : (btree_trans_sort_updates env trans).updates_sorted.length =
      trans.updates.length := by
    rw [hperm.length_eq, List.length_range]
  refine ⟨hperm, hlen, ?_, rfl, rfl, rfl⟩
  intro k hk
  have hp : (btree_trans_sort_updates env trans).updates_sorted.Pairwise
      (fun a b => update_cmp env trans a b ≤ 0) :=
    sort_updates_foldl_pairwise env trans
      (fun a b h => by rcases htot a b with h1 | h1 <;> omega) htrans _ [] List.Pairwise.nil
  have h := List.pairwise_iff_getElem.mp hp k (k + 1) (by omega) (by omega) (by omega)
  simp only [sorted_update]
  rw [List.getD_eq_getElem _ 0 (by omega), List.getD_eq_getElem _ 0 (by omega)]
  exact h

/-- Witness for C20: the example collaborators compare iterators by leaf number. -/
theorem sort_updates_sorted_witness :
    (∀ a b, env_ex.btree_iter_cmp a b ≤ 0 ∨ env_ex.btree_iter_cmp b a ≤ 0) ∧
    (∀ a b c, env_ex.btree_iter_cmp a b ≤ 0 → env_ex.btree_iter_cmp b c ≤ 0 →
      env_ex.btree_iter_cmp a c ≤ 0) ∧
    (btree_trans_sort_updates env_ex trans_ex).updates_sorted.Perm
      (List.range trans_ex.updates.length) ∧
    (btree_trans_sort_updates env_ex trans_ex).updates_sorted.length =
      trans_ex.updates.length ∧
    (∀ k, k + 1 < trans_ex.updates.length →
      env_ex.btree_iter_cmp
        ((btree_trans_sort_updates env_ex trans_ex).iters
          (sorted_update (btree_trans_sort_updates env_ex trans_ex) k).iter)
        ((btree_trans_sort_updates env_ex trans_ex).iters
          (sorted_update (btree_trans_sort_updates env_ex trans_ex) (k + 1)).iter) ≤ 0) ∧
    (btree_trans_sort_updates env_ex trans_ex).updates = trans_ex.updates ∧
    (btree_trans_sort_updates env_ex trans_ex).iters = trans_ex.iters ∧
    (btree_trans_sort_updates env_ex trans_ex).flags = trans_ex.flags :=
  have htot : ∀ a b, env_ex.btree_iter_cmp a b ≤ 0 ∨ env_ex.btree_iter_cmp b a ≤ 0 := by
    intro a b
    simp only [env_ex]
    omega
  have htrans : ∀ a b c, env_ex.btree_iter_cmp a b ≤ 0 → env_ex.btree_iter_cmp b c ≤ 0 →
      env_ex.btree_iter_cmp a c ≤ 0 := by
    intro a b c
    simp only [env_ex]
    omega
  ⟨htot, htrans, sort_updates_sorted env_ex trans_ex htot htrans⟩

/-! ## C18: failure after the journal reservation -/

/-- C18 (code evaluated at the failing input). With one update on a btree that needs
accounting, accounting deltas pending, a journal that grants the reservation and
`bch2_replicas_delta_list_apply` failing, `bch2_trans_commit_write_locked` passes the
capacity walk, obtains the journal reservation (the `journal_res_get` call returns 0),
and then returns `BTREE_INSERT_NEED_MARK_REPLICAS` (3, not 0) without applying the
update: no `insert_one` call is made. The comment in the function, right after the
reservation, says "Not allowed to fail after we've gotten our journal reservation". -/
theorem write_locked_fails_after_reservation :
    capacity_walk env_mark trans_mark trans_mark.updates.length 0 0 false = .ok true ∧
    (bch2_trans_journal_res_get env_mark trans_mark
      { nonblock := true, check := false, reserved := false }).1 = 0 ∧
    (bch2_trans_commit_write_locked env_mark trans_mark).ret =
      BTREE_INSERT_NEED_MARK_REPLICAS ∧
    (bch2_trans_commit_write_locked env_mark trans_mark).ret ≠ 0 ∧
    (bch2_trans_commit_write_locked env_mark trans_mark).events =
      [.mark_lock_down, .fs_usage_scratch_get,
       .journal_res_get 0 { nonblock := true, check := false, reserved := false },
       .replicas_delta_list_apply, .fs_usage_scratch_put, .mark_lock_up] ∧
    commit_event.insert_one 0 ∉ (bch2_trans_commit_write_locked env_mark trans_mark).events :=
  ⟨rfl, by decide, by decide, by decide, by decide, by decide⟩

/-! ## C16: when the wait of the flush ends -/

/-- The scan of the next-pin fetch over the window returns no pin exactly when no entry
of the scanned seqs at or below `seq_to_flush` has a member of its active list. -/
theorem get_next_pin_scan_none (j : journal n) (seq_to_flush : Nat) (k a : Nat) :
    (journal_get_next_pin_scan j seq_to_flush (List.range' a k)).2 = none ↔
      ∀ s, a ≤ s → s < a + k → s ≤ seq_to_flush → (j.pin.data s).list = [] := by
  induction k generalizing a with
  | zero =>
    simp only [List.range', journal_get_next_pin_scan, true_iff]
    intro s h1 h2
    omega
  | succ k ih =>
    simp only [List.range', journal_get_next_pin_scan]
    split
    · rename_i hgt
      simp only [true_iff]
      intro s h1 h2 h3
      omega
    · rename_i hle
      split
      · rename_i ret rest hl
        simp only [false_iff, reduceCtorEq]
        intro h
        have := h a (le_refl _) (by omega) (by omega)
        rw [hl] at this
        cases this
      · rename_i hl
        rw [ih (a + 1)]
        constructor
        · intro h s h1 h2 h3
          by_cases hs : s = a
          · subst hs; exact hl
          · exact h s (by omega) (by omega) h3
        · intro h s h1 h2 h3
          exact h s (by omega) (by omega) h3

theorem get_next_pin_scan_none_state (j : journal n) (seq_to_flush : Nat) (l : List Nat)
    (h : (journal_get_next_pin_scan j seq_to_flush l).2 = none) :
    (journal_get_next_pin_scan j seq_to_flush l).1 = j := by
  rcases get_next_pin_scan_cases j seq_to_flush l with h1 | ⟨ret, iter, rest, _, _, _, h4⟩
  · rw [h1]
  · rw [h4] at h
    cases h

/-- C16, as stated, fails: on a ledger with no pin whose window holds the seqs 5 and 6,
with the journal not in error and journal replay NOT completed, `journal_flush_done`
returns 1 with no candidate pin for `seq_to_flush = 100`, so the wait ends, although
replay has not completed (and the oldest retained seq 5 is not greater than 100, and
the window holds two entries). -/
theorem flush_done_counterexample :
    journal_flush_done 0 false ledger_idle 100 = .ok (1, ledger_idle, none) ∧
    ¬ (journal_last_seq ledger_idle > 100) ∧
    ¬ (fifo_used ledger_idle.pin = 1 ∧ (fifo_peek_front ledger_idle.pin).count = 1) := by
  refine ⟨?_, by decide, by decide⟩
  unfold journal_flush_done __journal_get_next_pin
  rw [if_neg (by decide), reclaim_fast_stop _ (by decide)]
  rfl

/-- C16, amended (replay NOT completed ends the wait, and so does a journal error).
Whenever `journal_flush_done` returns, with value `ret`, ledger `j1` and pin `pin`:
the wait ends with no candidate pin (`ret` nonzero and `pin` NULL) exactly when the
journal is in error, or fast reclaim returned a ledger in which no pin list of the
window at a seq `<= seq_to_flush` has an active pin AND (journal replay has not
completed OR the oldest retained seq is greater than `seq_to_flush` OR the window holds
exactly one entry whose count is 1). Otherwise a candidate pin is returned (which also
ends the wait) or the value is 0 and the wait goes on. Without a journal error and
without a candidate the ledger returned is the one fast reclaim returned. -/
theorem flush_done_no_candidate (journal_error : Int) (replay_done : Bool) (j j1 : journal n)
    (seq_to_flush : Nat) (ret : Int) (pin : Option (Fin n × Nat))
    (h : journal_flush_done journal_error replay_done j seq_to_flush = .ok (ret, j1, pin)) :
    ((ret ≠ 0 ∧ pin = none) ↔
      (journal_error ≠ 0 ∨
        ∃ r, bch2_journal_reclaim_fast j = .ok r ∧
          (∀ s, r.pin.front ≤ s → s < r.pin.back → s ≤ seq_to_flush →
            (r.pin.data s).list = []) ∧
          (replay_done = false ∨ journal_last_seq r > seq_to_flush ∨
            (fifo_used r.pin = 1 ∧ (fifo_peek_front r.pin).count = 1)))) ∧
    (pin ≠ none → ret ≠ 0) ∧
    (journal_error = 0 → pin = none → bch2_journal_reclaim_fast j = .ok j1) := by
  unfold journal_flush_done at h
  by_cases herr : journal_error = 0
  · rw [if_neg (by simpa using herr)] at h
    unfold __journal_get_next_pin at h
    cases hr : bch2_journal_reclaim_fast j with
    | error b => rw [hr] at h; cases h
    | ok r =>
      rw [hr] at h
      dsimp only at h
      have hscan := get_next_pin_scan_none r seq_to_flush (fifo_used r.pin) r.pin.front
      have hstate := get_next_pin_scan_none_state r seq_to_flush
        (List.range' r.pin.front (fifo_used r.pin))
      generalize journal_get_next_pin_scan r seq_to_flush
        (List.range' r.pin.front (fifo_used r.pin)) = res at h hscan hstate
      obtain ⟨rj, rp⟩ := res
      simp only [Except.ok.injEq, Prod.mk.injEq] at h hscan hstate
      obtain ⟨h1, h2, h3⟩ := h
      subst h2 h3
      have hwin : ∀ s, s < r.pin.front + fifo_used r.pin → r.pin.front ≤ s → s < r.pin.back := by
        intro s hs1 hs2
        unfold fifo_used at hs1
        omega
      have hwin2 : ∀ s, r.pin.front ≤ s → s < r.pin.back → s < r.pin.front + fifo_used r.pin := by
        intro s hs1 hs2
        unfold fifo_used
        omega
      refine ⟨?_, ?_, ?_⟩
      · constructor
        · rintro ⟨hret, hpin⟩
          refine Or.inr ⟨r, rfl, fun s s1 s2 s3 => hscan.mp hpin s s1 (hwin2 s s1 s2) s3, ?_⟩
          have hj := hstate hpin
          subst hj hpin
          rw [← h1] at hret
          by_contra hcon
          push_neg at hcon
          obtain ⟨c1, c2, c3⟩ := hcon
          apply hret
          have c1 : replay_done = true := by simpa using c1
          by_cases hu : fifo_used rj.pin = 1
          · have := c3 hu
            simp [c1, hu, this, not_lt.mpr c2]
          · simp [c1, hu, not_lt.mpr c2]
        · rintro (he | ⟨r2, hr2, hno, hcond⟩)
          · exact absurd herr he
          · cases hr2
            have hpin : rp = none := hscan.mpr (fun s s1 s2 s3 => hno s s1 (hwin s s2 s1) s3)
            refine ⟨?_, hpin⟩
            have hj := hstate hpin
            subst hj hpin
            rw [← h1]
            rcases hcond with c | c | ⟨c1, c2⟩
            · simp [c]
            · simp [c]
            · simp [c1, c2]
      · intro hpin
        rw [← h1]
        cases rp with
        | none => exact absurd rfl hpin
        | some p => simp
      · intro _ hpin
        rw [hstate hpin]
  · rw [if_pos (by simpa using herr)] at h
    simp only [Except.ok.injEq, Prod.mk.injEq] at h
    obtain ⟨h1, h2, h3⟩ := h
    subst h1 h3
    exact ⟨⟨fun _ => Or.inl herr, fun _ => ⟨herr, rfl⟩⟩, fun hp => absurd rfl hp,
      fun he => absurd he herr⟩

/-- Witness for C16 (amended): the idle example ledger before replay has completed. -/
theorem flush_done_no_candidate_witness :
    journal_flush_done 0 false ledger_idle 100 = .ok (1, ledger_idle, none) ∧
    ((((1 : Int) ≠ 0 ∧ (none : Option (Fin 1 × Nat)) = none) ↔
      ((0 : Int) ≠ 0 ∨
        ∃ r, bch2_journal_reclaim_fast ledger_idle = .ok r ∧
          (∀ s, r.pin.front ≤ s → s < r.pin.back → s ≤ 100 → (r.pin.data s).list = []) ∧
          (false = false ∨ journal_last_seq r > 100 ∨
            (fifo_used r.pin = 1 ∧ (fifo_peek_front r.pin).count = 1)))) ∧
    ((none : Option (Fin 1 × Nat)) ≠ none → (1 : Int) ≠ 0) ∧
    ((0 : Int) = 0 → (none : Option (Fin 1 × Nat)) = none →
      bch2_journal_reclaim_fast ledger_idle = .ok ledger_idle)) :=
  have h : journal_flush_done 0 false ledger_idle 100 = .ok (1, ledger_idle, none) := by
    unfold journal_flush_done __journal_get_next_pin
    rw [if_neg (by decide), reclaim_fast_stop _ (by decide)]
    rfl
  ⟨h, flush_done_no_candidate 0 false ledger_idle ledger_idle 100 1 none h⟩

/-! ## Lemmas: the commit driver -/

/-- The trigger loop of `do_bch2_trans_commit` leaves the flags of the transaction as
they are. -/
theorem commit_triggers_flags (env : commit_env) (fuel i : Nat) (trans : btree_trans)
    (evs : List commit_event) (ret : Int) (trans' : btree_trans) (evs' : List commit_event)
    (h : do_bch2_trans_commit_triggers env fuel i trans evs = some (ret, trans', evs')) :
    trans'.flags = trans.flags := by
  induction fuel generalizing i trans evs with
  | zero => simp [do_bch2_trans_commit_triggers] at h
  | succ fuel ih =>
    unfold do_bch2_trans_commit_triggers at h
    simp only at h
    split_ifs at h
    all_goals first
      | (simp only [Option.some.injEq, Prod.mk.injEq] at h
         obtain ⟨_, rfl, _⟩ := h
         rfl)
      | (have hrec := ih _ _ _ h
         simpa using hrec)

theorem commit_locked_flags (env : commit_env) (trans : btree_trans) :
    (do_bch2_trans_commit_locked env trans).trans.flags = trans.flags := by
  unfold do_bch2_trans_commit_locked
  simp only [write_locked_trans]
  split <;> rfl

/-- A call of `do_bch2_trans_commit` leaves the flags of the transaction as they are. -/
theorem do_bch2_trans_commit_flags (env : commit_env) (fuel : Nat) (trans : btree_trans)
    (r : commit_result) (h : do_bch2_trans_commit env fuel trans = some r) :
    r.trans.flags = trans.flags := by
  unfold do_bch2_trans_commit at h
  split at h
  · cases h
  · rename_i ret t1 evs htr
    have hf := commit_triggers_flags env fuel 0 trans [] ret t1 evs htr
    simp only at h
    split_ifs at h
    all_goals
      simp only [Option.some.injEq] at h
      subst h
      first
        | exact hf
        | (simp only [commit_locked_flags]; exact hf)

/-! ## C15: two updates through one iterator -/

/-- C15, as stated, fails: after two calls of `bch2_trans_update` through iterator 0,
with the keys 100 and then 101, on a transaction with no pending update, the
transaction holds two pending updates for that iterator, not one, and the first of
them still carries the key of the first call. -/
theorem trans_update_counterexample :
    ((bch2_trans_update (bch2_trans_update state_empty 0 100 4) 0 101 4).trans.updates.filter
      (fun u => u.iter = 0)).length = 2 ∧
    (bch2_trans_update (bch2_trans_update state_empty 0 100 4) 0 101 4).trans.updates =
      [{ k := 100, k_u64s := 4, iter := 0 }, { k := 101, k_u64s := 4, iter := 0 }] := by
  decide

/-- C15, amended (updates are appended, nothing is overwritten). After two calls of
`bch2_trans_update` through the same iterator, the pending updates are the ones held
before followed by the update of the first call and then the update of the second
call: the transaction holds two more pending updates for that iterator than before,
the last one carries the key of the second call, and the iterator is flagged
`BTREE_ITER_KEEP_UNTIL_COMMIT`. -/
theorem trans_update_appends (s : trans_state) (iter k1 u1 k2 u2 : Nat) :
    (bch2_trans_update (bch2_trans_update s iter k1 u1) iter k2 u2).trans.updates =
      s.trans.updates ++
        [{ k := k1, k_u64s := u1, iter := iter }, { k := k2, k_u64s := u2, iter := iter }] ∧
    ((bch2_trans_update (bch2_trans_update s iter k1 u1) iter k2 u2).trans.updates.filter
        (fun u => u.iter = iter)).length =
      (s.trans.updates.filter (fun u => u.iter = iter)).length + 2 ∧
    (bch2_trans_update (bch2_trans_update s iter k1 u1) iter k2 u2).trans.updates.getLast? =
      some { k := k2, k_u64s := u2, iter := iter } ∧
    has_flag ((bch2_trans_update (bch2_trans_update s iter k1 u1) iter k2 u2).iter_flags iter)
      BTREE_ITER_KEEP_UNTIL_COMMIT = true := by
  refine ⟨by simp [bch2_trans_update], by simp [bch2_trans_update, List.filter_append],
    by simp [bch2_trans_update], ?_⟩
  simp only [bch2_trans_update, Function.update_same, has_flag, bne_iff_ne, ne_eq]
  intro h
  have h5 := congrArg (fun x => x.testBit 5) h
  have h32 : Nat.testBit 32 5 = true := by decide
  simp [Nat.testBit_and, Nat.testBit_or, BTREE_ITER_KEEP_UNTIL_COMMIT, h32] at h5

/-- Witness for C15 (amended): two updates through iterator 0 of the example
transaction with no pending update. -/
theorem trans_update_appends_witness :
    (bch2_trans_update (bch2_trans_update state_empty 0 100 4) 0 101 4).trans.updates =
      state_empty.trans.updates ++
        [{ k := 100, k_u64s := 4, iter := 0 }, { k := 101, k_u64s := 4, iter := 0 }] ∧
    ((bch2_trans_update (bch2_trans_update state_empty 0 100 4) 0 101 4).trans.updates.filter
        (fun u => u.iter = 0)).length =
      (state_empty.trans.updates.filter (fun u => u.iter = 0)).length + 2 ∧
    (bch2_trans_update (bch2_trans_update state_empty 0 100 4) 0 101 4).trans.updates.getLast? =
      some { k := 101, k_u64s := 4, iter := 0 } ∧
    has_flag ((bch2_trans_update (bch2_trans_update state_empty 0 100 4) 0 101 4).iter_flags 0)
      BTREE_ITER_KEEP_UNTIL_COMMIT = true :=
  trans_update_appends state_empty 0 100 4 101 4

/-! ## Lemmas: the retry loop of the commit driver -/

theorem mark_replicas_walk_events (env : trans_commit_env) (k : Nat)
    (us : List btree_insert_entry) (idx : Nat) :
    (mark_replicas_walk env k us idx).2.all attempt_event = true := by
  induction us generalizing idx with
  | nil => simp [mark_replicas_walk]
  | cons u us ih =>
    unfold mark_replicas_walk
    simp only
    split
    · simp [attempt_event]
    · simp only [List.all_cons, attempt_event, Bool.true_and]
      exact ih _

theorem commit_error_restart_snd (env : trans_commit_env) (k flags : Nat)
    (evs : List trans_commit_event) :
    (commit_error_restart env k flags evs).2 = evs ++ [.traverse_all] := by
  unfold commit_error_restart
  simp only
  split_ifs <;> rfl

/-- The error handling only makes calls of a commit attempt: none on the write
reference, none on the journal pre-reservation. -/
theorem commit_error_events (env : trans_commit_env) (k : Nat) (trans : btree_trans)
    (i : Option Nat) (ret : Int) (ret' : Int) (hevs : List trans_commit_event)
    (h : bch2_trans_commit_error env k trans i ret = .ok (ret', hevs)) :
    hevs.all attempt_event = true := by
  have hw := mark_replicas_walk_events env k trans.updates 0
  cases i <;> simp only [bch2_trans_commit_error] at h <;> split_ifs at h
  all_goals
    have h2 := congrArg (fun x => x.2) (Except.ok.inj h)
    simp only [commit_error_restart_snd] at h2
    subst h2
    simp [List.all_append, attempt_event, hw]

/-- What a returning run of the retry loop of `__bch2_trans_commit` leaves: no pending
update, the flags as they were, at least one attempt made, and as calls those made
before, then calls of the attempts and of the error handling, then the release of the
journal pre-reservation and (unless `BTREE_INSERT_NOCHECK_RW`) one release of the write
reference, then the unlinking of the iterators on success. -/
theorem trans_commit_retry_spec (env : trans_commit_env) (tf o1 o2 : Nat) (fuel k : Nat)
    (i : Option Nat) (s : trans_state) (evs : List trans_commit_event)
    (r : trans_commit_result)
    (h : trans_commit_retry env tf o1 o2 fuel k i s evs = some (.ok r)) :
    r.state.trans.updates = [] ∧ r.state.mem_top = 0 ∧
    r.state.trans.flags = s.trans.flags ∧ k < r.attempts ∧
    ∃ mid, mid.all attempt_event = true ∧
      r.events = evs ++ mid ++
        (.journal_preres_put ::
          (if !has_flag s.trans.flags BTREE_INSERT_NOCHECK_RW then [.writes_put] else [])) ++
        (if r.ret = 0 then [.unlink_iters] else []) := by
  induction fuel generalizing k i s evs with
  | zero => simp [trans_commit_retry] at h
  | succ fuel ih =>
    unfold trans_commit_retry at h
    cases hd : do_bch2_trans_commit (env.attempt k) tf { s.trans with journal_u64s := 0 } with
    | none => rw [hd] at h; simp at h
    | some a =>
      rw [hd] at h
      have hfl : a.trans.flags = s.trans.flags :=
        do_bch2_trans_commit_flags _ _ { s.trans with journal_u64s := 0 } _ hd
      have hmap : (a.events.map trans_commit_event.commit).all attempt_event = true := by
        simp [List.all_map, attempt_event]
      simp only at h
      by_cases h0 : a.ret = 0
      · rw [if_pos h0] at h
        simp only [Option.some.injEq, Except.ok.injEq] at h
        subst h
        refine ⟨rfl, rfl, hfl, Nat.lt_succ_self k, a.events.map .commit, hmap, ?_⟩
        simp [trans_commit_out, hfl]
      · rw [if_neg h0] at h
        split at h
        · cases h
        · rename_i ret hevs he
          have hev := commit_error_events _ _ _ _ _ _ _ he
          split_ifs at h
          all_goals first
            | (simp only [Option.some.injEq, Except.ok.injEq] at h
               subst h
               refine ⟨rfl, rfl, hfl, Nat.lt_succ_self k,
                 a.events.map .commit ++ hevs, by simp [List.all_append, hmap, hev], ?_⟩
               simp [trans_commit_out, hfl])
            | (obtain ⟨h1, h2, h3, h4, mid, h5, h6⟩ := ih _ _ _ _ h
               simp only at h3 h6
               refine ⟨h1, h2, h3.trans hfl, by omega,
                 a.events.map .commit ++ hevs ++ mid,
                 by simp [List.all_append, hmap, hev, h5], ?_⟩
               rw [h6, hfl]
               simp)

/-! ## C17: committing on a filesystem that is not read-write -/

/-- The example commit with `BTREE_INSERT_LAZY_RW` on a filesystem that is not
read-write: the transition succeeds, the only attempt succeeds, and the write reference
taken by `percpu_ref_get` is released once. -/
theorem trans_commit_lazy_rw_example :
    ∃ r, __bch2_trans_commit tc_env_ro 4 4 state_lazy = some (.ok r) ∧ r.ret = 0 ∧
      r.attempts = 1 ∧
      r.events =
        [.writes_tryget false, .commit .trans_unlock, .fs_read_write_early, .writes_get,
         .commit (.journal_preres_get 0 { nonblock := true, check := false, reserved := false }),
         .commit (.lock_write 10),
         .commit (.journal_res_get 5 { nonblock := true, check := false, reserved := false }),
         .commit (.insert_one 0), .commit (.unlock_write 10), .commit .journal_res_put,
         .commit (.maybe_merge 0), .commit (.iter_downgrade 0),
         .journal_preres_put, .writes_put, .unlink_iters] :=
  ⟨_, rfl, by decide, by decide, by decide⟩

/-- Every return of `__bch2_trans_commit` through its retry loop, whatever the value
returned, leaves no pending update; so does the return taken when there was none. -/
theorem trans_commit_out_updates (all_iters : List Nat) (from_out : Bool) (ret : Int)
    (s : trans_state) (attempts : Nat) (evs : List trans_commit_event) :
    (trans_commit_out all_iters from_out ret s attempts evs).state.trans.updates = [] := rfl

/-- C14 (code evaluated at the failing input). With one pending update, flags 0 (no
`BTREE_INSERT_NOCHECK_RW`, no `BTREE_INSERT_LAZY_RW`) and a write reference that cannot
be obtained, `__bch2_trans_commit` returns `-EROFS`, a permanent failure (not
`-EINTR`), through the early `return ret` that follows
`bch2_trans_commit_get_rw_cold`: no attempt was made and the pending update is still
there (`nr_updates` is 1, not 0). -/
theorem trans_commit_erofs_keeps_updates :
    ∃ r, __bch2_trans_commit tc_env_ro 4 4 state_one = some (.ok r) ∧
      r.ret = -EROFS ∧ r.ret ≠ 0 ∧ r.ret ≠ -EINTR ∧ r.attempts = 0 ∧
      r.state.trans.updates = [{ k := 100, k_u64s := 4, iter := 0 }] ∧
      r.state.trans.updates.length = 1 :=
  ⟨_, rfl, by decide, by decide, by decide, by decide, by decide, by decide⟩

/-- Where `__bch2_trans_commit` leaves pending updates: every return leaves none, except
the early return taken when the write reference cannot be obtained and
`bch2_trans_commit_get_rw_cold` fails, which leaves the updates as they were. -/
theorem trans_commit_updates_cases (env : trans_commit_env) (tf fuel : Nat) (s : trans_state)
    (r : trans_commit_result) (h : __bch2_trans_commit env tf fuel s = some (.ok r)) :
    r.state.trans.updates = [] ∨
    (r.attempts = 0 ∧ r.ret ≠ 0 ∧ env.percpu_ref_tryget = false ∧
      has_flag s.trans.flags BTREE_INSERT_NOCHECK_RW = false ∧
      r.state.trans.updates = s.trans.updates) := by
  unfold __bch2_trans_commit at h
  simp only at h
  split_ifs at h with h1 h2 h3 h4
  · simp only [Option.some.injEq, Except.ok.injEq] at h
    subst h
    exact Or.inl rfl
  · exact Or.inl (trans_commit_retry_spec _ _ _ _ _ _ _ _ _ _ h).1
  · exact Or.inl (trans_commit_retry_spec _ _ _ _ _ _ _ _ _ _ h).1
  · simp only [Option.some.injEq, Except.ok.injEq] at h
    subst h
    refine Or.inr ⟨rfl, h4, by simpa using h3, by simpa using h2, ?_⟩
    simp only [bch2_trans_commit_get_rw_cold]
    split_ifs <;> rfl
  · exact Or.inl (trans_commit_retry_spec _ _ _ _ _ _ _ _ _ _ h).1

/-! ## Lemmas: what the error handling returns -/

theorem has_flag_nounlock_mask (f : Nat) :
    has_flag (f &&& ((2 ^ 32 - 1) ^^^ BTREE_INSERT_NOUNLOCK)) BTREE_INSERT_ATOMIC =
      has_flag f BTREE_INSERT_ATOMIC := by
  unfold has_flag
  rw [Nat.and_assoc]
  have : ((2 ^ 32 - 1) ^^^ BTREE_INSERT_NOUNLOCK) &&& BTREE_INSERT_ATOMIC =
      BTREE_INSERT_ATOMIC := by decide
  rw [this]

theorem mark_replicas_walk_ret (env : trans_commit_env) (k : Nat)
    (us : List btree_insert_entry) (idx : Nat)
    (h : (mark_replicas_walk env k us idx).1 ≠ 0) :
    ∃ u ∈ us, (mark_replicas_walk env k us idx).1 = env.bch2_mark_bkey_replicas k u := by
  induction us generalizing idx with
  | nil => simp [mark_replicas_walk] at h
  | cons u us ih =>
    unfold mark_replicas_walk at h ⊢
    simp only at h ⊢
    split_ifs at h ⊢ with hu
    · exact ⟨u, List.mem_cons_self _ _, rfl⟩
    · obtain ⟨v, hv, hv2⟩ := ih _ h
      exact ⟨v, List.mem_cons_of_mem _ hv, hv2⟩

/-- The value the end of `bch2_trans_commit_error` returns with when `ret` is `-EINTR`:
the error of the traversal, else 0 without `BTREE_INSERT_ATOMIC`, else `-EINTR`. -/
theorem commit_error_restart_fst (env : trans_commit_env) (k flags : Nat)
    (evs : List trans_commit_event) :
    ((commit_error_restart env k flags evs).1 = env.bch2_btree_iter_traverse_all k ∧
      env.bch2_btree_iter_traverse_all k ≠ 0) ∨
    ((commit_error_restart env k flags evs).1 = 0 ∧
      has_flag flags BTREE_INSERT_ATOMIC = false ∧ env.bch2_btree_iter_traverse_all k = 0) ∨
    ((commit_error_restart env k flags evs).1 = -EINTR ∧
      has_flag flags BTREE_INSERT_ATOMIC = true ∧ env.bch2_btree_iter_traverse_all k = 0) := by
  unfold commit_error_restart
  simp only
  by_cases h1 : env.bch2_btree_iter_traverse_all k = 0
  · rw [if_neg (by simpa using h1)]
    cases hf : has_flag flags BTREE_INSERT_ATOMIC
    · exact Or.inr (Or.inl ⟨by simp, rfl, h1⟩)
    · exact Or.inr (Or.inr ⟨by simp, rfl, h1⟩)
  · rw [if_pos h1]
    exact Or.inl ⟨rfl, h1⟩

theorem commit_error_restart_masked (env : trans_commit_env) (k : Nat) (trans : btree_trans)
    (evs : List trans_commit_event) (ret' : Int) (hevs : List trans_commit_event)
    (hp : commit_error_restart env k
      (trans.flags &&& ((2 ^ 32 - 1) ^^^ BTREE_INSERT_NOUNLOCK)) evs = (ret', hevs)) :
    (ret' = 0 ∧ has_flag trans.flags BTREE_INSERT_ATOMIC = false ∧
      env.bch2_btree_iter_traverse_all k = 0) ∨
    (ret' = -EINTR ∧ has_flag trans.flags BTREE_INSERT_ATOMIC = true ∧
      env.bch2_btree_iter_traverse_all k = 0) ∨
    (ret' ≠ 0 ∧ ret' = env.bch2_btree_iter_traverse_all k) := by
  have h1 : (commit_error_restart env k
      (trans.flags &&& ((2 ^ 32 - 1) ^^^ BTREE_INSERT_NOUNLOCK)) evs).1 = ret' := by rw [hp]
  rcases commit_error_restart_fst env k
      (trans.flags &&& ((2 ^ 32 - 1) ^^^ BTREE_INSERT_NOUNLOCK)) evs with a | a | a
  · rw [h1] at a
    exact Or.inr (Or.inr ⟨by rw [a.1]; exact a.2, a.1⟩)
  · rw [h1, has_flag_nounlock_mask] at a
    exact Or.inl a
  · rw [h1, has_flag_nounlock_mask] at a
    exact Or.inr (Or.inl a)

/-- The values `bch2_trans_commit_error` returns. It returns 0, which makes
`__bch2_trans_commit` start another attempt, in two situations only: after the locks
were dropped for a replicas marking or a journal reservation and `bch2_trans_relock`
took them again, or, without `BTREE_INSERT_ATOMIC`, after a successful traversal that
follows a restart. Any other value is `-EINTR` under `BTREE_INSERT_ATOMIC` after a
successful traversal, or an error: of the traversal, of the split, `-ENOSPC`, of the
replicas marking, of the journal reservation, or the negative value it was given. -/
theorem commit_error_cases (env : trans_commit_env) (k : Nat) (trans : btree_trans)
    (i : Option Nat) (ret : Int) (ret' : Int) (hevs : List trans_commit_event)
    (h : bch2_trans_commit_error env k trans i ret = .ok (ret', hevs)) :
    (ret' = 0 ∧
      (ret = BTREE_INSERT_NEED_MARK_REPLICAS ∨ ret = BTREE_INSERT_NEED_JOURNAL_RES) ∧
      (env.attempt k).bch2_trans_relock = true ∧
      trans_commit_event.commit .trans_unlock ∈ hevs ∧
      trans_commit_event.commit .trans_relock ∈ hevs) ∨
    (ret' = 0 ∧ has_flag trans.flags BTREE_INSERT_ATOMIC = false ∧
      env.bch2_btree_iter_traverse_all k = 0) ∨
    (ret' = -EINTR ∧ has_flag trans.flags BTREE_INSERT_ATOMIC = true ∧
      env.bch2_btree_iter_traverse_all k = 0) ∨
    (ret' ≠ 0 ∧ ret' = env.bch2_btree_iter_traverse_all k) ∨
    (ret' ≠ 0 ∧ ret' ≠ -EINTR ∧ ∃ it fl, ret' = env.bch2_btree_split_leaf k it fl) ∨
    ret' = -ENOSPC ∨
    (ret' ≠ 0 ∧ ∃ u ∈ trans.updates, ret' = env.bch2_mark_bkey_replicas k u) ∨
    (ret' ≠ 0 ∧ ret' = (bch2_trans_journal_res_get (env.attempt k) trans
      { nonblock := false, check := true, reserved := false }).1) ∨
    (ret' < 0 ∧ ret' ≠ -EINTR ∧ ret' = ret) := by
  have hR := fun evs hp => commit_error_restart_masked env k trans evs ret' hevs hp
  unfold bch2_trans_commit_error at h
  simp only at h
  by_cases c1 : ret = BTREE_INSERT_BTREE_NODE_FULL
  · rw [if_pos c1] at h
    cases i with
    | none => cases h
    | some i0 =>
      simp only at h
      split_ifs at h with c
      · rcases hR _ (Except.ok.inj h) with a | a | a
        · exact Or.inr (Or.inl a)
        · exact Or.inr (Or.inr (Or.inl a))
        · exact Or.inr (Or.inr (Or.inr (Or.inl a)))
      · obtain ⟨rfl, _⟩ := Prod.mk.inj (Except.ok.inj h)
        simp only [Bool.or_eq_true, decide_eq_true_eq, not_or] at c
        exact Or.inr (Or.inr (Or.inr (Or.inr (Or.inl ⟨c.1.1, c.1.2, _, _, rfl⟩))))
  · rw [if_neg c1] at h
    by_cases c2 : ret = BTREE_INSERT_ENOSPC
    · rw [if_pos c2] at h
      obtain ⟨rfl, _⟩ := Prod.mk.inj (Except.ok.inj h)
      exact Or.inr (Or.inr (Or.inr (Or.inr (Or.inr (Or.inl rfl)))))
    · rw [if_neg c2] at h
      by_cases c3 : ret = BTREE_INSERT_NEED_MARK_REPLICAS
      · rw [if_pos c3] at h
        split_ifs at h with d1 d2
        · obtain ⟨rfl, _⟩ := Prod.mk.inj (Except.ok.inj h)
          exact Or.inr (Or.inr (Or.inr (Or.inr (Or.inr (Or.inr (Or.inl
            ⟨d1, mark_replicas_walk_ret env k trans.updates 0 d1⟩))))))
        · obtain ⟨rfl, rfl⟩ := Prod.mk.inj (Except.ok.inj h)
          exact Or.inl ⟨rfl, Or.inl c3, d2, by simp, by simp⟩
        · rcases hR _ (Except.ok.inj h) with a | a | a
          · exact Or.inr (Or.inl a)
          · exact Or.inr (Or.inr (Or.inl a))
          · exact Or.inr (Or.inr (Or.inr (Or.inl a)))
      · rw [if_neg c3] at h
        by_cases c4 : ret = BTREE_INSERT_NEED_JOURNAL_RES
        · rw [if_pos c4] at h
          split_ifs at h with d1 d2
          · obtain ⟨rfl, _⟩ := Prod.mk.inj (Except.ok.inj h)
            exact Or.inr (Or.inr (Or.inr (Or.inr (Or.inr (Or.inr (Or.inr (Or.inl
              ⟨d1, rfl⟩)))))))
          · obtain ⟨rfl, rfl⟩ := Prod.mk.inj (Except.ok.inj h)
            exact Or.inl ⟨rfl, Or.inr c4, d2, by simp, by simp⟩
          · rcases hR _ (Except.ok.inj h) with a | a | a
            · exact Or.inr (Or.inl a)
            · exact Or.inr (Or.inr (Or.inl a))
            · exact Or.inr (Or.inr (Or.inr (Or.inl a)))
        · rw [if_neg c4] at h
          split_ifs at h with d1 d2
          · rcases hR _ (Except.ok.inj h) with a | a | a
            · exact Or.inr (Or.inl a)
            · exact Or.inr (Or.inr (Or.inl a))
            · exact Or.inr (Or.inr (Or.inr (Or.inl a)))
          · obtain ⟨rfl, _⟩ := Prod.mk.inj (Except.ok.inj h)
            exact Or.inr (Or.inr (Or.inr (Or.inr (Or.inr (Or.inr (Or.inr (Or.inr
              ⟨by omega, d2, rfl⟩)))))))

/-! ## C13: internal retries under BTREE_INSERT_ATOMIC -/

/-- C13 (code evaluated at the failing input). The example transaction is committed
with `BTREE_INSERT_ATOMIC`; its first attempt fails for want of a journal reservation,
the handling of that failure drops the locks (`bch2_trans_unlock`), blocks for the
reservation and takes the locks again (`bch2_trans_relock`), and
`__bch2_trans_commit` then starts a second attempt internally, which succeeds: it
returns 0 after two attempts, not `-EINTR`, although the locks were dropped and
retaken before the update. -/
theorem atomic_retry_counterexample :
    has_flag state_atomic.trans.flags BTREE_INSERT_ATOMIC = true ∧
    ∃ r, __bch2_trans_commit tc_env_jres 4 4 state_atomic = some (.ok r) ∧ r.ret = 0 ∧
      r.attempts = 2 ∧
      r.events =
        [.writes_tryget true,
         .commit (.journal_preres_get 0 { nonblock := true, check := false, reserved := false }),
         .commit (.lock_write 10),
         .commit (.journal_res_get 5 { nonblock := true, check := false, reserved := false }),
         .commit (.unlock_write 10), .commit .journal_res_put,
         .commit .trans_unlock,
         .commit (.journal_res_get 5 { nonblock := false, check := true, reserved := false }),
         .commit .trans_relock,
         .commit (.journal_preres_get 0 { nonblock := true, check := false, reserved := false }),
         .commit (.lock_write 10),
         .commit (.journal_res_get 5 { nonblock := true, check := false, reserved := false }),
         .commit (.insert_one 0), .commit (.unlock_write 10), .commit .journal_res_put,
         .commit (.maybe_merge 0), .commit (.iter_downgrade 0),
         .journal_preres_put, .writes_put, .unlink_iters] :=
  ⟨by decide, _, rfl, by decide, by decide, by decide⟩

/-- Where an internal retry under `BTREE_INSERT_ATOMIC` can come from. Take a transaction
committed with `BTREE_INSERT_ATOMIC` whose attempt number `k` fails (returns the
nonzero value `a.ret`). Then one of three things holds. Either the failure was a needed
replicas marking or a needed journal reservation and `bch2_trans_relock` took again
the locks dropped for it: the only case in which another attempt can be started
internally. Or the error handling stops on an assertion. Or `__bch2_trans_commit` makes
no further attempt (it returns after `k + 1` attempts) and returns a nonzero value:
`-EINTR`, or an error (of the traversal, of the split, `-ENOSPC`, of the replicas
marking, of the journal reservation, or the negative value of the attempt). -/
theorem atomic_retry_only_after_relock (env : trans_commit_env) (tf o1 o2 fuel k : Nat)
    (i : Option Nat) (s : trans_state) (evs : List trans_commit_event) (a : commit_result)
    (hat : has_flag s.trans.flags BTREE_INSERT_ATOMIC = true)
    (hd : do_bch2_trans_commit (env.attempt k) tf { s.trans with journal_u64s := 0 } = some a)
    (h0 : a.ret ≠ 0) :
    ((a.ret = BTREE_INSERT_NEED_MARK_REPLICAS ∨ a.ret = BTREE_INSERT_NEED_JOURNAL_RES) ∧
      (env.attempt k).bch2_trans_relock = true) ∨
    (∃ b, trans_commit_retry env tf o1 o2 (fuel + 1) k i s evs = some (.error b)) ∨
    (∃ r, trans_commit_retry env tf o1 o2 (fuel + 1) k i s evs = some (.ok r) ∧
      r.ret ≠ 0 ∧ r.attempts = k + 1 ∧
      (r.ret = -EINTR ∨ r.ret = env.bch2_btree_iter_traverse_all k ∨
        (∃ it fl, r.ret = env.bch2_btree_split_leaf k it fl) ∨ r.ret = -ENOSPC ∨
        (∃ u ∈ a.trans.updates, r.ret = env.bch2_mark_bkey_replicas k u) ∨
        r.ret = (bch2_trans_journal_res_get (env.attempt k) a.trans
          { nonblock := false, check := true, reserved := false }).1 ∨
        r.ret = a.ret)) := by
  have hfl : a.trans.flags = s.trans.flags :=
    do_bch2_trans_commit_flags _ _ { s.trans with journal_u64s := 0 } _ hd
  unfold trans_commit_retry
  rw [hd]
  simp only
  rw [if_neg h0]
  split
  · rename_i b _
    exact Or.inr (Or.inl ⟨b, rfl⟩)
  · rename_i ret' hevs he
    have hcases := commit_error_cases _ _ _ _ _ _ _ he
    rw [hfl, hat] at hcases
    have hsum : ((a.ret = BTREE_INSERT_NEED_MARK_REPLICAS ∨
          a.ret = BTREE_INSERT_NEED_JOURNAL_RES) ∧
          (env.attempt k).bch2_trans_relock = true) ∨
        (ret' ≠ 0 ∧
          (ret' = -EINTR ∨ ret' = env.bch2_btree_iter_traverse_all k ∨
            (∃ it fl, ret' = env.bch2_btree_split_leaf k it fl) ∨ ret' = -ENOSPC ∨
            (∃ u ∈ a.trans.updates, ret' = env.bch2_mark_bkey_replicas k u) ∨
            ret' = (bch2_trans_journal_res_get (env.attempt k) a.trans
              { nonblock := false, check := true, reserved := false }).1 ∨
            ret' = a.ret)) := by
      rcases hcases with c | c | c | c | c | c | c | c | c
      · exact Or.inl ⟨c.2.1, c.2.2.1⟩
      · exact absurd c.2.1 (by simp)
      · exact Or.inr ⟨by rw [c.1]; decide, Or.inl c.1⟩
      · exact Or.inr ⟨c.1, Or.inr (Or.inl c.2)⟩
      · exact Or.inr ⟨c.1, Or.inr (Or.inr (Or.inl c.2.2))⟩
      · exact Or.inr ⟨by rw [c]; decide, Or.inr (Or.inr (Or.inr (Or.inl c)))⟩
      · exact Or.inr ⟨c.1, Or.inr (Or.inr (Or.inr (Or.inr (Or.inl c.2))))⟩
      · exact Or.inr ⟨c.1, Or.inr (Or.inr (Or.inr (Or.inr (Or.inr (Or.inl c.2)))))⟩
      · exact Or.inr ⟨by omega, Or.inr (Or.inr (Or.inr (Or.inr (Or.inr (Or.inr c.2.2)))))⟩
    rcases hsum with c | ⟨hne, hD⟩
    · exact Or.inl c
    · have hc : (has_flag a.trans.flags BTREE_INSERT_NO_CLEAR_REPLICAS && ret' == 0) = false := by
        simp [hne]
      rw [hc]
      simp only [Bool.false_eq_true, if_false]
      rw [if_pos hne]
      exact Or.inr (Or.inr ⟨_, rfl, hne, rfl, hD⟩)

/-- Example of the sibling path: the example transaction committed with
`BTREE_INSERT_ATOMIC` while no leaf has room: the only attempt stops on a full node
(`BTREE_INSERT_BTREE_NODE_FULL`), the split needs a restart, and
`__bch2_trans_commit` returns `-EINTR` after that one attempt. -/
theorem atomic_retry_only_after_relock_witness :
    has_flag state_atomic.trans.flags BTREE_INSERT_ATOMIC = true ∧
    ∃ a, do_bch2_trans_commit (tc_env_full.attempt 0) 4
        { state_atomic.trans with journal_u64s := 0 } = some a ∧
      a.ret = BTREE_INSERT_BTREE_NODE_FULL ∧ a.ret ≠ 0 ∧
      (((a.ret = BTREE_INSERT_NEED_MARK_REPLICAS ∨ a.ret = BTREE_INSERT_NEED_JOURNAL_RES) ∧
        (tc_env_full.attempt 0).bch2_trans_relock = true) ∨
      (∃ b, trans_commit_retry tc_env_full 4 1 0 (3 + 1) 0 none state_atomic
        [.writes_tryget true] = some (.error b)) ∨
      (∃ r, trans_commit_retry tc_env_full 4 1 0 (3 + 1) 0 none state_atomic
          [.writes_tryget true] = some (.ok r) ∧
        r.ret ≠ 0 ∧ r.attempts = 0 + 1 ∧
        (r.ret = -EINTR ∨ r.ret = tc_env_full.bch2_btree_iter_traverse_all 0 ∨
          (∃ it fl, r.ret = tc_env_full.bch2_btree_split_leaf 0 it fl) ∨ r.ret = -ENOSPC ∨
          (∃ u ∈ a.trans.updates, r.ret = tc_env_full.bch2_mark_bkey_replicas 0 u) ∨
          r.ret = (bch2_trans_journal_res_get (tc_env_full.attempt 0) a.trans
            { nonblock := false, check := true, reserved := false }).1 ∨
          r.ret = a.ret))) :=
  ⟨by decide, _, rfl, by decide, by decide,
    atomic_retry_only_after_relock tc_env_full 4 1 0 3 0 none state_atomic
      [.writes_tryget true] _ (by decide) rfl (by decide)⟩

/-- The example commit with `BTREE_INSERT_ATOMIC` on full leaves returns `-EINTR` after
one attempt. -/
theorem atomic_node_full_example :
    ∃ r, __bch2_trans_commit tc_env_full 4 4 state_atomic = some (.ok r) ∧
      r.ret = -EINTR ∧ r.attempts = 1 ∧ r.state.trans.updates = [] :=
  ⟨_, rfl, by decide, by decide, by decide⟩

/-! ## C12: `-EINTR` without BTREE_INSERT_ATOMIC -/

/-- C12 (code evaluated at the failing inputs). With the flags
`BTREE_INSERT_NO_CLEAR_REPLICAS` (no `BTREE_INSERT_ATOMIC`) and full leaves, the error
handling of the first attempt returns 0 and `__bch2_trans_commit` turns that into
`-EINTR` instead of starting another attempt: it returns `-EINTR` without
`BTREE_INSERT_ATOMIC`. And without `BTREE_INSERT_ATOMIC` (flags 0, or
`BTREE_INSERT_LAZY_RW` alone)
an `-EINTR` returned by a collaborator is passed on to the caller: by
`bch2_mark_bkey_replicas` when the first attempt asks for a replicas marking, by
`bch2_btree_iter_traverse_all` after a split, by the blocking `bch2_journal_res_get`
of the error handling, by `bch2_fs_read_write_early`. -/
theorem non_atomic_eintr_counterexample :
    (has_flag state_no_clear.trans.flags BTREE_INSERT_ATOMIC = false ∧
      ∃ r, __bch2_trans_commit tc_env_full 4 4 state_no_clear = some (.ok r) ∧
        r.ret = -EINTR ∧ r.attempts = 1) ∧
    (has_flag state_deltas.trans.flags BTREE_INSERT_ATOMIC = false ∧
      ∃ r, __bch2_trans_commit tc_env_mark_eintr 4 4 state_deltas = some (.ok r) ∧
        r.ret = -EINTR ∧ r.attempts = 1) ∧
    (has_flag state_one.trans.flags BTREE_INSERT_ATOMIC = false ∧
      ∃ r, __bch2_trans_commit tc_env_traverse_eintr 4 4 state_one = some (.ok r) ∧
        r.ret = -EINTR ∧ r.attempts = 1) ∧
    (∃ r, __bch2_trans_commit tc_env_res_eintr 4 4 state_one = some (.ok r) ∧
        r.ret = -EINTR ∧ r.attempts = 1) ∧
    (has_flag state_lazy.trans.flags BTREE_INSERT_ATOMIC = false ∧
      ∃ r, __bch2_trans_commit tc_env_early_eintr 4 4 state_lazy = some (.ok r) ∧
        r.ret = -EINTR ∧ r.attempts = 0) :=
  ⟨⟨by decide, _, rfl, by decide, by decide⟩, ⟨by decide, _, rfl, by decide, by decide⟩,
    ⟨by decide, _, rfl, by decide, by decide⟩, ⟨_, rfl, by decide, by decide⟩,
    ⟨by decide, _, rfl, by decide, by decide⟩⟩

theorem trans_journal_res_get_ne_eintr (env : commit_env) (trans : btree_trans)
    (flags : journal_res_flags) (hf : flags.check = true)
    (h : ∀ u f, f.check = true → env.bch2_journal_res_get u f ≠ -EINTR) :
    (bch2_trans_journal_res_get env trans flags).1 ≠ -EINTR := by
  unfold bch2_trans_journal_res_get
  simp only
  split_ifs
  all_goals first
    | decide
    | exact h _ _ hf

/-- The retry loop of `__bch2_trans_commit` never returns `-EINTR` without
`BTREE_INSERT_ATOMIC` and `BTREE_INSERT_NO_CLEAR_REPLICAS`, when no collaborator of the
error handling returns `-EINTR` itself. -/
theorem trans_commit_retry_no_eintr (env : trans_commit_env) (tf o1 o2 : Nat)
    (htrav : ∀ k, env.bch2_btree_iter_traverse_all k ≠ -EINTR)
    (hmark : ∀ k u, env.bch2_mark_bkey_replicas k u ≠ -EINTR)
    (hres : ∀ k u f, f.check = true → (env.attempt k).bch2_journal_res_get u f ≠ -EINTR)
    (fuel k : Nat) (i : Option Nat) (s : trans_state) (evs : List trans_commit_event)
    (hat : has_flag s.trans.flags BTREE_INSERT_ATOMIC = false)
    (hncr : has_flag s.trans.flags BTREE_INSERT_NO_CLEAR_REPLICAS = false)
    (r : trans_commit_result)
    (h : trans_commit_retry env tf o1 o2 fuel k i s evs = some (.ok r)) :
    r.ret ≠ -EINTR := by
  induction fuel generalizing k i s evs with
  | zero => simp [trans_commit_retry] at h
  | succ fuel ih =>
    unfold trans_commit_retry at h
    cases hd : do_bch2_trans_commit (env.attempt k) tf { s.trans with journal_u64s := 0 } with
    | none => rw [hd] at h; simp at h
    | some a =>
      rw [hd] at h
      have hfl : a.trans.flags = s.trans.flags :=
        do_bch2_trans_commit_flags _ _ { s.trans with journal_u64s := 0 } _ hd
      simp only at h
      by_cases h0 : a.ret = 0
      · rw [if_pos h0] at h
        simp only [Option.some.injEq, Except.ok.injEq] at h
        subst h
        simp [trans_commit_out, EINTR]
      · rw [if_neg h0] at h
        split at h
        · cases h
        · rename_i ret' hevs he
          have hcases := commit_error_cases _ _ _ _ _ _ _ he
          rw [hfl, hat] at hcases
          have hc : (has_flag a.trans.flags BTREE_INSERT_NO_CLEAR_REPLICAS && ret' == 0) =
              false := by
            rw [hfl, hncr]; rfl
          simp only [hc, Bool.false_eq_true, if_false] at h
          by_cases hz : ret' = 0
          · rw [if_neg (by simpa using hz)] at h
            exact ih _ _ _ _ (by simpa [hfl] using hat) (by simpa [hfl] using hncr) h
          · rw [if_pos hz] at h
            simp only [Option.some.injEq, Except.ok.injEq] at h
            subst h
            show ret' ≠ -EINTR
            rcases hcases with c | c | c | c | c | c | c | c | c
            · exact absurd c.1 hz
            · exact absurd c.1 hz
            · exact absurd c.2.1 (by simp)
            · rw [c.2]; exact htrav k
            · exact c.2.1
            · rw [c]; decide
            · obtain ⟨u, _, hu⟩ := c.2
              rw [hu]; exact hmark k u
            · rw [c.2]
              exact trans_journal_res_get_ne_eintr _ _ _ rfl (hres k)
            · exact c.2.1

theorem get_rw_cold_flags (env : trans_commit_env) (s : trans_state) :
    (bch2_trans_commit_get_rw_cold env s).2.1.trans.flags = s.trans.flags := by
  unfold bch2_trans_commit_get_rw_cold
  simp only
  split_ifs <;> rfl

theorem get_rw_cold_ret (env : trans_commit_env) (s : trans_state) :
    (bch2_trans_commit_get_rw_cold env s).1 = -EROFS ∨
    (bch2_trans_commit_get_rw_cold env s).1 = env.bch2_fs_read_write_early ∨
    (bch2_trans_commit_get_rw_cold env s).1 = 0 := by
  unfold bch2_trans_commit_get_rw_cold
  simp only
  split_ifs
  · exact Or.inl rfl
  · exact Or.inr (Or.inl rfl)
  · exact Or.inr (Or.inr rfl)

/-- Outside the paths evaluated above no `-EINTR` is returned. For every
transaction whose flags include neither `BTREE_INSERT_ATOMIC` nor
`BTREE_INSERT_NO_CLEAR_REPLICAS`, and whatever the other flags, `__bch2_trans_commit`
never returns `-EINTR`, provided none of the collaborators whose error it passes on
(`bch2_fs_read_write_early`, `bch2_btree_iter_traverse_all`,
`bch2_mark_bkey_replicas`, the blocking `bch2_journal_res_get` of the error handling)
returns `-EINTR` itself. -/
theorem non_atomic_never_eintr (env : trans_commit_env) (tf fuel : Nat) (s : trans_state)
    (hat : has_flag s.trans.flags BTREE_INSERT_ATOMIC = false)
    (hncr : has_flag s.trans.flags BTREE_INSERT_NO_CLEAR_REPLICAS = false)
    (hearly : env.bch2_fs_read_write_early ≠ -EINTR)
    (htrav : ∀ k, env.bch2_btree_iter_traverse_all k ≠ -EINTR)
    (hmark : ∀ k u, env.bch2_mark_bkey_replicas k u ≠ -EINTR)
    (hres : ∀ k u f, f.check = true → (env.attempt k).bch2_journal_res_get u f ≠ -EINTR)
    (r : trans_commit_result) (h : __bch2_trans_commit env tf fuel s = some (.ok r)) :
    r.ret ≠ -EINTR := by
  have hloop := trans_commit_retry_no_eintr env tf s.trans.updates.length s.mem_top
    htrav hmark hres
  unfold __bch2_trans_commit at h
  simp only at h
  split_ifs at h with h1 h2 h3 h4
  · simp only [Option.some.injEq, Except.ok.injEq] at h
    subst h
    simp [trans_commit_out, EINTR]
  · exact hloop _ _ _ _ _ hat hncr r h
  · exact hloop _ _ _ _ _ hat hncr r h
  · simp only [Option.some.injEq, Except.ok.injEq] at h
    subst h
    show (bch2_trans_commit_get_rw_cold env s).1 ≠ -EINTR
    rcases get_rw_cold_ret env s with c | c | c
    · rw [c]; decide
    · rw [c]; exact hearly
    · rw [c]; decide
  · refine hloop _ _ _ _ _ ?_ ?_ r h
    · rw [get_rw_cold_flags]; exact hat
    · rw [get_rw_cold_flags]; exact hncr

/-- Example of a commit that returns no `-EINTR`: the example transaction committed
with the flags 0 and the example collaborators, which return no `-EINTR`; the commit
returns 0. -/
theorem non_atomic_never_eintr_witness :
    has_flag state_one.trans.flags BTREE_INSERT_ATOMIC = false ∧
    has_flag state_one.trans.flags BTREE_INSERT_NO_CLEAR_REPLICAS = false ∧
    tc_env_ex.bch2_fs_read_write_early ≠ -EINTR ∧
    (∀ k, tc_env_ex.bch2_btree_iter_traverse_all k ≠ -EINTR) ∧
    (∀ k u, tc_env_ex.bch2_mark_bkey_replicas k u ≠ -EINTR) ∧
    (∀ k u f, f.check = true → (tc_env_ex.attempt k).bch2_journal_res_get u f ≠ -EINTR) ∧
    ∃ r, __bch2_trans_commit tc_env_ex 4 4 state_one = some (.ok r) ∧ r.ret = 0 ∧
      r.ret ≠ -EINTR :=
  have h1 : ∀ k, tc_env_ex.bch2_btree_iter_traverse_all k ≠ -EINTR := fun _ => by
    show (0 : Int) ≠ -EINTR
    decide
  have h2 : ∀ k u, tc_env_ex.bch2_mark_bkey_replicas k u ≠ -EINTR := fun _ _ => by
    show (0 : Int) ≠ -EINTR
    decide
  have h3 : ∀ k u f, f.check = true →
      (tc_env_ex.attempt k).bch2_journal_res_get u f ≠ -EINTR :=
    fun _ _ _ _ => by
      show (0 : Int) ≠ -EINTR
      decide
  ⟨by decide, by decide, by decide, h1, h2, h3, _, rfl, by decide,
    non_atomic_never_eintr tc_env_ex 4 4 state_one (by decide) (by decide) (by decide)
      h1 h2 h3 _ rfl⟩

/-! ## C21: the size of the journal pre-reservation -/

theorem preres_requests_append (a b : List commit_event) :
    preres_requests (a ++ b) = preres_requests a ++ preres_requests b := by
  simp [preres_requests, List.filterMap_append]

theorem preres_requests_eq_nil (evs : List commit_event)
    (h : ∀ e ∈ evs, ∀ u f, e ≠ .journal_preres_get u f) : preres_requests evs = [] := by
  induction evs with
  | nil => rfl
  | cons e evs ih =>
    have he := h e (List.mem_cons_self _ _)
    have hrec := ih (fun e' he' => h e' (List.mem_cons_of_mem _ he'))
    cases e <;> simp_all [preres_requests]

theorem preres_requests_ite (c : Prop) [Decidable c] (a b : List commit_event) :
    preres_requests (if c then a else b) =
      if c then preres_requests a else preres_requests b := by
  split <;> rfl

theorem write_locked_preres (env : commit_env) (trans : btree_trans) :
    preres_requests (bch2_trans_commit_write_locked env trans).events = [] := by
  have hres : ∀ fl, preres_requests [(bch2_trans_journal_res_get env trans fl).2] = [] :=
    fun fl => rfl
  have htrig : preres_requests ((List.range trans.updates.length).filterMap (fun i =>
      if !has_flag trans.flags BTREE_INSERT_NOMARK &&
          update_has_nontrans_triggers env trans (trans.updates.getD i default) then
        some (commit_event.mark_update i)
      else none)) = [] := by
    apply preres_requests_eq_nil
    intro e he u f hcon
    subst hcon
    simp only [List.mem_filterMap] at he
    obtain ⟨i, _, hi⟩ := he
    split at hi <;> simp at hi
  have hgc : preres_requests (bch2_trans_mark_gc env trans) = [] := by
    apply preres_requests_eq_nil
    intro e he u f hcon
    subst hcon
    unfold bch2_trans_mark_gc at he
    split at he
    · simp at he
    · simp only [List.mem_filterMap] at he
      obtain ⟨i, _, hi⟩ := he
      split at hi <;> simp at hi
  have hins : preres_requests ((List.range trans.updates.length).map
      (fun i => commit_event.insert_one i)) = [] := by
    apply preres_requests_eq_nil
    intro e he u f hcon
    subst hcon
    simp at he
  unfold bch2_trans_commit_write_locked
  split
  · rfl
  · split
    · rfl
    · simp only
      split_ifs
      all_goals
        simp only [preres_requests_append, preres_requests_ite, hres, htrig, hgc, hins]
        simp [preres_requests]

theorem preres_requests_map_nil (l : List Nat) (g : Nat → commit_event)
    (h : ∀ i u f, g i ≠ .journal_preres_get u f) : preres_requests (l.map g) = [] := by
  apply preres_requests_eq_nil
  intro e he u f hcon
  obtain ⟨i, _, hi⟩ := List.mem_map.mp he
  exact h i u f (hi.trans hcon)

theorem commit_locked_preres (env : commit_env) (trans : btree_trans) :
    preres_requests (do_bch2_trans_commit_locked env trans).events = [] := by
  have hread : preres_requests (env.all_iters.filterMap (fun it =>
      if (trans.iters it).nodes_locked ≠ (trans.iters it).nodes_intent_locked then
        some (commit_event.iter_unlock it) else none)) = [] := by
    apply preres_requests_eq_nil
    intro e he u f hcon
    subst hcon
    simp only [List.mem_filterMap] at he
    obtain ⟨i, _, hi⟩ := he
    split at hi <;> simp at hi
  unfold do_bch2_trans_commit_locked
  simp only [write_locked_trans]
  split
  · simp only [preres_requests_append, hread, write_locked_preres]
    rw [preres_requests_map_nil _ _ (by intro i u f; simp),
      preres_requests_map_nil _ _ (by intro i u f; simp)]
    rfl
  · simp only [preres_requests_append, hread, write_locked_preres]
    rw [preres_requests_map_nil _ _ (by intro i u f; simp),
      preres_requests_map_nil _ _ (by intro i u f; simp),
      preres_requests_map_nil _ _ (by intro i u f; simp)]
    have : preres_requests ((btree_trans_sort_updates env trans).updates.map
        (fun u => commit_event.iter_downgrade u.iter)) = [] := by
      apply preres_requests_eq_nil
      intro e he u f hcon
      subst hcon
      simp at he
    rw [this]
    rfl

theorem commit_triggers_preres (env : commit_env) (fuel i : Nat) (trans : btree_trans)
    (evs : List commit_event) (ret : Int) (trans' : btree_trans) (evs' : List commit_event)
    (h : do_bch2_trans_commit_triggers env fuel i trans evs = some (ret, trans', evs')) :
    preres_requests evs' = preres_requests evs := by
  obtain ⟨added, h1, h2⟩ := commit_triggers_events env fuel i trans evs ret trans' evs' h
  rw [h1, preres_requests_append, preres_requests_eq_nil added, List.append_nil]
  intro e he u f hcon
  obtain ⟨k, hk⟩ := h2 e he
  rw [hk] at hcon
  cases hcon

theorem drop_append_getD (l x : List btree_insert_entry) (i : Nat) (hi : i < l.length) :
    (l ++ x).drop i = l.getD i default :: (l ++ x).drop (i + 1) := by
  rw [List.drop_append_of_le_length (by omega), List.drop_append_of_le_length (by omega),
    List.getD_eq_getElem _ _ hi, ← List.cons_append, ← List.drop_eq_getElem_cons hi]

/-- The trigger loop of `do_bch2_trans_commit`, when it runs to the end, has added to
`trans->journal_u64s` the total encoded size of the pending updates it walked (those
registered and those the triggers appended), and only appended to the updates. -/
theorem commit_triggers_journal_u64s (env : commit_env) (fuel i : Nat) (trans : btree_trans)
    (evs : List commit_event) (trans' : btree_trans) (evs' : List commit_event)
    (h : do_bch2_trans_commit_triggers env fuel i trans evs = some (0, trans', evs')) :
    trans'.journal_u64s = trans.journal_u64s + updates_jset_u64s env trans' i ∧
    ∃ added, trans'.updates = trans.updates ++ added := by
  induction fuel generalizing i trans evs with
  | zero => simp [do_bch2_trans_commit_triggers] at h
  | succ fuel ih =>
    unfold do_bch2_trans_commit_triggers at h
    simp only at h
    by_cases hi : i < trans.updates.length
    · rw [if_pos hi] at h
      split_ifs at h
      all_goals first
        | (have hrec := ih _ _ _ h
           obtain ⟨h1, added, h2⟩ := hrec
           simp only at h1 h2
           have hX : ∃ X, trans'.updates = trans.updates ++ X := by
             first
               | exact ⟨added, h2⟩
               | exact ⟨_, h2.trans (List.append_assoc _ _ _)⟩
           obtain ⟨X, hX⟩ := hX
           refine ⟨?_, X, hX⟩
           rw [h1]
           unfold updates_jset_u64s
           rw [hX, drop_append_getD _ _ _ hi]
           simp only [List.map_cons, List.sum_cons]
           omega)
        | (simp only [Option.some.injEq, Prod.mk.injEq] at h
           obtain ⟨h1, _, _⟩ := h
           exfalso
           first
             | (revert h1; decide)
             | simp_all)
    · rw [if_neg hi] at h
      simp only [Option.some.injEq, Prod.mk.injEq] at h
      obtain ⟨_, rfl, _⟩ := h
      refine ⟨?_, [], by simp⟩
      unfold updates_jset_u64s
      rw [List.drop_eq_nil_of_le (by omega)]
      simp

theorem preres_cold_requests (env : commit_env) (u64s : Nat) :
    preres_requests (bch2_trans_journal_preres_get_cold env u64s).2 = [u64s] := by
  unfold bch2_trans_journal_preres_get_cold
  simp only
  split_ifs <;> rfl

/-- C21, as stated, fails: the example transaction holds one update of 4 u64s, whose
encoded size `jset_u64s(4)` is 5, and the journal refuses the non-blocking
pre-reservation; `do_bch2_trans_commit` asks `bch2_journal_preres_get` for 0 u64s,
and its blocking fallback for 0 u64s again, not for 5. -/
theorem preres_size_counterexample :
    updates_jset_u64s env_preres_again trans_mark 0 = 5 ∧
    ∃ r, do_bch2_trans_commit env_preres_again 4 trans_mark = some r ∧ r.ret = 0 ∧
      preres_requests r.events = [0, 0] :=
  ⟨by decide, _, rfl, by decide, by decide⟩

/-- C21, amended (the pre-reservation is asked with 0 u64s). Whatever the pending
updates, every call of `bch2_journal_preres_get` made by `do_bch2_trans_commit`, the
one of the blocking fallback included, asks for 0 u64s (the addition to
`journal_preres_u64s` is under `if (0)`); when the trigger loop runs to the end there
is one such call, or two with the fallback. The total encoded size of the pending
updates, the sum of `jset_u64s(k->k.u64s)` over them, is what the loop adds to
`trans->journal_u64s`, the size of the journal reservation asked for later. -/
theorem preres_size_zero (env : commit_env) (fuel : Nat) (trans : btree_trans)
    (r : commit_result) (h : do_bch2_trans_commit env fuel trans = some r) :
    (∀ u ∈ preres_requests r.events, u = 0) ∧
    (∀ t1 evs, do_bch2_trans_commit_triggers env fuel 0 trans [] = some (0, t1, evs) →
      (preres_requests r.events = [0] ∨ preres_requests r.events = [0, 0]) ∧
      t1.journal_u64s = trans.journal_u64s + updates_jset_u64s env t1 0) := by
  unfold do_bch2_trans_commit at h
  split at h
  · cases h
  · rename_i ret t1 evs htr
    have hpre := commit_triggers_preres env fuel 0 trans [] ret t1 evs htr
    have hnil : preres_requests evs = [] := hpre
    simp only at h
    have key : preres_requests r.events = [] ∧ ret ≠ 0 ∨
        preres_requests r.events = [0] ∨ preres_requests r.events = [0, 0] := by
      split_ifs at h
      all_goals
        simp only [Option.some.injEq] at h
        subst h
        simp only [preres_requests_append, hnil, preres_cold_requests, commit_locked_preres]
        first
          | (refine Or.inl ⟨trivial, ?_⟩
             assumption)
          | exact Or.inr (Or.inl rfl)
          | exact Or.inr (Or.inr rfl)
    constructor
    · intro u hu
      rcases key with ⟨k, _⟩ | k | k
      · rw [k] at hu; cases hu
      · rw [k] at hu; simpa using hu
      · rw [k] at hu; simpa using hu
    · intro t1' evs' htr'
      rw [htr] at htr'
      simp only [Option.some.injEq, Prod.mk.injEq] at htr'
      obtain ⟨rfl, rfl, rfl⟩ := htr'
      refine ⟨?_, (commit_triggers_journal_u64s env fuel 0 trans [] t1 evs htr).1⟩
      rcases key with ⟨_, k⟩ | k | k
      · exact absurd rfl k
      · exact Or.inl k
      · exact Or.inr k

/-- Witness for C21 (amended): the example transaction with a journal that refuses the
non-blocking pre-reservation. -/
theorem preres_size_zero_witness :
    ∃ r, do_bch2_trans_commit env_preres_again 4 trans_mark = some r ∧
      (∀ u ∈ preres_requests r.events, u = 0) ∧
      (∀ t1 evs, do_bch2_trans_commit_triggers env_preres_again 4 0 trans_mark [] =
          some (0, t1, evs) →
        (preres_requests r.events = [0] ∨ preres_requests r.events = [0, 0]) ∧
        t1.journal_u64s = trans_mark.journal_u64s + updates_jset_u64s env_preres_again t1 0) :=
  ⟨_, rfl, preres_size_zero env_preres_again 4 trans_mark _ rfl⟩

/-! ## C28: a failed split under BTREE_INSERT_NOUNLOCK -/

/-- The test `flags & BTREE_INSERT_NOUNLOCK` of `bch2_trans_commit_error` is made on
the local copy of the flags from which `BTREE_INSERT_NOUNLOCK` has been cleared at the
top of the function: it is false whatever the flags of the transaction. -/
theorem nounlock_test_false (f : Nat) :
    has_flag (f &&& ((2 ^ 32 - 1) ^^^ BTREE_INSERT_NOUNLOCK)) BTREE_INSERT_NOUNLOCK = false := by
  unfold has_flag
  rw [Nat.and_assoc]
  have : ((2 ^ 32 - 1) ^^^ BTREE_INSERT_NOUNLOCK) &&& BTREE_INSERT_NOUNLOCK = 0 := by decide
  rw [this]
  simp

/-- C29 (the re-target branch is safe). Let every pin list's count be at least the number
of pins attached to it, let `src_pin` be attached to the list of seq `a`, a seq of the
window (`front ≤ a`), and let `pin` be inactive or attached to a seq `p > a`, so that
`bch2_journal_pin_add_if_older` takes its re-target branch. Then the internal
`__journal_pin_drop` returns a ledger `j1` without starting fast reclaim: `pin` was
inactive and `j1` is the ledger given, or the list left has a seq `p` that is not the
front of the window, the test that guards `bch2_journal_reclaim_fast` is false and `j1`
is the ledger with the pin detached. In `j1` the pin is inactive and the count of the
list of `a` is nonzero, which are the two assertions of `__journal_pin_add`; the window
of `j1` is that of the ledger given, so `a` is still in it; the internal add returns,
and its result is the result of the whole call. -/
theorem retarget_trips_no_assertion (j : journal n) (src_pin pin : Fin n)
    (flush_fn : Option Nat) (a : Nat)
    (hc : count_ge_attached j) (hw : j.pin.front ≤ a)
    (hs : (j.pins src_pin).pin_list = some a)
    (hp : (j.pins pin).pin_list = none ∨ ∃ p, (j.pins pin).pin_list = some p ∧ a < p) :
    ∃ j1 j', __journal_pin_drop j pin = .ok j1 ∧
      (((j.pins pin).pin_list = none ∧ j1 = j) ∨
        ∃ p, (j.pins pin).pin_list = some p ∧ a < p ∧ p ≠ j.pin.front ∧
          ¬ (((list_del_init j.pin pin).data p).count - 1 = 0 ∧ p = j.pin.front) ∧
          j1 = pin_drop_detached j pin p) ∧
      journal_pin_active (j1.pins pin) = false ∧
      (j1.pin.data a).count ≠ 0 ∧
      j1.pin.front = j.pin.front ∧ j1.pin.back = j.pin.back ∧ j1.pin.front ≤ a ∧
      __journal_pin_add j1 a pin flush_fn = .ok j' ∧
      bch2_journal_pin_add_if_older j src_pin pin flush_fn = .ok j' := by
  have hca := count_pos_of_attached j hc src_pin a hs
  have htake := pin_add_if_older_take j src_pin pin flush_fn a hs hp
  rcases hp with hp | ⟨p, hp, hlt⟩
  · have hd := pin_drop_inactive j pin hp
    obtain ⟨j', hj'⟩ := pin_add_returns j a pin flush_fn hp (by omega)
    refine ⟨j, j', hd, Or.inl ⟨hp, rfl⟩, by simp [journal_pin_active, hp], by omega,
      rfl, rfl, hw, hj', ?_⟩
    rw [htake, hd]
    exact hj'
  · have hne : p ≠ j.pin.front := by omega
    have hd : __journal_pin_drop j pin = .ok (pin_drop_detached j pin p) := by
      rw [pin_drop_active j pin p hp, if_neg (fun h => hne h.2)]
    have hcnt : ((pin_drop_detached j pin p).pin.data a).count ≠ 0 := by
      rw [pin_drop_detached_count, if_neg (by omega)]
      omega
    obtain ⟨j', hj'⟩ := pin_add_returns (pin_drop_detached j pin p) a pin flush_fn
      (by simp) hcnt
    refine ⟨_, j', hd, Or.inr ⟨p, hp, hlt, hne, fun h => hne h.2, rfl⟩,
      by simp [journal_pin_active], hcnt, rfl, rfl, hw, hj', ?_⟩
    rw [htake, hd]
    exact hj'

/-- Witness for C29: on the example ledger pin 0 is attached to seq 5, the front of the
window, and pin 1 to seq 8; re-targeting pin 1 from pin 0 takes the branch. -/
theorem retarget_trips_no_assertion_witness :
    count_ge_attached ledger_ex ∧ ledger_ex.pin.front ≤ 5 ∧
    ∃ j1 j', __journal_pin_drop ledger_ex 1 = .ok j1 ∧
      (((ledger_ex.pins 1).pin_list = none ∧ j1 = ledger_ex) ∨
        ∃ p, (ledger_ex.pins 1).pin_list = some p ∧ 5 < p ∧ p ≠ ledger_ex.pin.front ∧
          ¬ (((list_del_init ledger_ex.pin 1).data p).count - 1 = 0 ∧
            p = ledger_ex.pin.front) ∧
          j1 = pin_drop_detached ledger_ex 1 p) ∧
      journal_pin_active (j1.pins 1) = false ∧
      (j1.pin.data 5).count ≠ 0 ∧
      j1.pin.front = ledger_ex.pin.front ∧ j1.pin.back = ledger_ex.pin.back ∧
      j1.pin.front ≤ 5 ∧
      __journal_pin_add j1 5 1 (some 7) = .ok j' ∧
      bch2_journal_pin_add_if_older ledger_ex 0 1 (some 7) = .ok j' :=
  ⟨ledger_ex_count_ge, by decide,
    retarget_trips_no_assertion ledger_ex 0 1 (some 7) 5 ledger_ex_count_ge (by decide) rfl
      (Or.inr ⟨8, rfl, by decide⟩)⟩

/-! ## C22: the next-pin fetch -/

/-- When the scan of the window `[a, a + k)` returns a pin, it is the head of the active
list of the first seq of the scan whose active list is not empty, that seq is at most
`seq_to_flush`, and the ledger returned is the given one with the pin moved to the
flushed membership of that seq. -/
theorem get_next_pin_scan_first (j : journal n) (seq_to_flush : Nat) (k a : Nat)
    (p : Fin n) (s : Nat)
    (h : (journal_get_next_pin_scan j seq_to_flush (List.range' a k)).2 = some (p, s)) :
    a ≤ s ∧ s < a + k ∧ s ≤ seq_to_flush ∧
    (∃ rest, (j.pin.data s).list = p :: rest) ∧
    (∀ s', a ≤ s' → s' < s → (j.pin.data s').list = []) ∧
    (journal_get_next_pin_scan j seq_to_flush (List.range' a k)).1 =
      { j with pin := list_move_flushed j.pin p s } := by
  induction k generalizing a with
  | zero => simp [List.range', journal_get_next_pin_scan] at h
  | succ k ih =>
    simp only [List.range', journal_get_next_pin_scan] at h ⊢
    split at h
    · cases h
    · rename_i hle
      split at h
      · rename_i ret rest hl
        cases h
        refine ⟨le_refl _, by omega, by omega, ⟨rest, hl⟩, fun s' h1 h2 => by omega, ?_⟩
        rw [if_neg hle]
      · rename_i hl
        obtain ⟨h1, h2, h3, h4, h5, h6⟩ := ih (a + 1) h
        refine ⟨by omega, by omega, h3, h4, ?_, ?_⟩
        · intro s' hs1 hs2
          by_cases e : s' = a
          · subst e; exact hl
          · exact h5 s' (by omega) hs2
        · rw [if_neg hle]
          exact h6

theorem pin_add_list_mem (j j' : journal n) (s : Nat) (p : Fin n) (f : Option Nat)
    (h : __journal_pin_add j s p f = .ok j') (q : Fin n) (u : Nat)
    (hq : q ∈ (j'.pin.data u).list) : q ∈ (j.pin.data u).list ∨ q = p := by
  obtain ⟨_, _, e, _, he2, _, _, rfl⟩ := pin_add_ok j j' s p f h
  simp only [pin_fifo.set_data] at hq
  by_cases hu : u = s
  · subst hu
    rw [if_pos rfl, he2] at hq
    split at hq
    · rcases List.mem_cons.mp hq with e1 | e1
      · exact Or.inr e1
      · exact Or.inl e1
    · exact Or.inl hq
  · rw [if_neg hu] at hq
    exact Or.inl hq

theorem pin_drop_list_mem (j j' : journal n) (p : Fin n)
    (h : __journal_pin_drop j p = .ok j') (q : Fin n) (u : Nat)
    (hq : q ∈ (j'.pin.data u).list) : q ∈ (j.pin.data u).list := by
  cases hp : (j.pins p).pin_list with
  | none =>
    rw [pin_drop_inactive j p hp] at h
    cases h
    exact hq
  | some s =>
    rw [pin_drop_active j p s hp] at h
    have key : ∀ x : journal n, x.pin.data = (pin_drop_detached j p s).pin.data →
        q ∈ (x.pin.data u).list → q ∈ (j.pin.data u).list := by
      intro x hx hm
      rw [hx, pin_drop_detached_list, List.mem_filter] at hm
      exact hm.1
    split at h
    · exact key j' (reclaim_fast_ok _ _ h).2.1 hq
    · cases h
      exact key _ rfl hq

theorem get_next_pin_list_mem (j j' : journal n) (t : Nat) (res : Option (Fin n × Nat))
    (h : __journal_get_next_pin j t = .ok (j', res)) (q : Fin n) (u : Nat)
    (hq : q ∈ (j'.pin.data u).list) : q ∈ (j.pin.data u).list := by
  unfold __journal_get_next_pin at h
  split at h
  · cases h
  · rename_i r hr
    have hd := (reclaim_fast_ok _ _ hr).2.1
    injection h with h
    have hj : j' = (journal_get_next_pin_scan r t
        (List.range' r.pin.front (fifo_used r.pin))).1 := by rw [h]
    rw [hj] at hq
    rcases get_next_pin_scan_cases r t (List.range' r.pin.front (fifo_used r.pin)) with
      h1 | ⟨ret, iter, rest, _, _, _, h4⟩
    · rw [h1, hd] at hq
      exact hq
    · rw [h4] at hq
      simp only [list_move_flushed_list, List.mem_filter] at hq
      rw [hd] at hq
      exact hq.1

/-- A ledger call that does not attach the pin `p` does not link it on an active list. -/
theorem ledger_step_list_mem (j j' : journal n) (op : ledger_op n) (p : Fin n)
    (hop : op_adds p op = false) (h : ledger_step j op = .ok j')
    (hp : ∀ u, p ∉ (j.pin.data u).list) : ∀ u, p ∉ (j'.pin.data u).list := by
  intro u hm
  cases op with
  | pin_add seq pin f =>
    rcases pin_add_list_mem j j' _ pin f h p u hm with h1 | h1
    · exact hp u h1
    · simp [op_adds, h1] at hop
  | pin_drop pin => exact hp u (pin_drop_list_mem j j' pin h p u hm)
  | pin_add_if_older src pin f =>
    simp only [ledger_step] at h
    unfold bch2_journal_pin_add_if_older at h
    split at h
    · cases h; exact hp u hm
    · split at h
      · split at h
        · cases h
        · rename_i j1 hd
          rcases pin_add_list_mem j1 j' _ pin f h p u hm with h1 | h1
          · exact hp u (pin_drop_list_mem j j1 pin hd p u h1)
          · simp [op_adds, h1] at hop
      · cases h; exact hp u hm
  | get_next_pin stf =>
    simp only [ledger_step] at h
    split at h
    · cases h
    · rename_i r hr
      cases h
      exact hp u (get_next_pin_list_mem j r.1 stf r.2 hr p u hm)
  | reclaim_fast =>
    simp only [ledger_step] at h
    rw [(reclaim_fast_ok _ _ h).2.1] at hm
    exact hp u hm

theorem ledger_run_list_mem (ops : List (ledger_op n)) (j j' : journal n) (p : Fin n)
    (hop : ∀ op ∈ ops, op_adds p op = false) (h : ledger_run j ops = .ok j')
    (hp : ∀ u, p ∉ (j.pin.data u).list) : ∀ u, p ∉ (j'.pin.data u).list := by
  induction ops generalizing j with
  | nil => cases h; exact hp
  | cons op ops ih =>
    simp only [ledger_run] at h
    split at h
    · cases h
    · rename_i j1 h1
      exact ih j1 (fun o ho => hop o (List.mem_cons_of_mem _ ho)) h
        (ledger_step_list_mem j j1 op p (hop op (List.mem_cons_self _ _)) h1 hp)

/-- The pin returned by the next-pin fetch was linked on an active list. -/
theorem get_next_pin_some_mem (j j' : journal n) (t : Nat) (q : Fin n) (s : Nat)
    (h : __journal_get_next_pin j t = .ok (j', some (q, s))) :
    q ∈ (j.pin.data s).list := by
  unfold __journal_get_next_pin at h
  split at h
  · cases h
  · rename_i r hr
    have hd := (reclaim_fast_ok _ _ hr).2.1
    injection h with h
    have h2 : (journal_get_next_pin_scan r t (List.range' r.pin.front (fifo_used r.pin))).2 =
        some (q, s) := by rw [h]
    obtain ⟨_, _, _, ⟨rest, hl⟩, _, _⟩ := get_next_pin_scan_first r t _ _ q s h2
    rw [← hd, hl]
    exact List.mem_cons_self _ _

/-- C22 (next-pin fetch). Whenever `__journal_get_next_pin` with target `t` returns,
fast reclaim has returned a ledger `r`, and: the call returns NULL if and only if no pin
list of the window of `r` with a seq `<= t` has a non-empty active list, and then the
ledger is `r`; when it returns the pin `p` and reports the seq `s`, then `s` is a seq of
the window with `s <= t`, `p` is the head of the active list of `s`, every older list of
the window has an empty active list, the pins (back-reference and flush callback of
every pin, `p` included), the window and every count are as before the call, `p` is on
the flushed membership of `s` and on no active list, and every other active membership
is as before; with every active member attached to its list (`links_ok`), `p` is still
active at seq `s`. After any further ledger calls that do not attach `p`, a fetch does
not return `p`. Moreover the call does return when the entries with a zero count have an
empty active list and some entry of the window has a nonzero count. -/
theorem next_pin_oldest_active (j j' : journal n) (t : Nat) (res : Option (Fin n × Nat))
    (h : __journal_get_next_pin j t = .ok (j', res)) :
    (∃ r, bch2_journal_reclaim_fast j = .ok r ∧
      (res = none ↔
        ∀ s, r.pin.front ≤ s → s < r.pin.back → s ≤ t → (r.pin.data s).list = []) ∧
      (res = none → j' = r) ∧
      (∀ p s, res = some (p, s) →
        (r.pin.front ≤ s ∧ s < r.pin.back ∧ s ≤ t) ∧
        (∃ rest, (r.pin.data s).list = p :: rest) ∧
        (∀ s', r.pin.front ≤ s' → s' < s → (r.pin.data s').list = []) ∧
        j'.pins = j.pins ∧ j'.pin.front = r.pin.front ∧ j'.pin.back = r.pin.back ∧
        (∀ u, (j'.pin.data u).count = (j.pin.data u).count) ∧
        (∀ u, (j'.pin.data u).list = (j.pin.data u).list.filter (fun q => q ≠ p)) ∧
        (∀ u, p ∉ (j'.pin.data u).list) ∧
        p ∈ (j'.pin.data s).flushed ∧
        (links_ok j → (j'.pins p).pin_list = some s ∧ bch2_journal_pin_seq j' p = s ∧
          journal_pin_active (j'.pins p) = true) ∧
        (∀ (ops : List (ledger_op n)) (j2 j3 : journal n) (t2 : Nat) (q : Fin n) (s2 : Nat),
          (∀ op ∈ ops, op_adds p op = false) → ledger_run j' ops = .ok j2 →
          __journal_get_next_pin j2 t2 = .ok (j3, some (q, s2)) → q ≠ p))) ∧
    ((∀ s, (j.pin.data s).count = 0 → (j.pin.data s).list = []) →
      (∃ s, j.pin.front ≤ s ∧ s < j.pin.back ∧ (j.pin.data s).count ≠ 0) →
      ∀ t2, ∃ j2 res2, __journal_get_next_pin j t2 = .ok (j2, res2)) := by
  constructor
  · unfold __journal_get_next_pin at h
    split at h
    · cases h
    · rename_i r hr
      obtain ⟨hpins, hdata, hback, _, _, _, _, _⟩ := reclaim_fast_ok _ _ hr
      injection h with h
      have hj : (journal_get_next_pin_scan r t
          (List.range' r.pin.front (fifo_used r.pin))).1 = j' := by rw [h]
      have hres : (journal_get_next_pin_scan r t
          (List.range' r.pin.front (fifo_used r.pin))).2 = res := by rw [h]
      refine ⟨r, hr, ?_, ?_, ?_⟩
      · rw [← hres, get_next_pin_scan_none]
        unfold fifo_used
        constructor
        · intro H s h1 h2 h3
          exact H s h1 (by omega) h3
        · intro H s h1 h2 h3
          exact H s h1 (by omega) h3
      · intro hn
        rw [← hj]
        exact get_next_pin_scan_none_state _ _ _ (by rw [hres, hn])
      · intro p s hps
        rw [hps] at hres
        obtain ⟨h1, h2, h3, h4, h5, h6⟩ := get_next_pin_scan_first r t _ _ p s hres
        rw [hj] at h6
        unfold fifo_used at h2
        have hlist : ∀ u, (j'.pin.data u).list = (j.pin.data u).list.filter (fun q => q ≠ p) := by
          intro u
          rw [h6, ← hdata]
          exact list_move_flushed_list _ _ _ _
        have hnot : ∀ u, p ∉ (j'.pin.data u).list := by
          intro u hm
          rw [hlist u, List.mem_filter] at hm
          simpa using hm.2
        refine ⟨⟨h1, by omega, h3⟩, h4, h5, ?_, ?_, ?_, ?_, hlist, hnot, ?_, ?_, ?_⟩
        · rw [h6]; exact hpins
        · rw [h6]; rfl
        · rw [h6]; rfl
        · intro u
          rw [h6, ← hdata]
          exact list_move_flushed_count _ _ _ _
        · rw [h6]
          show p ∈ ((list_move_flushed r.pin p s).data s).flushed
          rw [list_move_flushed_flushed, if_pos rfl]
          exact List.mem_cons_self _ _
        · intro hl
          obtain ⟨rest, hrest⟩ := h4
          have hm : p ∈ (j.pin.data s).list := by
            rw [← hdata, hrest]
            exact List.mem_cons_self _ _
          have hat := hl s p hm
          have hp' : j'.pins p = j.pins p := by rw [h6]; exact congrFun hpins p
          refine ⟨by rw [hp', hat], ?_, ?_⟩
          · simp [bch2_journal_pin_seq, hp', hat, journal_pin_seq, fifo_entry_idx_abs]
          · simp [journal_pin_active, hp', hat]
        · intro ops j2 j3 t2 q s2 hops hrun hget hq
          subst hq
          exact ledger_run_list_mem ops j' j2 q hops hrun hnot s2
            (get_next_pin_some_mem j2 j3 t2 q s2 hget)
  · intro H ⟨s, hs1, hs2, hs3⟩ t2
    obtain ⟨r, hr, _⟩ := reclaim_fast_returns j s H hs1 hs2 hs3
    unfold __journal_get_next_pin
    rw [hr]
    exact ⟨_, _, rfl⟩

/-- Witness for C22: on the example ledger, whose window holds the seqs 5 to 8 with pin
0 on the active list of seq 5 and pin 1 on that of seq 8, the fetch with target 100
returns pin 0 and reports seq 5. -/
theorem next_pin_oldest_active_witness :
    ∃ j', __journal_get_next_pin ledger_ex 100 = .ok (j', some (0, 5)) ∧
      (∀ u, (0 : Fin 3) ∉ (j'.pin.data u).list) ∧ j'.pins = ledger_ex.pins ∧
      (0 : Fin 3) ∈ (j'.pin.data 5).flushed := by
  have h : __journal_get_next_pin ledger_ex 100 =
      .ok ({ ledger_ex with pin := list_move_flushed ledger_ex.pin 0 5 }, some (0, 5)) := by
    unfold __journal_get_next_pin
    rw [reclaim_fast_stop _ (by decide)]
    rfl
  obtain ⟨r, _, _, _, hsome⟩ := (next_pin_oldest_active ledger_ex _ 100 _ h).1
  obtain ⟨_, _, _, h4, _, _, _, _, h9, h10, _⟩ := hsome 0 5 rfl
  exact ⟨_, h, h9, h4, h10⟩

/-! ## C23: the capacity check, group by group -/

theorem can_insert_not_extents (env : commit_env) (trans : btree_trans)
    (i : btree_insert_entry) (u : Nat)
    (h : env.btree_node_is_extents (trans.iters i.iter).leaf = false) :
    btree_key_can_insert env trans i u =
      (if env.btree_node_fake (trans.iters i.iter).leaf then BTREE_INSERT_BTREE_NODE_FULL
       else if u > env.bch_btree_keys_u64s_remaining (trans.iters i.iter).leaf then
         BTREE_INSERT_BTREE_NODE_FULL
       else BTREE_INSERT_OK, u) := by
  unfold btree_key_can_insert
  simp only [h]
  by_cases hf : env.btree_node_fake (trans.iters i.iter).leaf = true
  · simp [hf]
  · by_cases hu : u > env.bch_btree_keys_u64s_remaining (trans.iters i.iter).leaf
    · simp [hf, hu, BTREE_INSERT_OK]
    · simp [hf, hu, BTREE_INSERT_OK]

theorem same_leaf_as_prev_zero (trans : btree_trans) : same_leaf_as_prev trans 0 = false := rfl

/-- On non-extent leaves the running total the walk carries to position `idx + 1` is the
running total of the specification at position `idx`. -/
theorem capacity_state_running (env : commit_env) (trans : btree_trans)
    (hext : ∀ idx, idx < trans.updates.length →
      env.btree_node_is_extents (sorted_leaf trans idx) = false)
    (idx : Nat) (h : idx < trans.updates.length) :
    (capacity_state env trans (idx + 1)).1 = running_total trans idx := by
  induction idx with
  | zero =>
    simp only [capacity_state]
    rw [can_insert_not_extents env trans _ _ (hext 0 h)]
    simp [same_leaf_as_prev_zero, running_total]
  | succ idx ih =>
    have ih := ih (by omega)
    rw [capacity_state]
    simp only
    rw [can_insert_not_extents env trans _ _ (hext (idx + 1) h), ih]
    simp only [running_total]
    cases same_leaf_as_prev trans (idx + 1) <;> simp

theorem can_insert_at_running (env : commit_env) (trans : btree_trans)
    (hext : ∀ idx, idx < trans.updates.length →
      env.btree_node_is_extents (sorted_leaf trans idx) = false)
    (idx : Nat) (h : idx < trans.updates.length) :
    can_insert_at env trans idx =
      if env.btree_node_fake (sorted_leaf trans idx) then BTREE_INSERT_BTREE_NODE_FULL
      else if running_total trans idx > env.bch_btree_keys_u64s_remaining (sorted_leaf trans idx)
        then BTREE_INSERT_BTREE_NODE_FULL
      else BTREE_INSERT_OK := by
  unfold can_insert_at
  simp only
  rw [can_insert_not_extents env trans _ _ (hext idx h)]
  have hrun : (if (!same_leaf_as_prev trans idx) = true then 0
      else (capacity_state env trans idx).1) + (sorted_update trans idx).k_u64s =
      running_total trans idx := by
    cases idx with
    | zero => simp [same_leaf_as_prev_zero, running_total]
    | succ i =>
      rw [capacity_state_running env trans hext i (by omega)]
      simp only [running_total]
      cases same_leaf_as_prev trans (i + 1) <;> simp
  rw [hrun]
  rfl

theorem capacity_walk_ok_iff (env : commit_env) (trans : btree_trans) (k idx : Nat) :
    (∃ m, capacity_walk env trans k idx (capacity_state env trans idx).1
        (capacity_state env trans idx).2 = .ok m) ↔
      ∀ i, idx ≤ i → i < idx + k → can_insert_at env trans i = 0 := by
  induction k generalizing idx with
  | zero =>
    simp only [capacity_walk]
    constructor
    · intro _ i h1 h2; omega
    · intro _; exact ⟨_, rfl⟩
  | succ k ih =>
    unfold capacity_walk
    simp only
    by_cases hc : can_insert_at env trans idx = 0
    · have hc' := hc
      simp only [can_insert_at] at hc'
      rw [if_neg (by simpa using hc')]
      have := ih (idx + 1)
      simp only [capacity_state] at this
      rw [this]
      constructor
      · intro H i h1 h2
        by_cases e : i = idx
        · subst e; exact hc
        · exact H i (by omega) (by omega)
      · intro H i h1 h2
        exact H i (by omega) (by omega)
    · have hc' := hc
      simp only [can_insert_at] at hc'
      rw [if_pos hc']
      constructor
      · rintro ⟨m, hm⟩; cases hm
      · intro H
        exact absurd (H idx (le_refl _) (by omega)) hc

theorem same_leaf_as_prev_leaf (trans : btree_trans) (m : Nat)
    (h : same_leaf_as_prev trans m = true) :
    sorted_leaf trans m = sorted_leaf trans (m - 1) := by
  unfold same_leaf_as_prev at h
  simp only [Bool.and_eq_true, beq_iff_eq] at h
  exact h.2

theorem same_leaf_chain (trans : btree_trans) (s e : Nat) (hse : s ≤ e)
    (h : ∀ m, s < m → m ≤ e → same_leaf_as_prev trans m = true) :
    sorted_leaf trans e = sorted_leaf trans s := by
  induction e with
  | zero =>
    have : s = 0 := by omega
    rw [this]
  | succ e ih =>
    by_cases hs : s = e + 1
    · rw [hs]
    · have h1 := same_leaf_as_prev_leaf trans (e + 1) (h (e + 1) (by omega) (le_refl _))
      rw [h1]
      exact ih (by omega) (fun m hm1 hm2 => h m hm1 (by omega))

theorem group_start_exists (trans : btree_trans) (i : Nat) :
    ∃ s, s ≤ i ∧ same_leaf_as_prev trans s = false ∧
      ∀ m, s < m → m ≤ i → same_leaf_as_prev trans m = true := by
  induction i with
  | zero => exact ⟨0, le_refl _, rfl, fun m h1 h2 => by omega⟩
  | succ i ih =>
    by_cases h : same_leaf_as_prev trans (i + 1) = true
    · obtain ⟨s, h1, h2, h3⟩ := ih
      refine ⟨s, by omega, h2, fun m hm1 hm2 => ?_⟩
      by_cases e : m = i + 1
      · rw [e]; exact h
      · exact h3 m hm1 (by omega)
    · exact ⟨i + 1, le_refl _, by simpa using h, fun m h1 h2 => by omega⟩

theorem running_total_start (trans : btree_trans) (s : Nat)
    (h : same_leaf_as_prev trans s = false) :
    running_total trans s = (sorted_update trans s).k_u64s := by
  cases s with
  | zero => rfl
  | succ s => simp [running_total, h]

theorem running_total_next (trans : btree_trans) (i : Nat)
    (h : same_leaf_as_prev trans (i + 1) = true) :
    running_total trans (i + 1) =
      running_total trans i + (sorted_update trans (i + 1)).k_u64s := by
  simp [running_total, h]

/-- From a position `i` of the walk, the group of `i` ends at some position `e`: the
positions after `i` up to `e` share the leaf of their predecessor, the position after
`e` (if any) does not, the running total at `e` is the running total at `i` plus the
sizes of the following updates of the group, and the running totals do not decrease up
to `e`. -/
theorem group_end_exists (trans : btree_trans) (k i : Nat)
    (hk : i + k = trans.updates.length) (hpos : 0 < k) :
    ∃ e, i ≤ e ∧ e < trans.updates.length ∧
      (∀ m, i < m → m ≤ e → same_leaf_as_prev trans m = true) ∧
      (e + 1 < trans.updates.length → same_leaf_as_prev trans (e + 1) = false) ∧
      running_total trans e + (sorted_update trans i).k_u64s =
        running_total trans i + group_rest trans k i ∧
      ∀ m, i ≤ m → m ≤ e → running_total trans m ≤ running_total trans e := by
  induction k generalizing i with
  | zero => omega
  | succ k ih =>
    by_cases h : same_leaf_as_prev trans (i + 1) = true
    · by_cases hk0 : k = 0
      · subst hk0
        refine ⟨i, le_refl _, by omega, fun m h1 h2 => by omega, fun h1 => by omega, ?_,
          fun m h1 h2 => ?_⟩
        · simp [group_rest, h]
        · have : m = i := by omega
          rw [this]
      · obtain ⟨e, h1, h2, h3, h4, h5, h6⟩ := ih (i + 1) (by omega) (by omega)
        have hn := running_total_next trans i h
        refine ⟨e, by omega, h2, fun m hm1 hm2 => ?_, h4, ?_, fun m hm1 hm2 => ?_⟩
        · by_cases e1 : m = i + 1
          · rw [e1]; exact h
          · exact h3 m (by omega) hm2
        · simp only [group_rest, h, if_true]
          omega
        · by_cases e1 : m = i
          · have := h6 (i + 1) (le_refl _) h1
            rw [e1]
            omega
          · exact h6 m (by omega) hm2
    · have h' : same_leaf_as_prev trans (i + 1) = false := by simpa using h
      refine ⟨i, le_refl _, by omega, fun m h1 h2 => by omega, fun _ => h', ?_,
        fun m h1 h2 => ?_⟩
      · simp [group_rest, h']
      · have : m = i := by omega
        rw [this]

theorem mem_leaf_group_starts (trans : btree_trans) (s : Nat) :
    s ∈ leaf_group_starts trans ↔
      s < trans.updates.length ∧ same_leaf_as_prev trans s = false := by
  unfold leaf_group_starts
  simp [List.mem_filter]

/-- Every running total fits its leaf exactly when every group sum fits its leaf. -/
theorem running_total_fits_iff (trans : btree_trans) (rem : Nat → Nat) :
    (∀ i, i < trans.updates.length → running_total trans i ≤ rem (sorted_leaf trans i)) ↔
      ∀ s ∈ leaf_group_starts trans, group_sum trans s ≤ rem (sorted_leaf trans s) := by
  constructor
  · intro P s hs
    rw [mem_leaf_group_starts] at hs
    obtain ⟨e, h1, h2, h3, _, h5, _⟩ :=
      group_end_exists trans (trans.updates.length - s) s (by omega) (by omega)
    have hst := running_total_start trans s hs.2
    have hl := same_leaf_chain trans s e h1 h3
    have := P e h2
    rw [hl] at this
    unfold group_sum
    omega
  · intro Q i hi
    obtain ⟨s, hs1, hs2, hs3⟩ := group_start_exists trans i
    obtain ⟨e, h1, h2, h3, h4, h5, h6⟩ :=
      group_end_exists trans (trans.updates.length - s) s (by omega) (by omega)
    have hie : i ≤ e := by
      by_contra hlt
      have a := h4 (by omega)
      have b := hs3 (e + 1) (by omega) (by omega)
      rw [a] at b
      cases b
    have hst := running_total_start trans s hs2
    have hl := same_leaf_chain trans s i hs1 hs3
    have hq := Q s ((mem_leaf_group_starts trans s).mpr ⟨by omega, hs2⟩)
    unfold group_sum at hq
    have := h6 i hs1 hie
    rw [hl]
    omega

/-- C23 (capacity check, non-extent leaves). Let every leaf of the sorted walk be a
non-extent node. The first loop of `bch2_trans_commit_write_locked` passes if and only if
no target leaf is a fake node and, for every group of consecutive sorted updates sharing
a leaf, the sum of the group's key sizes is at most `bch_btree_keys_u64s_remaining` of
that leaf. The total the loop carries from position `idx` is the running total, which
is the key size at the first update of a group and grows by the key size at every other
update. The first position at which the leaf is a fake node or the running total
exceeds the capacity, hence the first position at which the running total exceeds the
capacity when no earlier leaf is a fake node, is the one the loop reports with
`BTREE_INSERT_BTREE_NODE_FULL`, and so does `bch2_trans_commit_write_locked` through
`*stopped_at` when no fault is injected. -/
theorem capacity_check_by_groups (env : commit_env) (trans : btree_trans)
    (hext : ∀ idx, idx < trans.updates.length →
      env.btree_node_is_extents (sorted_leaf trans idx) = false) :
    ((∃ m, capacity_walk env trans trans.updates.length 0 0 false = .ok m) ↔
      ((∀ idx, idx < trans.updates.length →
          env.btree_node_fake (sorted_leaf trans idx) = false) ∧
        ∀ s ∈ leaf_group_starts trans,
          group_sum trans s ≤ env.bch_btree_keys_u64s_remaining (sorted_leaf trans s))) ∧
    (∀ idx, idx < trans.updates.length →
      (capacity_state env trans (idx + 1)).1 = running_total trans idx) ∧
    (∀ s ∈ leaf_group_starts trans,
      running_total trans s = (sorted_update trans s).k_u64s) ∧
    (∀ idx, same_leaf_as_prev trans (idx + 1) = true →
      running_total trans (idx + 1) =
        running_total trans idx + (sorted_update trans (idx + 1)).k_u64s) ∧
    (∀ fail, fail < trans.updates.length →
      (∀ i, i < fail → env.btree_node_fake (sorted_leaf trans i) = false ∧
        running_total trans i ≤ env.bch_btree_keys_u64s_remaining (sorted_leaf trans i)) →
      (env.btree_node_fake (sorted_leaf trans fail) = true ∨
        running_total trans fail >
          env.bch_btree_keys_u64s_remaining (sorted_leaf trans fail)) →
      capacity_walk env trans trans.updates.length 0 0 false =
        .error (BTREE_INSERT_BTREE_NODE_FULL, trans.updates_sorted.getD fail 0) ∧
      (env.race_fault = false →
        (bch2_trans_commit_write_locked env trans).ret = BTREE_INSERT_BTREE_NODE_FULL ∧
        (bch2_trans_commit_write_locked env trans).stopped_at =
          some (trans.updates_sorted.getD fail 0))) := by
  have hs0 : capacity_state env trans 0 = (0, false) := rfl
  have hpass_iff : ∀ i, i < trans.updates.length →
      (can_insert_at env trans i = 0 ↔
        (env.btree_node_fake (sorted_leaf trans i) = false ∧
          running_total trans i ≤ env.bch_btree_keys_u64s_remaining (sorted_leaf trans i))) := by
    intro i hi
    rw [can_insert_at_running env trans hext i hi]
    by_cases hf : env.btree_node_fake (sorted_leaf trans i) = true
    · simp [hf, BTREE_INSERT_BTREE_NODE_FULL]
    · by_cases hu : running_total trans i >
          env.bch_btree_keys_u64s_remaining (sorted_leaf trans i)
      · simp [hf, hu, BTREE_INSERT_BTREE_NODE_FULL]
      · have hf' : env.btree_node_fake (sorted_leaf trans i) = false := by simpa using hf
        rw [if_neg hf, if_neg hu]
        exact ⟨fun _ => ⟨hf', by omega⟩, fun _ => rfl⟩
  refine ⟨?_, capacity_state_running env trans hext, ?_, ?_, ?_⟩
  · have hw := capacity_walk_ok_iff env trans trans.updates.length 0
    rw [hs0] at hw
    rw [hw, ← running_total_fits_iff trans env.bch_btree_keys_u64s_remaining]
    constructor
    · intro H
      exact ⟨fun i hi => ((hpass_iff i hi).mp (H i (Nat.zero_le _) (by omega))).1,
        fun i hi => ((hpass_iff i hi).mp (H i (Nat.zero_le _) (by omega))).2⟩
    · intro H i _ hi
      have hi' : i < trans.updates.length := by omega
      exact (hpass_iff i hi').mpr ⟨H.1 i hi', H.2 i hi'⟩
  · intro s hs
    exact running_total_start trans s ((mem_leaf_group_starts trans s).mp hs).2
  · intro idx h
    exact running_total_next trans idx h
  · intro fail hfail hbefore hat
    have hne : can_insert_at env trans fail ≠ 0 := by
      intro h0
      have := (hpass_iff fail hfail).mp h0
      rcases hat with h1 | h1
      · rw [this.1] at h1; cases h1
      · omega
    have hval : can_insert_at env trans fail = BTREE_INSERT_BTREE_NODE_FULL := by
      have h1 := can_insert_at_running env trans hext fail hfail
      rw [h1] at hne ⊢
      split at hne
      · rw [if_pos (by assumption)]
      · rename_i hf
        rw [if_neg hf]
        split at hne
        · rw [if_pos (by assumption)]
        · exact absurd rfl hne
    have hp : ∀ i, i < fail → can_insert_at env trans i = 0 :=
      fun i hi => (hpass_iff i (by omega)).mpr (hbefore i hi)
    have hw := capacity_walk_first_failure env trans trans.updates.length 0 fail
      (Nat.zero_le _) (by omega) (fun i _ hi => hp i hi) hne
    rw [hs0, hval] at hw
    refine ⟨hw, fun hrace => ?_⟩
    unfold bch2_trans_commit_write_locked
    rw [hrace]
    simp only [Bool.false_eq_true, if_false, hw]
    exact ⟨trivial, trivial⟩

/-- Witness for C23: the example transaction, sorted, holds the group of leaf 10 (sizes 4
and 5, capacity 16) and the group of leaf 11 (size 6, capacity 3); the check fails and
reports the update of the third position, update 1. -/
theorem capacity_check_by_groups_witness :
    (∀ idx, idx < (btree_trans_sort_updates env_ex trans_ex).updates.length →
      env_ex.btree_node_is_extents
        (sorted_leaf (btree_trans_sort_updates env_ex trans_ex) idx) = false) ∧
    leaf_group_starts (btree_trans_sort_updates env_ex trans_ex) = [0, 2] ∧
    group_sum (btree_trans_sort_updates env_ex trans_ex) 0 = 9 ∧
    group_sum (btree_trans_sort_updates env_ex trans_ex) 2 = 6 ∧
    ¬ (∃ m, capacity_walk env_ex (btree_trans_sort_updates env_ex trans_ex)
        (btree_trans_sort_updates env_ex trans_ex).updates.length 0 0 false = .ok m) := by
  refine ⟨fun _ _ => rfl, by decide, by decide, by decide, ?_⟩
  rw [(capacity_check_by_groups env_ex (btree_trans_sort_updates env_ex trans_ex)
    (fun _ _ => rfl)).1]
  intro h
  exact absurd (h.2 2 (by decide)) (by decide)

/-! ## C26: the flush target of background reclaim -/

theorem discard_loop_fields (lso : Nat) (fuel : Nat) (ja ja1 : journal_device)
    (held held1 : Bool) (h : discard_loop lso fuel ja held = some (ja1, held1)) :
    ja1.nr = ja.nr ∧ ja1.cur_idx = ja.cur_idx ∧ ja1.bucket_seq = ja.bucket_seq := by
  induction fuel generalizing ja held with
  | zero => cases h
  | succ fuel ih =>
    unfold discard_loop at h
    split at h
    · split at h
      · exact ih _ _ h
      · have := ih _ _ h
        exact this
    · cases h
      exact ⟨rfl, rfl, rfl⟩

/-- The discard loop of a device ends: with `nr < 2^32` and both ring indices below
`nr`, the number of turns is at most the distance from `last_idx` to `cur_idx` around
the ring, plus the turn that takes the reclaim lock and the turn that finds no work. -/
theorem discard_loop_returns (lso : Nat) (fuel : Nat) (ja : journal_device) (held : Bool)
    (hnr : ja.nr < 2 ^ 32) (hlast : ja.last_idx < ja.nr) (hcur : ja.cur_idx < ja.nr)
    (hfuel : (if ja.last_idx ≤ ja.cur_idx then ja.cur_idx - ja.last_idx
      else ja.cur_idx + ja.nr - ja.last_idx) + (if held then 1 else 2) ≤ fuel) :
    ∃ r, discard_loop lso fuel ja held = some r := by
  induction fuel generalizing ja held with
  | zero => split_ifs at hfuel <;> omega
  | succ fuel ih =>
    unfold discard_loop
    split
    · rename_i hs
      have hne : ja.last_idx ≠ ja.cur_idx := by
        unfold should_discard_bucket at hs
        simp only [Bool.and_eq_true, bne_iff_ne, ne_eq] at hs
        exact hs.2.1
      have hstep : (ja.last_idx + 1) % 2 ^ 32 % ja.nr =
          if ja.last_idx + 1 = ja.nr then 0 else ja.last_idx + 1 := by
        rw [Nat.mod_eq_of_lt (show ja.last_idx + 1 < 2 ^ 32 by omega)]
        split
        · rename_i e; rw [e, Nat.mod_self]
        · exact Nat.mod_eq_of_lt (by omega)
      split
      · rename_i hh
        have hheld : held = false := by simpa using hh
        subst hheld
        apply ih ja true hnr hlast hcur
        simp only [Bool.false_eq_true, if_false] at hfuel
        simp only [if_true]
        omega
      · rename_i hh
        have hheld : held = true := by simpa using hh
        subst hheld
        apply ih
        · exact hnr
        · show (ja.last_idx + 1) % 2 ^ 32 % ja.nr < ja.nr
          exact Nat.mod_lt _ (by omega)
        · exact hcur
        · show (if (ja.last_idx + 1) % 2 ^ 32 % ja.nr ≤ ja.cur_idx then
              ja.cur_idx - (ja.last_idx + 1) % 2 ^ 32 % ja.nr
            else ja.cur_idx + ja.nr - (ja.last_idx + 1) % 2 ^ 32 % ja.nr) +
              (if true = true then 1 else 2) ≤ fuel
          rw [hstep, if_pos rfl]
          rw [if_pos rfl] at hfuel
          by_cases hle : ja.last_idx ≤ ja.cur_idx
          · rw [if_pos hle] at hfuel
            by_cases e : ja.last_idx + 1 = ja.nr
            · omega
            · rw [if_neg e, if_pos (by omega)]
              omega
          · rw [if_neg hle] at hfuel
            by_cases e : ja.last_idx + 1 = ja.nr
            · rw [if_pos e, if_pos (Nat.zero_le _)]
              omega
            · rw [if_neg e, if_neg (by omega)]
              omega
    · exact ⟨_, rfl⟩

/-- The device loop returns, as `seq_to_flush`, the maximum of the value it was entered
with and of `bucket_seq[bucket_to_flush]` of every device that has journal buckets. -/
theorem reclaim_devices_seq (lso fuel : Nat) (devs devs1 : List journal_device)
    (held held1 : Bool) (seq seq1 : Nat)
    (h : reclaim_devices lso fuel devs held seq = some (devs1, held1, seq1)) :
    seq1 = ((devs.filter (fun ja => ja.nr != 0)).map
      (fun ja => ja.bucket_seq ((ja.cur_idx + (ja.nr >>> 1)) % 2 ^ 32 % ja.nr))).foldl max seq := by
  induction devs generalizing devs1 held seq with
  | nil =>
    simp only [reclaim_devices] at h
    cases h
    rfl
  | cons ja rest ih =>
    unfold reclaim_devices at h
    split at h
    · rename_i hz
      split at h
      · cases h
      · rename_i d2 h2 s2 hr
        cases h
        rw [List.filter_cons_of_neg (by simp [hz])]
        exact ih _ _ _ hr
    · rename_i hz
      split at h
      · cases h
      · rename_i ja1 held2 hd
        obtain ⟨f1, f2, f3⟩ := discard_loop_fields lso fuel ja ja1 held held2 hd
        simp only at h
        split at h
        · cases h
        · rename_i d2 h2 s2 hr
          cases h
          rw [List.filter_cons_of_pos (by simpa using hz)]
          simp only [List.map_cons, List.foldl_cons]
          have := ih _ _ _ hr
          rw [f1, f2, f3] at this
          exact this

theorem reclaim_devices_returns (lso fuel : Nat) (devs : List journal_device)
    (held : Bool) (seq : Nat)
    (hring : ∀ ja ∈ devs, ja.nr ≠ 0 →
      ja.nr < 2 ^ 32 ∧ ja.last_idx < ja.nr ∧ ja.cur_idx < ja.nr ∧ ja.nr < fuel) :
    ∃ r, reclaim_devices lso fuel devs held seq = some r := by
  induction devs generalizing held seq with
  | nil => exact ⟨_, rfl⟩
  | cons ja rest ih =>
    have ihr := fun h s => ih h s (fun x hx => hring x (List.mem_cons_of_mem _ hx))
    unfold reclaim_devices
    split
    · obtain ⟨r, hr⟩ := ihr held seq
      rw [hr]
      exact ⟨_, rfl⟩
    · rename_i hz
      obtain ⟨h1, h2, h3, h4⟩ := hring ja (List.mem_cons_self _ _) hz
      obtain ⟨r, hr⟩ := discard_loop_returns lso fuel ja held h1 h2 h3
        (by split_ifs <;> omega)
      rw [hr]
      obtain ⟨r2, hr2⟩ := ihr r.2
        (max seq (r.1.bucket_seq ((r.1.cur_idx + (r.1.nr >>> 1)) % 2 ^ 32 % r.1.nr)))
      simp only
      rw [hr2]
      exact ⟨_, rfl⟩

theorem to_s64_small (x : Nat) (h : x < 2 ^ 63) : to_s64 x = (x : Int) := by
  unfold to_s64
  have e : x % 2 ^ 64 = x := Nat.mod_eq_of_lt (by omega)
  rw [e, if_pos h]

theorem to_s64_difference (cur half : Nat) (hcur : cur < 2 ^ 63) (hhalf : half < 2 ^ 63) :
    to_s64 ((cur % 2 ^ 64 + 2 ^ 64 - half % 2 ^ 64) % 2 ^ 64) = (cur : Int) - (half : Int) := by
  unfold to_s64
  rw [Nat.mod_mod]
  split_ifs with h <;> omega

theorem to_u64_small (x : Int) (h0 : 0 ≤ x) (h1 : x < 2 ^ 63) : ((to_u64 x : Nat) : Int) = x := by
  unfold to_u64
  have e : x % 2 ^ 64 = x := Int.emod_eq_of_lt h0 (by omega)
  rw [e]
  exact Int.toNat_of_nonneg h0

/-- The signed comparison of the pin fifo watermark: with the seqs below `2^63`, the
value stored in `seq_to_flush` is the maximum, as integers, of the value so far and of
`cur_seq - size / 2`. -/
theorem pin_fifo_seq_to_flush_max (cur_seq size a : Nat) (ha : a < 2 ^ 63)
    (hcur : cur_seq < 2 ^ 63) (hsize : size < 2 ^ 64) :
    ((pin_fifo_seq_to_flush cur_seq size a : Nat) : Int) =
      max (a : Int) ((cur_seq : Int) - ((size / 2 : Nat) : Int)) := by
  unfold pin_fifo_seq_to_flush
  have hs : size >>> 1 = size / 2 := by rw [Nat.shiftRight_eq_div_pow, pow_one]
  have hhalf : size / 2 < 2 ^ 63 := by omega
  rw [hs, to_s64_small a ha, to_s64_difference cur_seq (size / 2) hcur hhalf]
  apply to_u64_small
  · exact le_max_of_le_left (by omega)
  · exact max_lt (by omega) (by omega)

theorem foldl_max_lt (l : List Nat) (init bound : Nat) (h0 : init < bound)
    (h : ∀ x ∈ l, x < bound) : l.foldl max init < bound := by
  induction l generalizing init with
  | nil => exact h0
  | cons x l ih =>
    simp only [List.foldl_cons]
    exact ih _ (max_lt h0 (h x (List.mem_cons_self _ _)))
      (fun y hy => h y (List.mem_cons_of_mem _ hy))

theorem ring_half_seq_no_buckets (devs : List journal_device)
    (h : ∀ ja ∈ devs, ja.nr = 0) : ring_half_seq devs = 0 := by
  unfold ring_half_seq
  have : devs.filter (fun ja => ja.nr != 0) = [] := by
    rw [List.filter_eq_nil_iff]
    intro ja hja
    simp [h ja hja]
  rw [this]
  rfl

/-- C26 (flush target of background reclaim). Let every device that has journal buckets
have `nr < 2^32`, both ring indices below `nr`, no 32-bit overflow in
`cur_idx + nr / 2`, and let the fuel exceed every `nr`; let the bucket seqs and the
current seq be below `2^63` and the capacity of the pin fifo below `2^64`. Then the
computation of the flush target in `bch2_journal_reclaim_work` returns, and the target
is the maximum, as integers, of (a) the maximum over the writable devices that have
journal buckets of `bucket_seq[(cur_idx + nr/2) mod nr]` (0 when there is none) and (b)
`cur_seq - size / 2`. When `cur_seq` is smaller than half the capacity, (b) is negative
and the target is (a) alone, which is 0 when no device has journal buckets; in every
case the target is below `2^63`. -/
theorem flush_target_is_max (last_seq_ondisk fuel : Nat) (devs : List journal_device)
    (cur_seq size : Nat)
    (hring : ∀ ja ∈ devs, ja.nr ≠ 0 →
      ja.nr < 2 ^ 32 ∧ ja.last_idx < ja.nr ∧ ja.cur_idx < ja.nr ∧ ja.nr < fuel)
    (hbits : ∀ ja ∈ devs, ja.nr ≠ 0 → ja.cur_idx + ja.nr / 2 < 2 ^ 32)
    (hseq : ∀ ja ∈ devs, ∀ i, ja.bucket_seq i < 2 ^ 63)
    (hcur : cur_seq < 2 ^ 63) (hsize : size < 2 ^ 64) :
    ∃ devs1 target,
      reclaim_work_seq_to_flush last_seq_ondisk fuel devs cur_seq size = some (devs1, target) ∧
      (target : Int) =
        max (ring_half_seq devs : Int) ((cur_seq : Int) - ((size / 2 : Nat) : Int)) ∧
      (cur_seq < size / 2 →
        (cur_seq : Int) - ((size / 2 : Nat) : Int) < 0 ∧ target = ring_half_seq devs) ∧
      ((∀ ja ∈ devs, ja.nr = 0) → cur_seq < size / 2 → target = 0) ∧
      target < 2 ^ 63 := by
  obtain ⟨⟨devs1, held1, seq1⟩, hr⟩ :=
    reclaim_devices_returns last_seq_ondisk fuel devs false 0 hring
  have hs := reclaim_devices_seq last_seq_ondisk fuel devs devs1 false held1 0 seq1 hr
  have hmap : (devs.filter (fun ja => ja.nr != 0)).map
      (fun ja => ja.bucket_seq ((ja.cur_idx + (ja.nr >>> 1)) % 2 ^ 32 % ja.nr)) =
      (devs.filter (fun ja => ja.nr != 0)).map
        (fun ja => ja.bucket_seq ((ja.cur_idx + ja.nr / 2) % ja.nr)) := by
    apply List.map_congr_left
    intro ja hja
    rw [List.mem_filter] at hja
    have hnz : ja.nr ≠ 0 := by simpa using hja.2
    have := hbits ja hja.1 hnz
    rw [Nat.shiftRight_eq_div_pow, pow_one, Nat.mod_eq_of_lt this]
  rw [hmap] at hs
  have ha : seq1 = ring_half_seq devs := hs
  have hlt : ring_half_seq devs < 2 ^ 63 := by
    unfold ring_half_seq
    apply foldl_max_lt _ _ _ (by omega)
    intro x hx
    rw [List.mem_map] at hx
    obtain ⟨ja, hja, rfl⟩ := hx
    exact hseq ja (List.mem_filter.mp hja).1 _
  have hmax := pin_fifo_seq_to_flush_max cur_seq size (ring_half_seq devs) hlt hcur hsize
  refine ⟨devs1, pin_fifo_seq_to_flush cur_seq size (ring_half_seq devs), ?_, hmax, ?_, ?_, ?_⟩
  · unfold reclaim_work_seq_to_flush
    rw [hr, ha]
  · intro hsmall
    have hneg : (cur_seq : Int) - ((size / 2 : Nat) : Int) < 0 := by omega
    refine ⟨hneg, ?_⟩
    rw [max_eq_left (by omega)] at hmax
    exact_mod_cast hmax
  · intro hnone hsmall
    rw [max_eq_left (by omega)] at hmax
    have e : pin_fifo_seq_to_flush cur_seq size (ring_half_seq devs) = ring_half_seq devs := by
      exact_mod_cast hmax
    rw [e]
    exact ring_half_seq_no_buckets devs hnone
  · have : max (ring_half_seq devs : Int) ((cur_seq : Int) - ((size / 2 : Nat) : Int)) < 2 ^ 63 :=
      max_lt (by omega) (by omega)
    omega

/-- Witness for C26: with the example devices, current seq 100 and a pin fifo of
capacity 512, the target is the seq 70 of the ring of the third device; with a fifo of
capacity 16 it is `100 - 8 = 92`. -/
theorem flush_target_is_max_witness :
    ring_half_seq devs_ex = 70 ∧
    (∃ devs1 target, reclaim_work_seq_to_flush 50 16 devs_ex 100 512 = some (devs1, target) ∧
      (target : Int) = max (ring_half_seq devs_ex : Int) ((100 : Int) - ((512 / 2 : Nat) : Int)) ∧
      (100 < 512 / 2 →
        (100 : Int) - ((512 / 2 : Nat) : Int) < 0 ∧ target = ring_half_seq devs_ex) ∧
      ((∀ ja ∈ devs_ex, ja.nr = 0) → 100 < 512 / 2 → target = 0) ∧
      target < 2 ^ 63) ∧
    reclaim_work_seq_to_flush 50 16 devs_ex 100 16 =
      some ([{ nr := 0, cur_idx := 0, last_idx := 0, bucket_seq := fun _ => 99 },
             { nr := 8, cur_idx := 6, last_idx := 6,
               bucket_seq := fun i => if i = 2 then 40 else 10 },
             { nr := 4, cur_idx := 1, last_idx := 1,
               bucket_seq := fun i => if i = 3 then 70 else 10 }], 92) := by
  refine ⟨by decide, ?_, ?_⟩
  · exact flush_target_is_max 50 16 devs_ex 100 512
      (by decide) (by decide)
      (by
        intro ja hja i
        simp only [devs_ex, List.mem_cons, List.mem_singleton, List.not_mem_nil, or_false] at hja
        rcases hja with rfl | rfl | rfl
        · show (99 : Nat) < 2 ^ 63
          norm_num
        · show (if i = 2 then 40 else 10 : Nat) < 2 ^ 63
          split <;> norm_num
        · show (if i = 3 then 70 else 10 : Nat) < 2 ^ 63
          split <;> norm_num)
      (by norm_num) (by norm_num)
  · rfl

/-! ## C27: flushing the pins of a departing device -/

/-- The last seq of `[a, a + k)` that passes a test, as the loop that overwrites `seq`
at every passing entry computes it: either no seq of the range passes and the value is
the initial one, or the value is a passing seq of the range and no later seq of the
range passes. -/
theorem foldl_last_match (test : Nat → Bool) (init a k : Nat) :
    ((∀ s, a ≤ s → s < a + k → test s = false) ∧
      (List.range' a k).foldl (fun seq iter => if test iter then iter else seq) init = init) ∨
    (∃ r, (List.range' a k).foldl (fun seq iter => if test iter then iter else seq) init = r ∧
      a ≤ r ∧ r < a + k ∧ test r = true ∧ ∀ s, r < s → s < a + k → test s = false) := by
  induction k with
  | zero => exact Or.inl ⟨fun s h1 h2 => by omega, rfl⟩
  | succ k ih =>
    rw [List.range'_concat, List.foldl_append]
    simp only [List.foldl_cons, List.foldl_nil, one_mul]
    by_cases ht : test (a + k) = true
    · rw [if_pos ht]
      exact Or.inr ⟨a + k, rfl, by omega, by omega, ht, fun s h1 h2 => by omega⟩
    · rw [if_neg ht]
      have ht' : test (a + k) = false := by simpa using ht
      rcases ih with ⟨h1, h2⟩ | ⟨r, h1, h2, h3, h4, h5⟩
      · refine Or.inl ⟨fun s hs1 hs2 => ?_, h2⟩
        by_cases e : s = a + k
        · rw [e]; exact ht'
        · exact h1 s hs1 (by omega)
      · refine Or.inr ⟨r, h1, h2, by omega, h4, fun s hs1 hs2 => ?_⟩
        by_cases e : s = a + k
        · rw [e]; exact ht'
        · exact h5 s hs1 (by omega)

theorem mark_replicas_loop_returns (env : flush_env n) (j : journal n) (fuel : Nat)
    (ret : Int) (seq : Nat) (h : j.pin.back - seq < fuel) :
    ∃ r, mark_replicas_loop env j fuel ret seq = some r := by
  induction fuel generalizing ret seq with
  | zero => omega
  | succ fuel ih =>
    unfold mark_replicas_loop
    split
    · rename_i hc
      simp only
      obtain ⟨r, hr⟩ := ih (env.bch2_mark_replicas
        (j.pin.data (journal_seq_pin j (max seq (journal_last_seq j)))).devs)
        (max seq (journal_last_seq j) + 1)
        (by have := le_max_left seq (journal_last_seq j); omega)
      rw [hr]
      exact ⟨_, rfl⟩
    · exact ⟨_, rfl⟩

/-- C27 (flushing the pins of a departing device). For `dev_idx >= 0`, the seq that
`bch2_journal_flush_device_pins` passes to `bch2_journal_flush_pins` (the first call it
makes) is `device_flush_seq`: when some pin list of the window has `dev_idx` in its
device set, it is a seq of the window whose device set contains `dev_idx` and no newer
seq of the window does; when none has, it is 0. If that flush returns an error, the
function returns that error having made no other call: no step of the garbage
collection of replicas is started. If it returns 0, the function returns (with fuel
above the back of the window) after starting the garbage collection. -/
theorem flush_device_pins_target (env : flush_env n) (fuel : Nat) (j : journal n)
    (dev_idx : Int) (hdev : 0 ≤ dev_idx) :
    ((∃ s, j.pin.front ≤ s ∧ s < j.pin.back ∧
        bch2_dev_list_has_dev (j.pin.data s).devs dev_idx.toNat = true) →
      j.pin.front ≤ device_flush_seq env.metadata_replicas j dev_idx ∧
      device_flush_seq env.metadata_replicas j dev_idx < j.pin.back ∧
      bch2_dev_list_has_dev
        (j.pin.data (device_flush_seq env.metadata_replicas j dev_idx)).devs
        dev_idx.toNat = true ∧
      ∀ s, j.pin.front ≤ s → s < j.pin.back →
        bch2_dev_list_has_dev (j.pin.data s).devs dev_idx.toNat = true →
        s ≤ device_flush_seq env.metadata_replicas j dev_idx) ∧
    ((∀ s, j.pin.front ≤ s → s < j.pin.back →
        bch2_dev_list_has_dev (j.pin.data s).devs dev_idx.toNat = false) →
      device_flush_seq env.metadata_replicas j dev_idx = 0) ∧
    (∀ r, bch2_journal_flush_device_pins env fuel j dev_idx = some r →
      r.2.head? = some (.flush_pins (device_flush_seq env.metadata_replicas j dev_idx))) ∧
    ((env.bch2_journal_flush_pins j (device_flush_seq env.metadata_replicas j dev_idx)).1 ≠ 0 →
      bch2_journal_flush_device_pins env fuel j dev_idx =
        some ((env.bch2_journal_flush_pins j
            (device_flush_seq env.metadata_replicas j dev_idx)).1,
          [.flush_pins (device_flush_seq env.metadata_replicas j dev_idx)])) ∧
    ((env.bch2_journal_flush_pins j (device_flush_seq env.metadata_replicas j dev_idx)).1 = 0 →
      (env.bch2_journal_flush_pins j
        (device_flush_seq env.metadata_replicas j dev_idx)).2.pin.back < fuel →
      ∃ r, bch2_journal_flush_device_pins env fuel j dev_idx = some r ∧
        device_flush_event.replicas_gc_start ∈ r.2) := by
  have htest : ∀ s, device_pin_test env.metadata_replicas j dev_idx s =
      bch2_dev_list_has_dev (j.pin.data s).devs dev_idx.toNat := by
    intro s
    unfold device_pin_test
    rw [if_pos hdev]
  have hcases := foldl_last_match (device_pin_test env.metadata_replicas j dev_idx) 0
    j.pin.front (fifo_used j.pin)
  simp only [htest] at hcases
  have hseq : device_flush_seq env.metadata_replicas j dev_idx =
      (List.range' j.pin.front (fifo_used j.pin)).foldl
        (fun seq iter =>
          if bch2_dev_list_has_dev (j.pin.data iter).devs dev_idx.toNat then iter else seq) 0 := by
    unfold device_flush_seq
    simp only [htest]
  rw [← hseq] at hcases
  unfold fifo_used at hcases
  refine ⟨?_, ?_, ?_, ?_, ?_⟩
  · rintro ⟨s, hs1, hs2, hs3⟩
    rcases hcases with ⟨h1, _⟩ | ⟨r, h1, h2, h3, h4, h5⟩
    · have := h1 s hs1 (by omega)
      rw [hs3] at this
      cases this
    · rw [h1]
      refine ⟨h2, by omega, h4, fun t ht1 ht2 ht3 => ?_⟩
      by_contra hlt
      have := h5 t (by omega) (by omega)
      rw [ht3] at this
      cases this
  · intro hnone
    rcases hcases with ⟨_, h2⟩ | ⟨r, h1, h2, h3, h4, h5⟩
    · exact h2
    · have := hnone r h2 (by omega)
      rw [h4] at this
      cases this
  · intro r hr
    unfold bch2_journal_flush_device_pins at hr
    simp only at hr
    split at hr
    · cases hr
      rfl
    · split at hr
      · cases hr
      · cases hr
        rfl
  · intro herr
    unfold bch2_journal_flush_device_pins
    simp only
    rw [if_pos herr]
  · intro hok hfuel
    obtain ⟨r, hr⟩ := mark_replicas_loop_returns env
      (env.bch2_journal_flush_pins j (device_flush_seq env.metadata_replicas j dev_idx)).2
      fuel 0 0 (by omega)
    unfold bch2_journal_flush_device_pins
    simp only
    rw [if_neg (by simpa using hok), hr]
    exact ⟨_, rfl, by simp⟩

/-- Witness for C27: on the example ledger the newest seq written to device 1 is 7; the
flush of the pins up to seq 7 fails with `-EROFS`, which is returned with no other
call. -/
theorem flush_device_pins_target_witness :
    (0 : Int) ≤ 1 ∧
    device_flush_seq flush_env_erofs.metadata_replicas ledger_devs 1 = 7 ∧
    bch2_journal_flush_device_pins flush_env_erofs 10 ledger_devs 1 =
      some (-EROFS, [.flush_pins 7]) ∧
    bch2_journal_flush_device_pins flush_env_ok 10 ledger_devs 1 =
      some (0, [.flush_pins 7, .replicas_gc_lock, .replicas_gc_start,
        .mark_replicas [0, 1], .mark_replicas [0, 2], .mark_replicas [0, 1],
        .mark_replicas [0, 2], .replicas_gc_end 0, .replicas_gc_unlock]) ∧
    device_flush_seq flush_env_erofs.metadata_replicas ledger_devs 3 = 0 :=
  ⟨by decide, by decide,
    ((flush_device_pins_target flush_env_erofs 10 ledger_devs 1 (by decide)).2.2.2.1
      (by decide)).trans (by decide),
    by decide, by decide⟩

/-! ## C24: deleting an absent key -/

/-- C24 (deleting an absent key is a no-op). When the key at the position of the node
iterator does not compare equal to the insert key, or there is none, and the insert key
is a delete marker (`bkey_whiteout`), `bch2_btree_bset_insert_key` returns false with
the node and the insert key as they were and without a call, and
`bch2_insert_fixup_key` returns the state it was given: nothing is logged to the
journal, the pin ledger is untouched and the node, its flags included, is unchanged. -/
theorem delete_absent_noop (env : leaf_env n) (tr : leaf_trans) (btree_id : Nat)
    (s : leaf_state n) (insert : bkey_i)
    (habsent : ∀ k, env.bch2_btree_node_iter_peek_all s.b = some k →
      env.bkey_cmp_packed (s.b.keys k) insert ≠ 0)
    (hdel : env.bkey_whiteout insert.type = true) :
    bch2_btree_bset_insert_key env s.b insert =
      .ok { ret := false, b := s.b, insert := insert, events := [] } ∧
    bch2_insert_fixup_key env tr btree_id s insert = .ok (s, insert) ∧
    (∀ s1 i1, bch2_insert_fixup_key env tr btree_id s insert = .ok (s1, i1) →
      s1.events = s.events ∧ s1.j = s.j ∧ s1.b = s.b ∧
      btree_node_dirty s1.b = btree_node_dirty s.b) := by
  have h1 : bch2_btree_bset_insert_key env s.b insert =
      .ok { ret := false, b := s.b, insert := insert, events := [] } := by
    unfold bch2_btree_bset_insert_key
    cases hp : env.bch2_btree_node_iter_peek_all s.b with
    | none => simp [hdel]
    | some k => simp [habsent k hp, hdel]
  have h2 : bch2_insert_fixup_key env tr btree_id s insert = .ok (s, insert) := by
    unfold bch2_insert_fixup_key
    rw [h1]
    simp
  refine ⟨h1, h2, ?_⟩
  intro s1 i1 h
  rw [h2] at h
  cases h
  exact ⟨rfl, rfl, rfl, rfl⟩

/-- Witness for C24: the example leaf has the key of position 10 at the node iterator;
deleting position 11 changes nothing. -/
theorem delete_absent_noop_witness :
    leaf_env_ex.bkey_whiteout key_delete_absent.type = true ∧
    bch2_btree_bset_insert_key leaf_env_ex leaf_ex.b key_delete_absent =
      .ok { ret := false, b := leaf_ex.b, insert := key_delete_absent, events := [] } ∧
    bch2_insert_fixup_key leaf_env_ex leaf_trans_ex 3 leaf_ex key_delete_absent =
      .ok (leaf_ex, key_delete_absent) :=
  ⟨by decide,
    (delete_absent_noop leaf_env_ex leaf_trans_ex 3 leaf_ex key_delete_absent
      (fun k hk => by cases hk; decide) (by decide)).1,
    (delete_absent_noop leaf_env_ex leaf_trans_ex 3 leaf_ex key_delete_absent
      (fun k hk => by cases hk; decide) (by decide)).2.1⟩

/-! ## C25: overwriting a key in place -/

/-- C25 (in-place overwrite). When the key `k` at the position of the node iterator
compares equal to the insert key, `k` is not a whiteout (the assertion of the function),
`k` has not been written out, the value of the insert has the size of the value of `k`
and the insert is not a delete marker, `bch2_btree_bset_insert_key` returns true after
replacing the type and the value of `k` with those of the insert: the position, the size
and the `needs_whiteout` bit of `k`, every other key of the node, the accounting of the
live keys and every other field of the node are unchanged, the insert key is as it was
and no call is made. -/
theorem overwrite_in_place (env : leaf_env n) (b : btree n) (insert : bkey_i) (k : Nat)
    (hpeek : env.bch2_btree_node_iter_peek_all b = some k)
    (hcmp : env.bkey_cmp_packed (b.keys k) insert = 0)
    (hlive : env.bkey_whiteout (b.keys k).type = false)
    (hunwritten : env.bkey_written b k = false)
    (hsize : insert.val.length = (b.keys k).val.length)
    (hins : env.bkey_whiteout insert.type = false) :
    ∃ r, bch2_btree_bset_insert_key env b insert = .ok r ∧ r.ret = true ∧
      (r.b.keys k).type = insert.type ∧ (r.b.keys k).val = insert.val ∧
      (r.b.keys k).p = (b.keys k).p ∧ (r.b.keys k).u64s = (b.keys k).u64s ∧
      (r.b.keys k).val.length = (b.keys k).val.length ∧
      (r.b.keys k).needs_whiteout = (b.keys k).needs_whiteout ∧
      (∀ k', k' ≠ k → r.b.keys k' = b.keys k') ∧
      r.b.nr = b.nr ∧ r.b.flags = b.flags ∧ r.b.whiteout_u64s = b.whiteout_u64s ∧
      r.b.journal_seq = b.journal_seq ∧ r.b.writes = b.writes ∧
      r.insert = insert ∧ r.events = [] := by
  have hdrop : (b.keys k).val.drop insert.val.length = [] := by
    rw [hsize]
    exact List.drop_length _
  refine ⟨{ ret := true
            b := { b with keys := Function.update b.keys k { b.keys k with
                    type := insert.type
                    val := insert.val ++ (b.keys k).val.drop insert.val.length } }
            insert := insert
            events := [] },
    ?_, rfl, ?_, ?_, ?_, ?_, ?_, ?_, ?_, rfl, rfl, rfl, rfl, rfl, rfl, rfl⟩
  · unfold bch2_btree_bset_insert_key
    simp only [hpeek, hcmp, if_true, hlive, Bool.false_eq_true, if_false, hunwritten, hsize,
      hins, Bool.not_false, beq_self_eq_true, Bool.and_self]
  · simp
  · simp [hdrop]
  · simp
  · simp
  · simp [hdrop, hsize]
  · simp
  · intro k' hk'
    simp [Function.update_noteq hk']

/-- Witness for C25: on the example leaf the key of position 10 with the value words 7
and 8 is overwritten in place by the key of type 2 with the value words 9 and 9. -/
theorem overwrite_in_place_witness :
    ∃ r, bch2_btree_bset_insert_key leaf_env_ex node_ex key_overwrite = .ok r ∧ r.ret = true ∧
      (r.b.keys 0).type = 2 ∧ (r.b.keys 0).val = [9, 9] ∧ (r.b.keys 0).p = 10 ∧
      (∀ k', k' ≠ 0 → r.b.keys k' = node_ex.keys k') ∧ r.events = [] := by
  obtain ⟨r, h1, h2, h3, h4, h5, _, _, _, h9, _, _, _, _, _, _, h16⟩ :=
    overwrite_in_place leaf_env_ex node_ex key_overwrite 0 rfl (by decide) (by decide) rfl
      (by decide) (by decide)
  exact ⟨r, h1, h2, h3, h4, h5, h9, h16⟩

/-! ## C30: the pin of a leaf's write buffer -/

theorem set_dirty_write_idx (b : btree n) :
    btree_node_write_idx (set_btree_node_dirty b) = btree_node_write_idx b := by
  unfold btree_node_write_idx set_btree_node_dirty
  simp only [Nat.testBit_or]
  have : Nat.testBit (1 <<< BTREE_NODE_dirty) BTREE_NODE_write_idx = false := by decide
  rw [this, Bool.or_false]

theorem set_dirty_dirty (b : btree n) : btree_node_dirty (set_btree_node_dirty b) = true := by
  unfold btree_node_dirty set_btree_node_dirty
  simp only [Nat.testBit_or]
  have : Nat.testBit (1 <<< BTREE_NODE_dirty) BTREE_NODE_dirty = true := by decide
  rw [this, Bool.or_true]

/-- What `bch2_btree_journal_key` leaves of the node when it returns: the pins of the
two write buffers and the current write index are as before, and the node is dirty. -/
theorem journal_key_node (tr : leaf_trans) (btree_id : Nat) (s s' : leaf_state n)
    (insert : bkey_i) (h : bch2_btree_journal_key tr btree_id s insert = .ok s') :
    s'.b.writes = s.b.writes ∧ btree_node_write_idx s'.b = btree_node_write_idx s.b ∧
    btree_current_write s'.b = btree_current_write s.b ∧ btree_node_dirty s'.b = true := by
  unfold bch2_btree_journal_key at h
  simp only at h
  split at h
  · cases h
  · rename_i j1 hj
    cases h
    simp only
    have key : ∀ b1 : btree n, b1.flags = s.b.flags → b1.writes = s.b.writes →
        (if (!btree_node_dirty b1) = true then set_btree_node_dirty b1 else b1).writes =
          s.b.writes ∧
        btree_node_write_idx
          (if (!btree_node_dirty b1) = true then set_btree_node_dirty b1 else b1) =
          btree_node_write_idx s.b ∧
        btree_node_dirty
          (if (!btree_node_dirty b1) = true then set_btree_node_dirty b1 else b1) = true := by
      intro b1 hf hw
      have hidx : btree_node_write_idx b1 = btree_node_write_idx s.b := by
        unfold btree_node_write_idx
        rw [hf]
      by_cases hd : btree_node_dirty b1 = true
      · simp [hd, hw, hidx]
      · have hd' : btree_node_dirty b1 = false := by simpa using hd
        simp only [hd', Bool.not_false, if_true]
        exact ⟨hw, by rw [set_dirty_write_idx, hidx], set_dirty_dirty b1⟩
    have hk := key (if (!has_flag tr.flags BTREE_INSERT_JOURNAL_REPLAY) = true then
        { s.b with journal_seq := tr.journal_res_seq } else s.b)
      (by split <;> rfl) (by split <;> rfl)
    refine ⟨hk.1, hk.2.1, ?_, hk.2.2⟩
    unfold btree_current_write
    rw [hk.1, hk.2.1]

/-- When the pin of the current write buffer is active, `bch2_btree_journal_key` returns
and leaves the ledger as it is. -/
theorem journal_key_active (tr : leaf_trans) (btree_id : Nat) (s : leaf_state n)
    (insert : bkey_i)
    (h : journal_pin_active (s.j.pins (btree_current_write s.b)) = true) :
    ∃ s', bch2_btree_journal_key tr btree_id s insert = .ok s' ∧ s'.j = s.j := by
  unfold bch2_btree_journal_key
  simp only [h, Bool.not_true, Bool.false_eq_true, if_false]
  exact ⟨_, rfl, rfl⟩

/-- A run of `bch2_btree_journal_key` on a leaf whose current pin is active returns and
leaves the ledger as it is. -/
theorem journal_keys_run_active (btree_id : Nat) (calls : List (leaf_trans × bkey_i))
    (s : leaf_state n)
    (h : journal_pin_active (s.j.pins (btree_current_write s.b)) = true) :
    ∃ s2, journal_keys_run btree_id s calls = .ok s2 ∧ s2.j = s.j ∧
      btree_current_write s2.b = btree_current_write s.b := by
  induction calls generalizing s with
  | nil => exact ⟨s, rfl, rfl, rfl⟩
  | cons c rest ih =>
    obtain ⟨s1, h1, h2⟩ := journal_key_active c.1 btree_id s c.2 h
    have hn := journal_key_node c.1 btree_id s s1 c.2 h1
    obtain ⟨s2, h3, h4, h5⟩ := ih s1 (by rw [h2, hn.2.2.1]; exact h)
    refine ⟨s2, ?_, by rw [h4, h2], by rw [h5, hn.2.2.1]⟩
    simp only [journal_keys_run, h1]
    exact h3

theorem write_idx_flush (b : btree n) :
    (if btree_node_write_idx b = 0 then some 0 else some 1) =
      some (btree_node_write_idx b) := by
  unfold btree_node_write_idx
  split <;> simp

/-- C30 (the pin of the current write buffer). Let `w` be the pin of the current write
buffer of the leaf and `seq` be `trans->journal_res.seq`, or `j->replay_journal_seq`
under `BTREE_INSERT_JOURNAL_REPLAY`; when `w` is inactive, let the pin list of `seq` have
a nonzero count (the assertion of the attach). Then `bch2_btree_journal_key` returns; if
`w` was active the ledger is unchanged, so `w` stays attached to the same seq; otherwise
`w` is attached to `seq` with the flush callback whose index is the current write index
of the node, and no other pin changes. In both cases `w` is active and the node is dirty
on return, the current write buffer being the same; and any further calls of
`bch2_btree_journal_key` on the leaf return and leave the ledger as the first call left
it, so that the pin stays at the seq of the first key. -/
theorem journal_key_pin (tr : leaf_trans) (btree_id : Nat) (s : leaf_state n)
    (insert : bkey_i)
    (hcount : journal_pin_active (s.j.pins (btree_current_write s.b)) = false →
      (s.j.pin.data (if has_flag tr.flags BTREE_INSERT_JOURNAL_REPLAY
        then tr.replay_journal_seq else tr.journal_res_seq)).count ≠ 0) :
    ∃ s', bch2_btree_journal_key tr btree_id s insert = .ok s' ∧
      btree_current_write s'.b = btree_current_write s.b ∧
      (journal_pin_active (s.j.pins (btree_current_write s.b)) = true → s'.j = s.j) ∧
      (journal_pin_active (s.j.pins (btree_current_write s.b)) = false →
        s'.j.pins (btree_current_write s.b) =
          { flush := some (btree_node_write_idx s.b)
            pin_list := some (if has_flag tr.flags BTREE_INSERT_JOURNAL_REPLAY
              then tr.replay_journal_seq else tr.journal_res_seq) } ∧
        bch2_journal_pin_seq s'.j (btree_current_write s.b) =
          (if has_flag tr.flags BTREE_INSERT_JOURNAL_REPLAY
            then tr.replay_journal_seq else tr.journal_res_seq) ∧
        ∀ q, q ≠ btree_current_write s.b → s'.j.pins q = s.j.pins q) ∧
      journal_pin_active (s'.j.pins (btree_current_write s'.b)) = true ∧
      btree_node_dirty s'.b = true ∧
      (∀ calls, ∃ s2, journal_keys_run btree_id s' calls = .ok s2 ∧ s2.j = s'.j ∧
        btree_current_write s2.b = btree_current_write s.b) := by
  by_cases hact : journal_pin_active (s.j.pins (btree_current_write s.b)) = true
  · obtain ⟨s', h1, h2⟩ := journal_key_active tr btree_id s insert hact
    have hn := journal_key_node tr btree_id s s' insert h1
    have hact' : journal_pin_active (s'.j.pins (btree_current_write s'.b)) = true := by
      rw [h2, hn.2.2.1]; exact hact
    refine ⟨s', h1, hn.2.2.1, fun _ => h2, fun hf => ?_, hact', hn.2.2.2, fun calls => ?_⟩
    · rw [hact] at hf; cases hf
    · obtain ⟨s2, h3, h4, h5⟩ := journal_keys_run_active btree_id calls s' hact'
      exact ⟨s2, h3, h4, by rw [h5, hn.2.2.1]⟩
  · have hina : journal_pin_active (s.j.pins (btree_current_write s.b)) = false := by
      simpa using hact
    have hpl : (s.j.pins (btree_current_write s.b)).pin_list = none := by
      unfold journal_pin_active at hina
      simpa using hina
    have hseq : ∀ (X : Type) (a c : X),
        (if (!has_flag tr.flags BTREE_INSERT_JOURNAL_REPLAY) = true then a else c) =
        (if has_flag tr.flags BTREE_INSERT_JOURNAL_REPLAY = true then c else a) := by
      intro X a c
      cases has_flag tr.flags BTREE_INSERT_JOURNAL_REPLAY <;> simp
    obtain ⟨j1, hj1⟩ := pin_add_returns s.j
      (if has_flag tr.flags BTREE_INSERT_JOURNAL_REPLAY
        then tr.replay_journal_seq else tr.journal_res_seq)
      (btree_current_write s.b) (some (btree_node_write_idx s.b)) hpl (hcount hina)
    have hcall : ∃ s', bch2_btree_journal_key tr btree_id s insert = .ok s' ∧ s'.j = j1 := by
      unfold bch2_btree_journal_key
      simp only [hina, Bool.not_false, if_true]
      have hidx : btree_node_write_idx
          (if (!has_flag tr.flags BTREE_INSERT_JOURNAL_REPLAY) = true then
            { s.b with journal_seq := tr.journal_res_seq } else s.b) =
          btree_node_write_idx s.b := by
        split <;> rfl
      rw [hidx, write_idx_flush, hseq]
      unfold bch2_journal_pin_add journal_seq_pin
      rw [hj1]
      exact ⟨_, rfl, rfl⟩
    obtain ⟨s', h1, h2⟩ := hcall
    have hn := journal_key_node tr btree_id s s' insert h1
    obtain ⟨_, _, e, _, _, _, _, hj⟩ := pin_add_ok _ _ _ _ _ hj1
    have hpin : s'.j.pins (btree_current_write s.b) =
        { flush := some (btree_node_write_idx s.b)
          pin_list := some (if has_flag tr.flags BTREE_INSERT_JOURNAL_REPLAY
            then tr.replay_journal_seq else tr.journal_res_seq) } := by
      rw [h2, hj]
      simp
    have hact' : journal_pin_active (s'.j.pins (btree_current_write s'.b)) = true := by
      rw [hn.2.2.1, hpin]
      rfl
    refine ⟨s', h1, hn.2.2.1, fun ht => ?_, fun _ => ⟨hpin, ?_, fun q hq => ?_⟩, hact',
      hn.2.2.2, fun calls => ?_⟩
    · rw [hina] at ht; cases ht
    · simp [bch2_journal_pin_seq, hpin, journal_pin_seq, fifo_entry_idx_abs]
    · rw [h2, hj]
      simp [Function.update_noteq hq]
    · obtain ⟨s2, h3, h4, h5⟩ := journal_keys_run_active btree_id calls s' hact'
      exact ⟨s2, h3, h4, by rw [h5, hn.2.2.1]⟩

/-- Witness for C30: on the example leaf the pin of the current write buffer, pin 2, is
inactive; logging a key with the journal reservation at seq 8 attaches it to seq 8 with
the flush callback 0 and marks the node dirty. -/
theorem journal_key_pin_witness :
    ∃ s', bch2_btree_journal_key leaf_trans_ex 3 leaf_ex key_overwrite = .ok s' ∧
      s'.j.pins 2 = { flush := some 0, pin_list := some 8 } ∧
      btree_node_dirty s'.b = true := by
  obtain ⟨s', h1, _, _, h4, _, h6, _⟩ :=
    journal_key_pin leaf_trans_ex 3 leaf_ex key_overwrite (fun _ => by decide)
  exact ⟨s', h1, (h4 rfl).1, h6⟩

end Bcachefs
